import Mathlib

/-!
Verification of the Graphine base graph library (`graph/base.py`) against its
natural-language specification.

The Python classes `Node`, `Edge` and `Graph` are shallowly embedded.  Python
objects are cyclic (nodes hold edge objects, edges hold node objects), so the
embedding keys every element by its name, exactly as the library itself does:
`Graph._nodes` and `Graph._edges` are dicts keyed by `element._name`, and the
library's `__eq__`/`__hash__` compare elements by name alone.  Adjacency lists
(`_incoming`, `_outgoing`, `_bidirectional`) therefore become lists of edge
names, and an edge's `_start`/`_end` become node names.  Unnamed elements get
`id(self)` in Python; the embedding issues those from a monotone counter kept
in the graph state (`PName.auto`), which never collides with user names.

Python dicts are modelled as insertion-ordered association lists where
assignment to an existing key replaces the value in place.

Exceptions: Python mutating methods can raise after having already mutated the
graph, so the monad `GM` below carries the graph state through an error — the
state paired with an `Except.error` is the state at raise time, which is what
the spec's atomicity claims are about.
-/

/-- Exception classes that can propagate out of the embedded code.  The last
three are the classes named by the specification; they do not occur anywhere
in the source, and the embedding never produces them, but carrying them in the
type lets claims about them be stated and refuted. -/
inductive PyErr : Type
| keyError
| valueError
| attributeError
| typeError
| nameError
| unknownElementError
| ambiguousContractionError
| duplicateAttributeError
deriving DecidableEq, Repr

/-- Element names: a user-supplied string, a user-supplied integer, or an
automatically assigned identity (Python's `id(self)`, modelled by a counter). -/
inductive PName : Type
| s (v : String)
| i (v : Int)
| auto (v : Nat)
deriving DecidableEq, Repr

instance : Inhabited PName := ⟨PName.auto 0⟩

/-- Comparison used by `GraphElement.__lt__` (`self.name < other.name`).
Python 3 can only compare names of the same kind; comparing mixed kinds raises
`TypeError`, which no code path relevant here does, so mixed kinds are mapped
to `False`. -/
def pnameLt : PName → PName → Bool
| PName.s a, PName.s b => a < b
| PName.i a, PName.i b => a < b
| PName.auto a, PName.auto b => a < b
| _, _ => false

/-- Attribute values.  The claims only ever attach integers, so the open value
universe of Python is modelled by `Int`. -/
abbrev Value := Int

/-- Attribute dictionaries: insertion-ordered string-keyed maps. -/
abbrev Attrs := List (String × Value)

/-- Lookup in an insertion-ordered dict (first matching key wins). -/
def dictGet {K V : Type} [DecidableEq K] : List (K × V) → K → Option V
| [], _ => none
| (k', v) :: t, k => if k' = k then some v else dictGet t k

/-- Assignment `d[k] = v`: replaces in place if the key exists, else appends,
matching insertion-ordered dict semantics. -/
def dictSet {K V : Type} [DecidableEq K] : List (K × V) → K → V → List (K × V)
| [], k, v => [(k, v)]
| (k', v') :: t, k, v => if k' = k then (k', v) :: t else (k', v') :: dictSet t k v

/-- Deletion `d.pop(k)` (the value is ignored; call sites check presence). -/
def dictPop {K V : Type} [DecidableEq K] : List (K × V) → K → List (K × V)
| [], _ => []
| (k', v') :: t, k => if k' = k then t else (k', v') :: dictPop t k

/-- In-place update of the value stored under a key; identity if absent. -/
def dictAdjust {K V : Type} [DecidableEq K] : List (K × V) → K → (V → V) → List (K × V)
| [], _, _ => []
| (k', v') :: t, k, f => if k' = k then (k', f v') :: t else (k', v') :: dictAdjust t k f

/-- Key list of a dict, in storage order. -/
def dictKeys {K V : Type} (l : List (K × V)) : List K := l.map Prod.fst

/-- Python dict equality ignores insertion order: equal key sets, equal values. -/
def attrsEqv (a b : Attrs) : Prop :=
  ∀ k, dictGet a k = dictGet b k

instance (a b : Attrs) : Decidable (attrsEqv a b) :=
  decidable_of_iff
    ((∀ kv ∈ a, dictGet a kv.1 = dictGet b kv.1) ∧
      (∀ kv ∈ b, dictGet a kv.1 = dictGet b kv.1))
    (by
      have dmem : ∀ (l : Attrs) (k : String) (v : Value), dictGet l k = some v → (k, v) ∈ l := by
        intro l
        induction l with
        | nil => intro k v h; cases h
        | cons hd tl ih =>
          intro k v h
          by_cases hk : hd.1 = k
          · simp only [dictGet] at h
            rw [if_pos hk] at h
            cases h
            subst hk
            exact List.mem_cons_self _ _
          · simp only [dictGet] at h
            rw [if_neg hk] at h
            exact List.mem_cons_of_mem _ (ih k v h)
      constructor
      · rintro ⟨h1, h2⟩ k
        cases ha : dictGet a k with
        | some v => rw [← ha]; exact h1 (k, v) (dmem a k v ha)
        | none =>
          cases hb : dictGet b k with
          | some w => rw [← ha, ← hb]; exact h2 (k, w) (dmem b k w hb)
          | none => rfl
      · intro h
        exact ⟨fun kv _ => h kv.1, fun kv _ => h kv.1⟩)

/-- State of a `Node` object: its public attribute dict (`data`) and the three
private adjacency lists, holding edge names. -/
structure NodeRec : Type where
  data : Attrs
  incoming : List PName
  outgoing : List PName
  bidirectional : List PName
deriving DecidableEq, Repr

instance : Inhabited NodeRec := ⟨⟨[], [], [], []⟩⟩

/-- State of an `Edge` object: endpoints by node name, the `is_directed` flag,
and the public attribute dict. -/
structure EdgeRec : Type where
  start : PName
  endp : PName
  directed : Bool
  data : Attrs
deriving DecidableEq, Repr

/-- State of a `Graph`: the two name-keyed stores plus the counter issuing
automatic names (Python's `id(self)`). -/
structure Graph : Type where
  nodes : List (PName × NodeRec)
  edges : List (PName × EdgeRec)
  counter : Nat
deriving DecidableEq, Repr

def newGraph : Graph := ⟨[], [], 0⟩

def nodeKeys (g : Graph) : List PName := dictKeys g.nodes

def edgeKeys (g : Graph) : List PName := dictKeys g.edges

/-- Result of `Graph.get_element`: either an edge or a node, identified by the
name it is stored under. -/
inductive Elem : Type
| edge (n : PName)
| node (n : PName)
deriving DecidableEq, Repr

/-- Translation of `Graph.get_element`: the edge store is consulted first,
then the node store; `KeyError` on a miss. -/
def getElement (g : Graph) (x : PName) : Except PyErr Elem :=
  if (dictGet g.edges x).isSome then Except.ok (Elem.edge x)
  else if (dictGet g.nodes x).isSome then Except.ok (Elem.node x)
  else Except.error PyErr.keyError

/-- Translation of `__contains__` for a `Node` argument: name in `_nodes`. -/
def containsNode (g : Graph) (x : PName) : Bool := (dictGet g.nodes x).isSome

/-- Translation of `__contains__` for an `Edge` argument: name in `_edges`. -/
def containsEdge (g : Graph) (x : PName) : Bool := (dictGet g.edges x).isSome

/-- The mutation monad: state (the graph) threaded through exceptions, so that
the state paired with an error is the state at raise time. -/
def GM (α : Type) : Type := Graph → Except PyErr α × Graph

instance : Monad GM where
  pure a := fun g => (Except.ok a, g)
  bind x f := fun g =>
    match x g with
    | (Except.ok a, g') => f a g'
    | (Except.error e, g') => (Except.error e, g')

def GM.throw {α : Type} (e : PyErr) : GM α := fun g => (Except.error e, g)

def GM.getG : GM Graph := fun g => (Except.ok g, g)

def GM.setG (g' : Graph) : GM Unit := fun _ => (Except.ok (), g')

def GM.modifyG (f : Graph → Graph) : GM Unit := fun g => (Except.ok (), f g)

def GM.ofExcept {α : Type} (x : Except PyErr α) : GM α := fun g => (x, g)

/-- Monadic `get_element` against the current state. -/
def getElementM (x : PName) : GM Elem := do
  let g ← GM.getG
  GM.ofExcept (getElement g x)

/-!  Node views and adjacency (`Node.incoming`, `Node.outgoing`,
`Node.bidirectional`, `Node.edges`, `Node.degree`, `Node.get_adjacent`). -/

/-- Appends `x` unless already present; used wherever the source guards an
`append` with a membership test or builds a list behind a `seen` set. -/
def pyAppendNew {α : Type} [DecidableEq α] (q : List α) (x : α) : List α :=
  if x ∈ q then q else q ++ [x]

/-- First-occurrence deduplication, the order produced by filling a list while
tracking a `seen` set. -/
def dedupFirst {α : Type} [DecidableEq α] (l : List α) : List α :=
  l.foldl pyAppendNew []

/-- The record a node name denotes in a graph; a fresh empty node if absent
(in Python the object always exists — the default is never hit on the states
the library itself produces, where adjacency lists only name stored edges). -/
def nodeRec (g : Graph) (n : PName) : NodeRec := (dictGet g.nodes n).getD default

/-- Translation of the `Node.incoming` property: `_incoming + _bidirectional`
(a fresh list). -/
def incomingView (g : Graph) (n : PName) : List PName :=
  (nodeRec g n).incoming ++ (nodeRec g n).bidirectional

/-- Translation of the `Node.outgoing` property: `_outgoing + _bidirectional`. -/
def outgoingView (g : Graph) (n : PName) : List PName :=
  (nodeRec g n).outgoing ++ (nodeRec g n).bidirectional

/-- Translation of the `Node.bidirectional` property. -/
def bidirectionalView (g : Graph) (n : PName) : List PName :=
  (nodeRec g n).bidirectional

/-- Translation of the `Node.edges` property: `list(set(_incoming + _outgoing
+ _bidirectional))`.  A Python `set` has unspecified order; the embedding
fixes first-occurrence order, which no claim depends on. -/
def edgesView (g : Graph) (n : PName) : List PName :=
  dedupFirst ((nodeRec g n).incoming ++ (nodeRec g n).outgoing ++ (nodeRec g n).bidirectional)

/-- Translation of the `Node.degree` property. -/
def degreeView (g : Graph) (n : PName) : Nat := (edgesView g n).length

/-- The `Edge.other_end` convenience, totalised: for an edge listed in a
node's adjacency the node is an endpoint and `other_end` never raises, and
there it agrees with this function (the `AttributeError` branch of the source
is kept separately in `otherEnd` for the call sites that can reach it). -/
def otherEndD (e : EdgeRec) (n : PName) : PName :=
  if e.start = n then e.endp else e.start

/-- Faithful translation of `Edge.other_end`, including its failure branch. -/
def otherEnd (e : EdgeRec) (n : PName) : Except PyErr PName :=
  if e.start = n then Except.ok e.endp
  else if ¬e.directed ∧ e.endp = n then Except.ok e.start
  else Except.error PyErr.attributeError

/-- Translation of `Node.get_adjacent(outgoing=True, incoming=False)`: ends of
outgoing edges, then (optionally) starts of incoming edges, then the opposite
ends of bidirectional edges, deduplicated by a `seen` set in that order.
Adjacency names missing from the edge store (never the case on library-built
states) are skipped. -/
def getAdjacent (g : Graph) (n : PName) (outg : Bool := true) (inc : Bool := false) :
    List PName :=
  let r := nodeRec g n
  let s1 := if outg then r.outgoing.filterMap (fun en => (dictGet g.edges en).map EdgeRec.endp)
            else []
  let s2 := if inc then r.incoming.filterMap (fun en => (dictGet g.edges en).map EdgeRec.start)
            else []
  let s3 := if outg || inc then
              r.bidirectional.filterMap (fun en => (dictGet g.edges en).map (otherEndD · n))
            else []
  dedupFirst (s1 ++ s2 ++ s3)

/-!  Element construction (`Node.__init__`, `Edge.__init__`).

Keyword attributes are installed with `setattr`.  A keyword naming a read-only
property of the class (a data descriptor without a setter) makes `setattr`
raise `AttributeError`; any other keyword is silently stored as an ordinary
attribute and shows up in `data`.  Keywords equal to a declared parameter name
(`name`; for edges also `start`, `end`, `is_directed`) are bound to that
parameter by Python's call machinery and can never reach `**kwargs`, so they
never occur in the `Attrs` argument of the embedded constructors. -/

/-- Read-only properties of `Node` (including the inherited `name`, `data`):
the keyword names whose `setattr` raises `AttributeError`. -/
def nodeReservedKeys : List String :=
  ["name", "data", "incoming", "outgoing", "bidirectional", "edges", "degree"]

/-- Read-only properties of `Edge` (including the inherited `name`, `data`). -/
def edgeReservedKeys : List String :=
  ["name", "data", "start", "end", "is_directed"]

/-- The `setattr` loop shared by `Node.__init__` and `Edge.__init__`: installs
attributes left to right, raising `AttributeError` at the first reserved key.
On error the partially built object is discarded by the caller, so only the
error matters. -/
def buildData (reserved : List String) : Attrs → Attrs → Except PyErr Attrs
| acc, [] => Except.ok acc
| acc, (k, v) :: t =>
    if k ∈ reserved then Except.error PyErr.attributeError
    else buildData reserved (dictSet acc k v) t

/-!  Graph construction and removal (`add_node`, `add_edge`, `remove_node`,
`remove_edge`). -/

/-- Translation of `Graph.add_node`: build the node (which may raise), then
store it under its name — replacing any existing node of that name, the
documented sharp edge. -/
def addNode (nm : Option PName) (attrs : Attrs) : GM PName := do
  match buildData nodeReservedKeys [] attrs with
  | Except.error e => GM.throw e
  | Except.ok d => do
    let g ← GM.getG
    let name := nm.getD (PName.auto g.counter)
    let counter' := if nm.isSome then g.counter else g.counter + 1
    GM.setG { g with nodes := dictSet g.nodes name ⟨d, [], [], []⟩, counter := counter' }
    pure name

/-- Appends an edge name to one adjacency list of the element `el`.  When `el`
is a node present in the store the list is updated; a foreign node object
(name not in the store) keeps its adjacency outside the graph state, so the
store is unchanged; when `el` is an edge, Python's attribute lookup on the
missing `_outgoing`/`_incoming`/`_bidirectional` raises `AttributeError`. -/
def appendAdj (el : Elem) (f : NodeRec → NodeRec) : GM Unit :=
  match el with
  | Elem.node n => GM.modifyG (fun g => { g with nodes := dictAdjust g.nodes n f })
  | Elem.edge _ => GM.throw PyErr.attributeError

def pushIncoming (en : PName) (r : NodeRec) : NodeRec :=
  { r with incoming := r.incoming ++ [en] }

def pushOutgoing (en : PName) (r : NodeRec) : NodeRec :=
  { r with outgoing := r.outgoing ++ [en] }

def pushBidirectional (en : PName) (r : NodeRec) : NodeRec :=
  { r with bidirectional := r.bidirectional ++ [en] }

/-- Translation of `Graph.add_edge`: resolve both endpoints with
`get_element` (which prefers the edge store), build the edge (which may
raise), store it under its name, then update adjacency.  The adjacency step
happens after the store and can raise `AttributeError` when an endpoint
resolved to an edge, leaving the stored edge behind — the embedding keeps
that partial state.  The `start is not end` guard compares resolved objects,
which for store-resolved elements coincides with name equality. -/
def addEdge (s e : PName) (nm : Option PName) (directed : Bool) (attrs : Attrs) :
    GM PName := do
  let sEl ← getElementM s
  let eEl ← getElementM e
  match buildData edgeReservedKeys [] attrs with
  | Except.error err => GM.throw err
  | Except.ok d => do
    let g ← GM.getG
    let name := nm.getD (PName.auto g.counter)
    let counter' := if nm.isSome then g.counter else g.counter + 1
    GM.setG { g with edges := dictSet g.edges name ⟨s, e, directed, d⟩, counter := counter' }
    if directed then do
      appendAdj sEl (pushOutgoing name)
      appendAdj eEl (pushIncoming name)
    else do
      appendAdj sEl (pushBidirectional name)
      if s ≠ e then appendAdj eEl (pushBidirectional name)
    pure name

/-- The `list.remove` call on an adjacency list: removes the first element
equal to the edge (the library compares by name), raising `ValueError` when no
occurrence exists.  Looking up a node name absent from the store cannot happen
on library-built states; the embedding raises `KeyError` there. -/
def removeAdj (n : PName) (sel : NodeRec → List PName)
    (upd : NodeRec → List PName → NodeRec) (en : PName) : GM Unit := do
  let g ← GM.getG
  match dictGet g.nodes n with
  | none => GM.throw PyErr.keyError
  | some r =>
      if en ∈ sel r then
        GM.setG { g with nodes := dictAdjust g.nodes n (fun r0 => upd r0 ((sel r0).erase en)) }
      else GM.throw PyErr.valueError

def setIncoming (r : NodeRec) (l : List PName) : NodeRec := { r with incoming := l }

def setOutgoing (r : NodeRec) (l : List PName) : NodeRec := { r with outgoing := l }

def setBidirectional (r : NodeRec) (l : List PName) : NodeRec := { r with bidirectional := l }

/-- Translation of `Graph.remove_edge`: resolve, detach from the endpoints'
adjacency lists (once only for an undirected self-loop), then pop from the
store.  `get_element` returning a node makes the subsequent `edge.start`
attribute access raise. -/
def removeEdge (x : PName) : GM PName := do
  let el ← getElementM x
  match el with
  | Elem.node _ => GM.throw PyErr.attributeError
  | Elem.edge en => do
    let g ← GM.getG
    match dictGet g.edges en with
    | none => GM.throw PyErr.keyError
    | some e => do
      if e.directed then do
        removeAdj e.start NodeRec.outgoing setOutgoing en
        removeAdj e.endp NodeRec.incoming setIncoming en
      else do
        removeAdj e.start NodeRec.bidirectional setBidirectional en
        if e.start ≠ e.endp then removeAdj e.endp NodeRec.bidirectional setBidirectional en
      GM.modifyG (fun g0 => { g0 with edges := dictPop g0.edges en })
      pure en

/-- Translation of `Graph.remove_node`: resolve, remove every incident edge
(iterating over the snapshot the `edges` property returns), then pop the node.
`get_element` returning an edge makes the `node.edges` access raise. -/
def removeNode (x : PName) : GM PName := do
  let el ← getElementM x
  match el with
  | Elem.edge _ => GM.throw PyErr.attributeError
  | Elem.node n => do
    let g ← GM.getG
    match dictGet g.nodes n with
    | none => GM.throw PyErr.keyError
    | some _ => do
      let es := edgesView g n
      es.forM (fun en => do let _ ← removeEdge en; pure ())
      GM.modifyG (fun g0 => { g0 with nodes := dictPop g0.nodes n })
      pure n

/-!  Graph rewriting (`move_edge`, `contract_edge`, `transpose`). -/

/-- A bare `try ... except: pass` around a mutation: any error is swallowed
and the state reached at raise time is kept. -/
def tryAll (m : GM Unit) : GM Unit := fun g =>
  match m g with
  | (Except.ok _, g') => (Except.ok (), g')
  | (Except.error _, g') => (Except.ok (), g')

/-- A `try ... except KeyError: pass` around a mutation. -/
def tryKeyError (m : GM Unit) : GM Unit := fun g =>
  match m g with
  | (Except.ok _, g') => (Except.ok (), g')
  | (Except.error PyErr.keyError, g') => (Except.ok (), g')
  | (Except.error e, g') => (Except.error e, g')

/-- Translation of `Graph.move_edge(edge, start=None, end=None)`.  The new
endpoints stand for node objects (`none` = argument omitted); a foreign node
object leaves the store untouched (its own adjacency lives outside the state).
The undirected detach is wrapped in a bare `try/except`, so for a self-loop
the second `remove` fails silently and the entry is removed once.  The final
`start is not end` guard compares the raw arguments; `none` stands for
Python's `None`, and name equality stands for object identity, which agrees
for store-resolved nodes. -/
def moveEdge (x : PName) (newStart newEnd : Option PName) : GM PName := do
  let el ← getElementM x
  match el with
  | Elem.node _ => GM.throw PyErr.attributeError
  | Elem.edge en => do
    let g ← GM.getG
    match dictGet g.edges en with
    | none => GM.throw PyErr.keyError
    | some e => do
      if e.directed then do
        removeAdj e.start NodeRec.outgoing setOutgoing en
        removeAdj e.endp NodeRec.incoming setIncoming en
      else
        tryAll (do
          removeAdj e.start NodeRec.bidirectional setBidirectional en
          removeAdj e.endp NodeRec.bidirectional setBidirectional en)
      let s' := newStart.getD e.start
      let e' := newEnd.getD e.endp
      GM.modifyG (fun g0 => { g0 with edges := dictSet g0.edges en { e with start := s', endp := e' } })
      if e.directed then do
        GM.modifyG (fun g0 => { g0 with nodes := dictAdjust g0.nodes s' (pushOutgoing en) })
        GM.modifyG (fun g0 => { g0 with nodes := dictAdjust g0.nodes e' (pushIncoming en) })
      else do
        GM.modifyG (fun g0 => { g0 with nodes := dictAdjust g0.nodes s' (pushBidirectional en) })
        if newStart ≠ newEnd then
          GM.modifyG (fun g0 => { g0 with nodes := dictAdjust g0.nodes e' (pushBidirectional en) })
      pure en

/-- The loop body of `Graph.transpose` over a fixed key snapshot (the dict of
edges is not resized by `move_edge`, so iterating the live view equals
iterating the snapshot of its keys). -/
def transposeList : List PName → GM Unit
| [] => pure ()
| en :: t => do
    let g ← GM.getG
    match dictGet g.edges en with
    | none => pure ()
    | some e => do
      let _ ← moveEdge en (some e.endp) (some e.start)
      transposeList t

/-- Translation of `Graph.transpose`: `move_edge(e, start=e.end, end=e.start)`
for every edge. -/
def transpose : GM Unit := do
  let g ← GM.getG
  transposeList (edgeKeys g)

/-- Translation of `Graph.contract_edge(edge, node_data)`.  `node_data` is
passed the two endpoint node objects and returns the attribute dict of the
replacement node (the anonymous-name case; the claims never name it).
Despite the comment in the source, no multiplicity check is performed before
contracting.  The final `remove_node` pair sits in `try ... except KeyError`. -/
def contractEdge (x : PName) (nodeData : NodeRec → NodeRec → Attrs) : GM PName := do
  let el ← getElementM x
  match el with
  | Elem.node _ => GM.throw PyErr.attributeError
  | Elem.edge en => do
    let g ← GM.getG
    match dictGet g.edges en with
    | none => GM.throw PyErr.keyError
    | some e0 => do
      let s := e0.start
      let t := e0.endp
      let newName ← addNode none (nodeData (nodeRec g s) (nodeRec g t))
      let _ ← removeEdge en
      let g1 ← GM.getG
      let incList := incomingView g1 s ++ incomingView g1 t
      incList.forM (fun en2 => do let _ ← moveEdge en2 none (some newName); pure ())
      let g2 ← GM.getG
      let outList := outgoingView g2 s ++ outgoingView g2 t
      outList.forM (fun en2 => do let _ ← moveEdge en2 (some newName) none; pure ())
      tryKeyError (do
        let _ ← removeNode s
        let _ ← removeNode t
        pure ())
      pure newName

/-!  Subgraph induction and the comparison operations used by the claims. -/

/-- Node loop of `induce_subgraph`: resolve each argument in the source graph
and copy name and data into the new graph (when a name resolves to an edge the
source still copies its `name`/`data`, as `get_element` prefers edges). -/
def induceNodesLoop (g : Graph) : List PName → GM Unit
| [] => pure ()
| x :: t => do
    match getElement g x with
    | Except.error e => GM.throw e
    | Except.ok (Elem.node n) => do
      let _ ← addNode (some n) (nodeRec g n).data
      induceNodesLoop g t
    | Except.ok (Elem.edge n) => do
      let _ ← addNode (some n) (((dictGet g.edges n).getD ⟨n, n, true, []⟩).data)
      induceNodesLoop g t

/-- Edge loop of `induce_subgraph`: copy every source edge whose endpoints
both made it into the new graph.  The source computes `is_directed` but does
not pass it to `add_edge`, so every copied edge is directed — translated
as-is. -/
def induceEdgesLoop : List (PName × EdgeRec) → GM Unit
| [] => pure ()
| (en, e) :: t => do
    let cur ← GM.getG
    if containsNode cur e.start ∧ containsNode cur e.endp then do
      let _ ← addEdge e.start e.endp (some en) true e.data
      induceEdgesLoop t
    else induceEdgesLoop t

/-- Translation of `Graph.induce_subgraph(*nodes)`. -/
def induceSubgraph (g : Graph) (ns : List PName) : Except PyErr Graph :=
  match (do
    induceNodesLoop g ns
    induceEdgesLoop g.edges : GM Unit) newGraph with
  | (Except.ok _, out) => Except.ok out
  | (Except.error e, _) => Except.error e

/-- First loop of `edge_induce_subgraph`: resolve each argument and add its
endpoints' names and data if missing.  The arguments stand for edge objects
of `g` (passing raw name strings would instead crash in the second loop on
`edge.start`). -/
def edgeInduceNodesLoop (g : Graph) : List PName → GM Unit
| [] => pure ()
| x :: t => do
    match getElement g x with
    | Except.error e => GM.throw e
    | Except.ok (Elem.node _) => GM.throw PyErr.attributeError
    | Except.ok (Elem.edge en) => do
      let e := (dictGet g.edges en).getD ⟨en, en, true, []⟩
      let cur ← GM.getG
      if containsNode cur e.start = false then do
        let _ ← addNode (some e.start) (nodeRec g e.start).data
        pure ()
      let cur2 ← GM.getG
      if containsNode cur2 e.endp = false then do
        let _ ← addNode (some e.endp) (nodeRec g e.endp).data
        pure ()
      edgeInduceNodesLoop g t

/-- Second loop of `edge_induce_subgraph`: copy the edges themselves (again
without forwarding `is_directed`). -/
def edgeInduceEdgesLoop (g : Graph) : List PName → GM Unit
| [] => pure ()
| x :: t => do
    match dictGet g.edges x with
    | none => GM.throw PyErr.attributeError
    | some e => do
      let _ ← addEdge e.start e.endp (some x) true e.data
      edgeInduceEdgesLoop g t

/-- Translation of `Graph.edge_induce_subgraph(*edges)`. -/
def edgeInduceSubgraph (g : Graph) (es : List PName) : Except PyErr Graph :=
  match (do
    edgeInduceNodesLoop g es
    edgeInduceEdgesLoop g es : GM Unit) newGraph with
  | (Except.ok _, out) => Except.ok out
  | (Except.error e, _) => Except.error e

/-- Node loops of `intersection`: first the nodes of `a` whose name `b` also
holds, then the nodes of `b` whose name `a` holds (recreating the latter
replaces the former in place, so `b`'s data wins for common names). -/
def intersectionNodesLoop (o : Graph) : List (PName × NodeRec) → GM Unit
| [] => pure ()
| (n, r) :: t => do
    if containsNode o n then do
      let _ ← addNode (some n) r.data
      intersectionNodesLoop o t
    else intersectionNodesLoop o t

/-- Edge loops of `intersection`: edges whose name appears in the other graph
and whose endpoints made it into the result (`is_directed` is forwarded
here). -/
def intersectionEdgesLoop (o : Graph) : List (PName × EdgeRec) → GM Unit
| [] => pure ()
| (en, e) :: t => do
    if containsEdge o en then do
      let cur ← GM.getG
      if containsNode cur e.start ∧ containsNode cur e.endp then do
        let _ ← addEdge e.start e.endp (some en) e.directed e.data
        intersectionEdgesLoop o t
      else intersectionEdgesLoop o t
    else intersectionEdgesLoop o t

/-- Translation of `Graph.intersection`. -/
def intersection (a b : Graph) : Except PyErr Graph :=
  match (do
    intersectionNodesLoop b a.nodes
    intersectionNodesLoop a b.nodes
    intersectionEdgesLoop b a.edges
    intersectionEdgesLoop a b.edges : GM Unit) newGraph with
  | (Except.ok _, out) => Except.ok out
  | (Except.error e, _) => Except.error e

/-!  Traversals (`heuristic_traversal`, `depth_first_traversal`,
`breadth_first_traversal`). -/

/-- The `s.pop(0)` selector of `breadth_first_traversal` (only ever called on
a non-empty list). -/
def popFront (l : List PName) : PName × List PName := (l.headD default, l.tail)

/-- The `s.pop()` selector of `depth_first_traversal`. -/
def popBack (l : List PName) : PName × List PName := (l.getLastD default, l.dropLast)

/-- Fuel that strictly bounds the number of loop iterations: every iteration
marks a previously unvisited name drawn from the root plus the stored edges'
endpoint names. -/
def traversalFuel (g : Graph) : Nat := g.nodes.length + 2 * g.edges.length + 1

/-- The loop of `heuristic_traversal`: while nodes are discovered but
unvisited, let the selector remove one, yield it, mark it visited, and append
its not-yet-visited, not-yet-discovered neighbours.  `visited` is a Python
set; `set(next.get_adjacent())` iterates in unspecified order, which the
embedding fixes to `get_adjacent` order. -/
def heuristicAux (g : Graph) (sel : List PName → PName × List PName) :
    Nat → List PName → Finset PName → List PName
| 0, _, _ => []
| fuel+1, discovered, visited =>
    if discovered = [] then []
    else
      let nxt := (sel discovered).1
      let rest := (sel discovered).2
      let visited' := insert nxt visited
      let notYet := (getAdjacent g nxt).filter (fun w => w ∉ visited')
      nxt :: heuristicAux g sel fuel (notYet.foldl pyAppendNew rest) visited'

/-- Translation of `Graph.heuristic_traversal(root, selector)`.  A root that
`get_element` resolves to an edge makes the generator fail on
`next.get_adjacent()` (in Python after having yielded the edge object; the
embedding keeps the error). -/
def heuristicTraversal (g : Graph) (root : PName)
    (sel : List PName → PName × List PName) : Except PyErr (List PName) :=
  match getElement g root with
  | Except.error e => Except.error e
  | Except.ok (Elem.edge _) => Except.error PyErr.attributeError
  | Except.ok (Elem.node n) => Except.ok (heuristicAux g sel (traversalFuel g) [n] ∅)

/-- Translation of `Graph.depth_first_traversal` (`lambda s: s.pop()`). -/
def depthFirstTraversal (g : Graph) (root : PName) : Except PyErr (List PName) :=
  heuristicTraversal g root popBack

/-- Translation of `Graph.breadth_first_traversal` (`lambda s: s.pop(0)`). -/
def breadthFirstTraversal (g : Graph) (root : PName) : Except PyErr (List PName) :=
  heuristicTraversal g root popFront

/-!  Shortest paths (`get_shortest_paths`), Dijkstra-style relaxation over a
minimum heap of `(distance, node)` pairs. -/

/-- Distances: `none` models the `float("inf")` default. -/
def addW : Option Int → Int → Option Int
| none, _ => none
| some a, b => some (a + b)

def ltW : Option Int → Option Int → Bool
| none, _ => false
| some _, none => true
| some a, some b => a < b

/-- Access to the `defaultdict`: reading a missing key inserts and returns the
default `(float("inf"), [])`. -/
def ddGet (p : List (PName × (Option Int × List PName))) (k : PName) :
    (Option Int × List PName) × List (PName × (Option Int × List PName)) :=
  match dictGet p k with
  | some v => (v, p)
  | none => ((none, []), p ++ [(k, (none, []))])

/-- Heap order on `(distance, node)` pairs: tuple comparison, with node names
compared by `Node.__lt__`.  (Mixed-kind names in one heap would raise in
Python; no relevant run produces them.) -/
def heapLt (a b : Int × PName) : Bool :=
  a.1 < b.1 || (a.1 = b.1 && pnameLt a.2 b.2)

def heapMin : List (Int × PName) → (Int × PName) → (Int × PName)
| [], m => m
| x :: t, m => heapMin t (if heapLt x m then x else m)

/-- `heapq.heappop`: removes and returns a minimal element (the internal array
layout differs, but the popped element and remaining multiset agree). -/
def heapPop (h : List (Int × PName)) : (Int × PName) × List (Int × PName) :=
  match h with
  | [] => ((0, default), [])
  | x :: t =>
      let m := heapMin t x
      (m, (x :: t).erase m)

/-- The `for edge in current.outgoing` relaxation loop: for each edge, compare
the path through `current` with the best path recorded for the opposite end,
and on improvement record it and push the end onto the heap. -/
def relaxLoop (g : Graph) (w : EdgeRec → Int) (current : PName) :
    List PName → List (Int × PName) → List (PName × (Option Int × List PName)) →
    List (Int × PName) × List (PName × (Option Int × List PName))
| [], heap, paths => (heap, paths)
| en :: t, heap, paths =>
    match dictGet g.edges en with
    | none => relaxLoop g w current t heap paths
    | some e =>
      let tgt := otherEndD e current
      let oldp := ddGet paths tgt
      let curp := ddGet oldp.2 current
      let neww := addW curp.1.1 (w e)
      if ltW neww oldp.1.1 then
        relaxLoop g w current t (heap ++ [(neww.getD 0, tgt)])
          (dictSet curp.2 tgt (neww, curp.1.2 ++ [en]))
      else relaxLoop g w current t heap curp.2

/-- The main loop of `get_shortest_paths`: pop the minimum-distance node and
relax its outgoing view.  Fuel strictly bounds the pops (each pop consumes one
heap entry; the claims evaluate this on concrete graphs where the supplied
fuel is ample). -/
def dijkstraLoop (g : Graph) (w : EdgeRec → Int) :
    Nat → List (Int × PName) → List (PName × (Option Int × List PName)) →
    List (PName × (Option Int × List PName))
| 0, _, paths => paths
| fuel+1, heap, paths =>
    if heap = [] then paths
    else
      let pc := heapPop heap
      let current := pc.1.2
      let hp := relaxLoop g w current (outgoingView g current) pc.2 paths
      dijkstraLoop g w fuel hp.1 hp.2

/-- Translation of `Graph.get_shortest_paths(source, get_weight)`.  A source
resolving to an edge fails on `current.outgoing`. -/
def getShortestPaths (g : Graph) (src : PName) (w : EdgeRec → Int) :
    Except PyErr (List (PName × (Option Int × List PName))) :=
  match getElement g src with
  | Except.error e => Except.error e
  | Except.ok (Elem.edge _) => Except.error PyErr.attributeError
  | Except.ok (Elem.node n) =>
      Except.ok (dijkstraLoop g w ((g.nodes.length + g.edges.length + 1) ^ 2)
        [(0, n)] [(n, (some 0, []))])

/-!  Specification-side definitions. -/

/-- Does the edge store say that `en` belongs in the `_outgoing` list of node
`n`?  (Directed, with `n` as start.) -/
def expectOut (g : Graph) (n en : PName) : Bool :=
  match dictGet g.edges en with
  | some e => e.directed && e.start = n
  | none => false

/-- Membership condition for `_incoming`: directed with `n` as end. -/
def expectIn (g : Graph) (n en : PName) : Bool :=
  match dictGet g.edges en with
  | some e => e.directed && e.endp = n
  | none => false

/-- Membership condition for `_bidirectional`: undirected and incident
(a self-loop is listed once, not twice). -/
def expectBid (g : Graph) (n en : PName) : Bool :=
  match dictGet g.edges en with
  | some e => !e.directed && (e.start = n || e.endp = n)
  | none => false

/-- Automatic names already issued stay below the counter. -/
def autoBound (c : Nat) (x : PName) : Bool :=
  match x with
  | PName.auto k => k < c
  | _ => true

/-- Well-formedness of a graph state: the invariant every graph built through
the library's own operations satisfies — duplicate-free stores whose names do
not straddle the two dicts, edge endpoints that exist, adjacency lists that
list exactly the edges the store assigns them (each once), and issued
automatic names below the counter. -/
def WF (g : Graph) : Prop :=
  (nodeKeys g).Nodup ∧ (edgeKeys g).Nodup ∧
  (∀ p ∈ g.nodes, p.1 ∉ edgeKeys g) ∧
  (∀ p ∈ g.edges, p.2.start ∈ nodeKeys g ∧ p.2.endp ∈ nodeKeys g) ∧
  (∀ p ∈ g.nodes,
    p.2.outgoing.Nodup ∧ p.2.incoming.Nodup ∧ p.2.bidirectional.Nodup ∧
    (∀ en ∈ p.2.outgoing, expectOut g p.1 en = true) ∧
    (∀ en ∈ p.2.incoming, expectIn g p.1 en = true) ∧
    (∀ en ∈ p.2.bidirectional, expectBid g p.1 en = true) ∧
    (∀ q ∈ g.edges,
      (expectOut g p.1 q.1 = true → q.1 ∈ p.2.outgoing) ∧
      (expectIn g p.1 q.1 = true → q.1 ∈ p.2.incoming) ∧
      (expectBid g p.1 q.1 = true → q.1 ∈ p.2.bidirectional))) ∧
  (∀ p ∈ g.nodes, autoBound g.counter p.1 = true) ∧
  (∀ p ∈ g.edges, autoBound g.counter p.1 = true)

/-- Expected number of occurrences of `en` in `n`'s `_outgoing` list. -/
def outCount (g : Graph) (n en : PName) : Nat := if expectOut g n en then 1 else 0

/-- Expected number of occurrences of `en` in `n`'s `_incoming` list. -/
def inCount (g : Graph) (n en : PName) : Nat := if expectIn g n en then 1 else 0

/-- Expected number of occurrences of `en` in `n`'s `_bidirectional` list. -/
def bidCount (g : Graph) (n en : PName) : Nat := if expectBid g n en then 1 else 0

/-- Count form of well-formedness, equivalent to `WF` (see `WF_iff_WFc`) and
more convenient in preservation proofs: every adjacency list holds each edge
name exactly the number of times the edge store dictates. -/
def WFc (g : Graph) : Prop :=
  (nodeKeys g).Nodup ∧ (edgeKeys g).Nodup ∧
  (∀ p ∈ g.nodes, p.1 ∉ edgeKeys g) ∧
  (∀ p ∈ g.edges, p.2.start ∈ nodeKeys g ∧ p.2.endp ∈ nodeKeys g) ∧
  (∀ n rec0, dictGet g.nodes n = some rec0 → ∀ en,
    rec0.outgoing.count en = outCount g n en ∧
    rec0.incoming.count en = inCount g n en ∧
    rec0.bidirectional.count en = bidCount g n en) ∧
  (∀ p ∈ g.nodes, autoBound g.counter p.1 = true) ∧
  (∀ p ∈ g.edges, autoBound g.counter p.1 = true)

/-- The endpoint swap `move_edge(e, start=e.end, end=e.start)` applies to an
edge record (the `transpose` step). -/
def swapRec (e : EdgeRec) : EdgeRec := ⟨e.endp, e.start, e.directed, e.data⟩

/-- Data equivalence of two attribute bags, following the claim's wording for
the algebra operations: equal attribute mappings. -/
def nodeDataEquiv (ra rb : NodeRec) : Prop := attrsEqv ra.data rb.data

/-- Structural equivalence of edges, following the claim's wording: equal
attribute mappings, matching endpoint equivalence, and matching direction. -/
def edgeEquiv (a b : Graph) (ea eb : EdgeRec) : Prop :=
  attrsEqv ea.data eb.data ∧ ea.directed = eb.directed ∧
  attrsEqv (nodeRec a ea.start).data (nodeRec b eb.start).data ∧
  attrsEqv (nodeRec a ea.endp).data (nodeRec b eb.endp).data

/-- The hypothesis of the intersection claim: no node or edge of `a` is
equivalent to any node or edge of `b`. -/
def noEquivalentElements (a b : Graph) : Prop :=
  (∀ pa ∈ a.nodes, ∀ pb ∈ b.nodes, ¬ nodeDataEquiv pa.2 pb.2) ∧
  (∀ pa ∈ a.edges, ∀ pb ∈ b.edges, ¬ edgeEquiv a b pa.2 pb.2)

/-- Hop-balls of the traversal adjacency: `ball g root k` contains exactly
the nodes at hop-distance at most `k` from the root along `get_adjacent`
(outgoing plus bidirectional) steps. -/
def ball (g : Graph) (root : PName) : Nat → List PName
| 0 => [root]
| k+1 => ball g root k ++ (ball g root k).flatMap (fun u => getAdjacent g u)

/-- Comparison of hop-distances expressed through balls: the hop-distance of
`u` is at most that of `v` iff every ball containing `v` contains `u`. -/
def distLeB (g : Graph) (root u v : PName) : Prop :=
  ∀ k, v ∈ ball g root k → u ∈ ball g root k

/-- The caller contract of `heuristic_traversal`'s selector: it removes and
returns exactly one element of the list it is given. -/
def selRemovesOne (sel : List PName → PName × List PName) : Prop :=
  ∀ l, l ≠ [] → ∃ l1 l2, l = l1 ++ (sel l).1 :: l2 ∧ (sel l).2 = l1 ++ l2

/-- Graph states reachable from a start state by successful `add_edge` /
`remove_edge` calls whose explicit names are fresh (the claim's sequences,
amended by the freshness the name-collision counterexample forces). -/
inductive EdgeOps : Graph → Graph → Prop
| refl (g : Graph) : EdgeOps g g
| addE {g gmid g' : Graph} {s t : PName} {nm : Option PName} {dir : Bool}
    {attrs : Attrs} {res : PName} :
    EdgeOps g gmid →
    (∀ n, nm = some n →
      n ∉ nodeKeys gmid ∧ n ∉ edgeKeys gmid ∧ autoBound gmid.counter n = true) →
    addEdge s t nm dir attrs gmid = (Except.ok res, g') →
    EdgeOps g g'
| remE {g gmid g' : Graph} {x res : PName} :
    EdgeOps g gmid →
    removeEdge x gmid = (Except.ok res, g') →
    EdgeOps g g'

/-- Iterated balanced transpose pairs: the complete graph-mutation footprint
of `get_strongly_connected`, which per connected component calls `transpose()`
once, runs read-only depth-first traversals, and calls `transpose()` again. -/
inductive TransposePairs : Graph → Graph → Prop
| refl (g : Graph) : TransposePairs g g
| pair {g gmid gA g' : Graph} :
    TransposePairs g gmid →
    transpose gmid = (Except.ok (), gA) →
    transpose gA = (Except.ok (), g') →
    TransposePairs g g'

/-!  Concrete graphs used by the claims, built through the library's own
operations. -/

/-- Weight accessor `lambda e: e.weight` used by the shortest-path claim. -/
def weightAttr (e : EdgeRec) : Int := (dictGet e.data "weight").getD 0

/-- Nodes `{A, B, C}` with directed weighted edges `A→B(5)`, `B→C(1)`,
`A→C(7)` — the shortest-path example of the claim. -/
def gABC : Graph :=
  ((do
    let _ ← addNode (some (PName.s "A")) []
    let _ ← addNode (some (PName.s "B")) []
    let _ ← addNode (some (PName.s "C")) []
    let _ ← addEdge (PName.s "A") (PName.s "B") (some (PName.s "AB")) true [("weight", 5)]
    let _ ← addEdge (PName.s "B") (PName.s "C") (some (PName.s "BC")) true [("weight", 1)]
    let _ ← addEdge (PName.s "A") (PName.s "C") (some (PName.s "AC")) true [("weight", 7)]
    pure () : GM Unit) newGraph).2

/-- Two nodes joined by two parallel directed edges `e1`, `e2`. -/
def gPar : Graph :=
  ((do
    let _ ← addNode (some (PName.s "A")) []
    let _ ← addNode (some (PName.s "B")) []
    let _ ← addEdge (PName.s "A") (PName.s "B") (some (PName.s "e1")) true []
    let _ ← addEdge (PName.s "A") (PName.s "B") (some (PName.s "e2")) true []
    pure () : GM Unit) newGraph).2

/-- A single node named `x` carrying `v = 1`. -/
def gIntA : Graph :=
  ((do let _ ← addNode (some (PName.s "x")) [("v", 1)]; pure () : GM Unit) newGraph).2

/-- A single node named `x` carrying `v = 2`. -/
def gIntB : Graph :=
  ((do let _ ← addNode (some (PName.s "x")) [("v", 2)]; pure () : GM Unit) newGraph).2

/-- The parallel-edge graph after `move_edge(e1)` (a legal call that reorders
`A`'s outgoing list to `[e2, e1]` while the edge store still lists `e1`
first). -/
def gMoved : Graph :=
  ((do
    let _ ← addNode (some (PName.s "A")) []
    let _ ← addNode (some (PName.s "B")) []
    let _ ← addEdge (PName.s "A") (PName.s "B") (some (PName.s "e1")) true []
    let _ ← addEdge (PName.s "A") (PName.s "B") (some (PName.s "e2")) true []
    let _ ← moveEdge (PName.s "e1") none none
    pure () : GM Unit) newGraph).2

/-- An undirected self-loop named `x` on `A` added twice (a name collision the
store resolves by replacement while both additions appended to the adjacency
list). -/
def gLoop2 : Graph :=
  ((do
    let _ ← addNode (some (PName.s "A")) []
    let _ ← addEdge (PName.s "A") (PName.s "A") (some (PName.s "x")) false []
    let _ ← addEdge (PName.s "A") (PName.s "A") (some (PName.s "x")) false []
    pure () : GM Unit) newGraph).2

/-- A well-formed undirected example: edge `u` joining `A`/`B` and an
undirected self-loop `l` on `A`. -/
def gUndir : Graph :=
  ((do
    let _ ← addNode (some (PName.s "A")) []
    let _ ← addNode (some (PName.s "B")) []
    let _ ← addEdge (PName.s "A") (PName.s "B") (some (PName.s "u")) false []
    let _ ← addEdge (PName.s "A") (PName.s "A") (some (PName.s "l")) false []
    pure () : GM Unit) newGraph).2

/-- The node-only prefix of `gUndir`: `A` and `B`, no edges yet. -/
def gUndirN : Graph :=
  ((do
    let _ ← addNode (some (PName.s "A")) []
    let _ ← addNode (some (PName.s "B")) []
    pure () : GM Unit) newGraph).2

/-- `gUndirN` after the first `add_edge` (`u` joining `A` and `B`). -/
def gUndir1 : Graph :=
  ((do
    let _ ← addNode (some (PName.s "A")) []
    let _ ← addNode (some (PName.s "B")) []
    let _ ← addEdge (PName.s "A") (PName.s "B") (some (PName.s "u")) false []
    pure () : GM Unit) newGraph).2

/-- The diamond `A→B`, `A→C`, `B→D`, `C→D` used as a traversal witness. -/
def gDiamond : Graph :=
  ((do
    let _ ← addNode (some (PName.s "A")) []
    let _ ← addNode (some (PName.s "B")) []
    let _ ← addNode (some (PName.s "C")) []
    let _ ← addNode (some (PName.s "D")) []
    let _ ← addEdge (PName.s "A") (PName.s "B") (some (PName.s "ab")) true []
    let _ ← addEdge (PName.s "A") (PName.s "C") (some (PName.s "ac")) true []
    let _ ← addEdge (PName.s "B") (PName.s "D") (some (PName.s "bd")) true []
    let _ ← addEdge (PName.s "C") (PName.s "D") (some (PName.s "cd")) true []
    pure () : GM Unit) newGraph).2

deriving instance DecidableEq for Except

instance (ra rb : NodeRec) : Decidable (nodeDataEquiv ra rb) := by
  unfold nodeDataEquiv
  infer_instance

instance (a b : Graph) (ea eb : EdgeRec) : Decidable (edgeEquiv a b ea eb) := by
  unfold edgeEquiv
  infer_instance

instance (a b : Graph) : Decidable (noEquivalentElements a b) := by
  unfold noEquivalentElements
  infer_instance

instance (g : Graph) : Decidable (WF g) := by
  unfold WF
  infer_instance


/-!  Error classification: the set of exception classes a computation can
raise.  Used to show the embedded code never produces the spec's invented
error classes. -/

def errsIn {α : Type} (m : GM α) (S : List PyErr) : Prop :=
  ∀ g e g', m g = (Except.error e, g') → e ∈ S

/-- The exception classes the embedded operations actually raise. -/
def coreErrs : List PyErr := [PyErr.keyError, PyErr.valueError, PyErr.attributeError]


/-!  General lemmas about the monad, the dicts, and error classification. -/

theorem GM_run_bind {α β : Type} (x : GM α) (f : α → GM β) (g : Graph) :
    (x >>= f) g = match x g with
      | (Except.ok a, g') => f a g'
      | (Except.error e, g') => (Except.error e, g') := rfl

theorem GM_run_pure {α : Type} (a : α) (g : Graph) : (pure a : GM α) g = (Except.ok a, g) := rfl


theorem errsIn_pure {α : Type} (a : α) (S : List PyErr) : errsIn (pure a) S := by
  intro g e g' h
  simp [GM_run_pure] at h

theorem errsIn_bind {α β : Type} {x : GM α} {f : α → GM β} {S : List PyErr}
    (hx : errsIn x S) (hf : ∀ a, errsIn (f a) S) : errsIn (x >>= f) S := by
  intro g e g' h
  rw [GM_run_bind] at h
  cases hxg : x g with
  | mk r g1 =>
    cases r with
    | ok a =>
      rw [hxg] at h
      exact hf a g1 e g' h
    | error e0 =>
      rw [hxg] at h
      injection h with h1 h2
      injection h1 with h3
      subst h3
      exact hx g _ _ hxg

theorem errsIn_throw {α : Type} {e : PyErr} {S : List PyErr} (h : e ∈ S) :
    errsIn (GM.throw e : GM α) S := by
  intro g e' g' hh
  unfold GM.throw at hh
  injection hh with h1 h2
  injection h1 with h3
  subst h3
  exact h

theorem errsIn_getG {S : List PyErr} : errsIn GM.getG S := by
  intro g e g' h
  unfold GM.getG at h
  cases h

theorem errsIn_setG {g0 : Graph} {S : List PyErr} : errsIn (GM.setG g0) S := by
  intro g e g' h
  unfold GM.setG at h
  cases h

theorem errsIn_modifyG {f : Graph → Graph} {S : List PyErr} : errsIn (GM.modifyG f) S := by
  intro g e g' h
  unfold GM.modifyG at h
  cases h

theorem errsIn_forM {l : List PName} {f : PName → GM Unit} {S : List PyErr}
    (hf : ∀ x ∈ l, errsIn (f x) S) : errsIn (l.forM f) S := by
  induction l with
  | nil => exact errsIn_pure () S
  | cons a t ih =>
    exact errsIn_bind (hf a (List.mem_cons_self _ _))
      (fun _ => ih (fun x hx => hf x (List.mem_cons_of_mem _ hx)))

theorem errsIn_tryAll {m : GM Unit} {S : List PyErr} : errsIn (tryAll m) S := by
  intro g e g' h
  unfold tryAll at h
  cases hm : m g with
  | mk r g1 =>
    rw [hm] at h
    cases r <;> cases h

theorem errsIn_tryKeyError {m : GM Unit} {S : List PyErr} (hm : errsIn m S) :
    errsIn (tryKeyError m) S := by
  intro g e g' h
  unfold tryKeyError at h
  cases hmg : m g with
  | mk r g1 =>
    rw [hmg] at h
    cases r with
    | ok a => cases h
    | error e0 =>
      cases e0 <;> (try cases h) <;> exact hm g _ _ hmg

theorem buildData_err {reserved : List String} {acc attrs : Attrs} {e : PyErr}
    (h : buildData reserved acc attrs = Except.error e) : e = PyErr.attributeError := by
  induction attrs generalizing acc with
  | nil => cases h
  | cons kv t ih =>
    unfold buildData at h
    by_cases hk : kv.1 ∈ reserved
    · rw [if_pos hk] at h
      cases h
      rfl
    · rw [if_neg hk] at h
      exact ih h

theorem errsIn_getElementM {x : PName} : errsIn (getElementM x) coreErrs := by
  intro g e g' h
  unfold getElementM at h
  rw [GM_run_bind] at h
  cases hg : getElement g x with
  | ok el => simp [GM.getG, GM.ofExcept, hg] at h
  | error e0 =>
    simp [GM.getG, GM.ofExcept, hg] at h
    unfold getElement at hg
    split at hg
    · cases hg
    · split at hg
      · cases hg
      · injection hg with h1
        rw [← h.1, ← h1]
        simp [coreErrs]

theorem errsIn_addNode {nm : Option PName} {attrs : Attrs} : errsIn (addNode nm attrs) coreErrs := by
  unfold addNode
  cases hb : buildData nodeReservedKeys [] attrs with
  | error e =>
    intro g e' g' h
    simp only [hb] at h
    unfold GM.throw at h
    injection h with h1 h2
    injection h1 with h3
    subst h3
    rw [buildData_err hb]
    simp [coreErrs]
  | ok d =>
    simp only [hb]
    refine errsIn_bind errsIn_getG (fun g0 => ?_)
    exact errsIn_bind errsIn_setG (fun _ => errsIn_pure _ _)

theorem errsIn_appendAdj {el : Elem} {f : NodeRec → NodeRec} : errsIn (appendAdj el f) coreErrs := by
  cases el with
  | node n => exact errsIn_modifyG
  | edge n => exact errsIn_throw (by simp [coreErrs])

theorem errsIn_addEdge {s t : PName} {nm : Option PName} {dir : Bool} {attrs : Attrs} :
    errsIn (addEdge s t nm dir attrs) coreErrs := by
  unfold addEdge
  refine errsIn_bind errsIn_getElementM (fun sEl => ?_)
  refine errsIn_bind errsIn_getElementM (fun eEl => ?_)
  cases hb : buildData edgeReservedKeys [] attrs with
  | error e =>
    intro g e' g' h
    simp only [hb] at h
    unfold GM.throw at h
    injection h with h1 h2
    injection h1 with h3
    subst h3
    rw [buildData_err hb]
    simp [coreErrs]
  | ok d =>
    simp only [hb]
    refine errsIn_bind errsIn_getG (fun g0 => ?_)
    refine errsIn_bind errsIn_setG (fun _ => ?_)
    by_cases hdir : dir = true
    · simp only [if_pos hdir]
      exact errsIn_bind errsIn_appendAdj
        (fun _ => errsIn_bind errsIn_appendAdj (fun _ => errsIn_pure _ _))
    · simp only [if_neg hdir]
      refine errsIn_bind errsIn_appendAdj (fun _ => ?_)
      by_cases hst : s ≠ t
      · simp only [if_pos hst]
        exact errsIn_bind errsIn_appendAdj (fun _ => errsIn_pure _ _)
      · simp only [if_neg hst]
        exact errsIn_bind (errsIn_pure _ _) (fun _ => errsIn_pure _ _)

theorem errsIn_removeAdj {n : PName} {sel : NodeRec → List PName}
    {upd : NodeRec → List PName → NodeRec} {en : PName} :
    errsIn (removeAdj n sel upd en) coreErrs := by
  unfold removeAdj
  refine errsIn_bind errsIn_getG (fun g0 => ?_)
  cases hg : dictGet g0.nodes n with
  | none =>
    simp only [hg]
    exact errsIn_throw (by simp [coreErrs])
  | some r =>
    simp only [hg]
    by_cases hmem : en ∈ sel r
    · simp only [if_pos hmem]
      exact errsIn_setG
    · simp only [if_neg hmem]
      exact errsIn_throw (by simp [coreErrs])

theorem errsIn_removeEdge {x : PName} : errsIn (removeEdge x) coreErrs := by
  unfold removeEdge
  refine errsIn_bind errsIn_getElementM (fun el => ?_)
  cases el with
  | node n => exact errsIn_throw (by simp [coreErrs])
  | edge en =>
    refine errsIn_bind errsIn_getG (fun g0 => ?_)
    cases hg : dictGet g0.edges en with
    | none =>
      simp only [hg]
      exact errsIn_throw (by simp [coreErrs])
    | some e =>
      simp only [hg]
      by_cases hdir : e.directed = true
      · simp only [if_pos hdir]
        exact errsIn_bind errsIn_removeAdj (fun _ => errsIn_bind errsIn_removeAdj
          (fun _ => errsIn_bind errsIn_modifyG (fun _ => errsIn_pure _ _)))
      · simp only [if_neg hdir]
        refine errsIn_bind errsIn_removeAdj (fun _ => ?_)
        by_cases hst : e.start ≠ e.endp
        · simp only [if_pos hst]
          exact errsIn_bind errsIn_removeAdj
            (fun _ => errsIn_bind errsIn_modifyG (fun _ => errsIn_pure _ _))
        · simp only [if_neg hst]
          exact errsIn_bind (errsIn_pure _ _)
            (fun _ => errsIn_bind errsIn_modifyG (fun _ => errsIn_pure _ _))

theorem errsIn_removeNode {x : PName} : errsIn (removeNode x) coreErrs := by
  unfold removeNode
  refine errsIn_bind errsIn_getElementM (fun el => ?_)
  cases el with
  | edge n => exact errsIn_throw (by simp [coreErrs])
  | node n =>
    refine errsIn_bind errsIn_getG (fun g0 => ?_)
    cases hg : dictGet g0.nodes n with
    | none =>
      simp only [hg]
      exact errsIn_throw (by simp [coreErrs])
    | some r =>
      simp only [hg]
      refine errsIn_bind (errsIn_forM (fun y _ => ?_))
        (fun _ => errsIn_bind errsIn_modifyG (fun _ => errsIn_pure _ _))
      exact errsIn_bind errsIn_removeEdge (fun _ => errsIn_pure _ _)

theorem errsIn_moveEdge {x : PName} {ns ne : Option PName} : errsIn (moveEdge x ns ne) coreErrs := by
  unfold moveEdge
  refine errsIn_bind errsIn_getElementM (fun el => ?_)
  cases el with
  | node n => exact errsIn_throw (by simp [coreErrs])
  | edge en =>
    refine errsIn_bind errsIn_getG (fun g0 => ?_)
    cases hg : dictGet g0.edges en with
    | none =>
      simp only [hg]
      exact errsIn_throw (by simp [coreErrs])
    | some e =>
      simp only [hg]
      by_cases hdir : e.directed = true
      · simp only [if_pos hdir]
        refine errsIn_bind errsIn_removeAdj (fun _ => ?_)
        refine errsIn_bind errsIn_removeAdj (fun _ => ?_)
        refine errsIn_bind errsIn_modifyG (fun _ => ?_)
        exact errsIn_bind errsIn_modifyG (fun _ => errsIn_bind errsIn_modifyG
          (fun _ => errsIn_pure _ _))
      · simp only [if_neg hdir]
        refine errsIn_bind errsIn_tryAll (fun _ => ?_)
        refine errsIn_bind errsIn_modifyG (fun _ => ?_)
        refine errsIn_bind errsIn_modifyG (fun _ => ?_)
        by_cases hne : ns ≠ ne
        · simp only [if_pos hne]
          exact errsIn_bind errsIn_modifyG (fun _ => errsIn_pure _ _)
        · simp only [if_neg hne]
          exact errsIn_bind (errsIn_pure _ _) (fun _ => errsIn_pure _ _)

theorem errsIn_contractEdge {x : PName} {f : NodeRec → NodeRec → Attrs} :
    errsIn (contractEdge x f) coreErrs := by
  unfold contractEdge
  refine errsIn_bind errsIn_getElementM (fun el => ?_)
  cases el with
  | node n => exact errsIn_throw (by simp [coreErrs])
  | edge en =>
    refine errsIn_bind errsIn_getG (fun g0 => ?_)
    cases hg : dictGet g0.edges en with
    | none =>
      simp only [hg]
      exact errsIn_throw (by simp [coreErrs])
    | some e =>
      simp only [hg]
      refine errsIn_bind errsIn_addNode (fun nn => ?_)
      refine errsIn_bind errsIn_removeEdge (fun _ => ?_)
      refine errsIn_bind errsIn_getG (fun g1 => ?_)
      refine errsIn_bind (errsIn_forM (fun y _ =>
        errsIn_bind errsIn_moveEdge (fun _ => errsIn_pure _ _))) (fun _ => ?_)
      refine errsIn_bind errsIn_getG (fun g2 => ?_)
      refine errsIn_bind (errsIn_forM (fun y _ =>
        errsIn_bind errsIn_moveEdge (fun _ => errsIn_pure _ _))) (fun _ => ?_)
      refine errsIn_bind (errsIn_tryKeyError ?_) (fun _ => errsIn_pure _ _)
      exact errsIn_bind errsIn_removeNode
        (fun _ => errsIn_bind errsIn_removeNode (fun _ => errsIn_pure _ _))


theorem dictKeys_nil {K V : Type} : dictKeys ([] : List (K × V)) = [] := rfl

theorem dictKeys_cons {K V : Type} (p : K × V) (t : List (K × V)) :
    dictKeys (p :: t) = p.1 :: dictKeys t := rfl

theorem dictGet_nil {K V : Type} [DecidableEq K] (k : K) :
    dictGet ([] : List (K × V)) k = none := rfl

theorem dictGet_cons {K V : Type} [DecidableEq K] (p : K × V) (t : List (K × V)) (k : K) :
    dictGet (p :: t) k = if p.1 = k then some p.2 else dictGet t k := rfl

theorem dictSet_nil {K V : Type} [DecidableEq K] (k : K) (v : V) :
    dictSet ([] : List (K × V)) k v = [(k, v)] := rfl

theorem dictSet_cons {K V : Type} [DecidableEq K] (p : K × V) (t : List (K × V)) (k : K) (v : V) :
    dictSet (p :: t) k v = if p.1 = k then (p.1, v) :: t else p :: dictSet t k v := rfl

theorem dictPop_cons {K V : Type} [DecidableEq K] (p : K × V) (t : List (K × V)) (k : K) :
    dictPop (p :: t) k = if p.1 = k then t else p :: dictPop t k := rfl

theorem dictAdjust_cons {K V : Type} [DecidableEq K] (p : K × V) (t : List (K × V)) (k : K)
    (f : V → V) : dictAdjust (p :: t) k f = if p.1 = k then (p.1, f p.2) :: t else p :: dictAdjust t k f := rfl

theorem dictGet_dictSet_self {K V : Type} [DecidableEq K] (l : List (K × V)) (k : K) (v : V) :
    dictGet (dictSet l k v) k = some v := by
  induction l with
  | nil => simp [dictSet_nil, dictGet_cons]
  | cons p t ih =>
    rw [dictSet_cons]
    by_cases hk : p.1 = k
    · rw [if_pos hk, dictGet_cons, if_pos hk]
    · rw [if_neg hk, dictGet_cons, if_neg hk]
      exact ih

theorem dictGet_dictSet_ne {K V : Type} [DecidableEq K] (l : List (K × V)) {k k' : K} (v : V)
    (h : k' ≠ k) : dictGet (dictSet l k v) k' = dictGet l k' := by
  induction l with
  | nil =>
    rw [dictSet_nil, dictGet_cons, if_neg (fun hh : k = k' => h hh.symm)]
  | cons p t ih =>
    rw [dictSet_cons]
    by_cases hk : p.1 = k
    · have hp : ¬ p.1 = k' := by
        intro hh
        apply h
        rw [← hh]
        exact hk
      rw [if_pos hk, dictGet_cons, dictGet_cons]
      simp only [hp, if_false]
    · rw [if_neg hk, dictGet_cons, dictGet_cons, ih]

theorem dictKeys_dictSet_mem {K V : Type} [DecidableEq K] {l : List (K × V)} {k : K} (v : V)
    (h : k ∈ dictKeys l) : dictKeys (dictSet l k v) = dictKeys l := by
  induction l with
  | nil => cases h
  | cons p t ih =>
    rw [dictSet_cons]
    by_cases hk : p.1 = k
    · rw [if_pos hk, dictKeys_cons, dictKeys_cons]
    · rw [dictKeys_cons] at h
      rcases List.mem_cons.mp h with h1 | h1
      · exact absurd h1.symm hk
      · rw [if_neg hk, dictKeys_cons, dictKeys_cons, ih h1]

theorem dictKeys_dictSet_not_mem {K V : Type} [DecidableEq K] {l : List (K × V)} {k : K} (v : V)
    (h : k ∉ dictKeys l) : dictKeys (dictSet l k v) = dictKeys l ++ [k] := by
  induction l with
  | nil => rfl
  | cons p t ih =>
    rw [dictSet_cons]
    by_cases hk : p.1 = k
    · exfalso
      apply h
      rw [dictKeys_cons, ← hk]
      exact List.mem_cons_self _ _
    · have ht : k ∉ dictKeys t := by
        intro hh
        exact h (by rw [dictKeys_cons]; exact List.mem_cons_of_mem _ hh)
      rw [if_neg hk, dictKeys_cons, dictKeys_cons, ih ht, List.cons_append]

theorem dictGet_dictAdjust_self {K V : Type} [DecidableEq K] (l : List (K × V)) (k : K)
    (f : V → V) : dictGet (dictAdjust l k f) k = (dictGet l k).map f := by
  induction l with
  | nil => rfl
  | cons p t ih =>
    rw [dictAdjust_cons]
    by_cases hk : p.1 = k
    · rw [if_pos hk, dictGet_cons, if_pos hk, dictGet_cons, if_pos hk]
      simp
    · rw [if_neg hk, dictGet_cons, if_neg hk, dictGet_cons, if_neg hk, ih]

theorem dictGet_dictAdjust_ne {K V : Type} [DecidableEq K] (l : List (K × V)) {k k' : K}
    (f : V → V) (h : k' ≠ k) : dictGet (dictAdjust l k f) k' = dictGet l k' := by
  induction l with
  | nil => rfl
  | cons p t ih =>
    rw [dictAdjust_cons]
    by_cases hk : p.1 = k
    · have hp : ¬ p.1 = k' := by
        intro hh
        apply h
        rw [← hh]
        exact hk
      rw [if_pos hk, dictGet_cons, dictGet_cons]
      simp only [hp, if_false]
    · rw [if_neg hk, dictGet_cons, dictGet_cons, ih]

theorem dictKeys_dictAdjust {K V : Type} [DecidableEq K] (l : List (K × V)) (k : K) (f : V → V) :
    dictKeys (dictAdjust l k f) = dictKeys l := by
  induction l with
  | nil => rfl
  | cons p t ih =>
    rw [dictAdjust_cons]
    by_cases hk : p.1 = k
    · rw [if_pos hk, dictKeys_cons, dictKeys_cons]
    · rw [if_neg hk, dictKeys_cons, dictKeys_cons, ih]

theorem dictGet_dictPop_ne {K V : Type} [DecidableEq K] (l : List (K × V)) {k k' : K}
    (h : k' ≠ k) : dictGet (dictPop l k) k' = dictGet l k' := by
  induction l with
  | nil => rfl
  | cons p t ih =>
    rw [dictPop_cons]
    by_cases hk : p.1 = k
    · have hp : ¬ p.1 = k' := by
        intro hh
        apply h
        rw [← hh]
        exact hk
      rw [if_pos hk, dictGet_cons]
      simp only [hp, if_false]
    · rw [if_neg hk, dictGet_cons, dictGet_cons, ih]

theorem dictGet_none_iff {K V : Type} [DecidableEq K] (l : List (K × V)) (k : K) :
    dictGet l k = none ↔ k ∉ dictKeys l := by
  induction l with
  | nil => simp [dictGet_nil, dictKeys_nil]
  | cons p t ih =>
    rw [dictGet_cons, dictKeys_cons]
    by_cases hk : p.1 = k
    · simp [hk]
    · rw [if_neg hk, ih, List.mem_cons]
      constructor
      · intro h1 h2
        rcases h2 with h2 | h2
        · exact hk h2.symm
        · exact h1 h2
      · intro h1 h2
        exact h1 (Or.inr h2)

theorem dictGet_isSome_iff {K V : Type} [DecidableEq K] (l : List (K × V)) (k : K) :
    (dictGet l k).isSome = true ↔ k ∈ dictKeys l := by
  constructor
  · intro h
    by_contra hmem
    rw [← dictGet_none_iff] at hmem
    rw [hmem] at h
    cases h
  · intro h
    cases hg : dictGet l k with
    | some v => rfl
    | none => exact absurd h ((dictGet_none_iff l k).mp hg)

theorem dictGet_dictPop_self {K V : Type} [DecidableEq K] {l : List (K × V)} {k : K}
    (hn : (dictKeys l).Nodup) : dictGet (dictPop l k) k = none := by
  induction l with
  | nil => rfl
  | cons p t ih =>
    rw [dictKeys_cons, List.nodup_cons] at hn
    rw [dictPop_cons]
    by_cases hk : p.1 = k
    · rw [if_pos hk, dictGet_none_iff]
      rw [← hk]
      exact hn.1
    · rw [if_neg hk, dictGet_cons, if_neg hk]
      exact ih hn.2

theorem dictKeys_dictPop_sub {K V : Type} [DecidableEq K] (l : List (K × V)) (k k' : K)
    (h : k' ∈ dictKeys (dictPop l k)) : k' ∈ dictKeys l := by
  induction l with
  | nil => cases h
  | cons p t ih =>
    rw [dictPop_cons] at h
    by_cases hk : p.1 = k
    · rw [if_pos hk] at h
      rw [dictKeys_cons]
      exact List.mem_cons_of_mem _ h
    · rw [if_neg hk, dictKeys_cons] at h
      rw [dictKeys_cons]
      rcases List.mem_cons.mp h with h1 | h1
      · exact h1 ▸ List.mem_cons_self _ _
      · exact List.mem_cons_of_mem _ (ih h1)

theorem nodup_dictSet {K V : Type} [DecidableEq K] {l : List (K × V)} {k : K} (v : V)
    (hn : (dictKeys l).Nodup) : (dictKeys (dictSet l k v)).Nodup := by
  by_cases h : k ∈ dictKeys l
  · rw [dictKeys_dictSet_mem v h]
    exact hn
  · rw [dictKeys_dictSet_not_mem v h]
    simp [List.nodup_append, hn, h]

theorem nodup_dictPop {K V : Type} [DecidableEq K] {l : List (K × V)} (k : K)
    (hn : (dictKeys l).Nodup) : (dictKeys (dictPop l k)).Nodup := by
  induction l with
  | nil => exact hn
  | cons p t ih =>
    rw [dictKeys_cons, List.nodup_cons] at hn
    rw [dictPop_cons]
    by_cases hk : p.1 = k
    · rw [if_pos hk]
      exact hn.2
    · rw [if_neg hk, dictKeys_cons, List.nodup_cons]
      exact ⟨fun hh => hn.1 (dictKeys_dictPop_sub t k p.1 hh), ih hn.2⟩

/-!  Claim theorems: C1, C2 (counterexample), C3, C4, C8. -/

/-- Claim C1, counterexample: in the two-node graph whose endpoints are
connected by the two parallel edges `e1`, `e2`, `contract_edge(e1, f)` does
not fail with `AmbiguousContractionError` and does not leave the graph
unmodified — refuting the claim at this input. -/
theorem claim_C1_counterexample :
    dictGet gPar.edges (PName.s "e1") = some ⟨PName.s "A", PName.s "B", true, []⟩ ∧
    dictGet gPar.edges (PName.s "e2") = some ⟨PName.s "A", PName.s "B", true, []⟩ ∧
    (contractEdge (PName.s "e1") (fun _ _ => []) gPar).1 ≠
      Except.error PyErr.ambiguousContractionError ∧
    (contractEdge (PName.s "e1") (fun _ _ => []) gPar).2 ≠ gPar := by
  decide

/-- Claim C1, amended: `contract_edge` performs no multiplicity check and can
never fail with `AmbiguousContractionError` (no code path raises it); when
more than one edge connects the endpoints it contracts anyway, as its
docstring caveat states — concretely, on the parallel-edge graph it succeeds,
removes both original nodes, and leaves the other parallel edge as a
self-loop on the merged node. -/
theorem claim_C1_amended :
    (∀ (g : Graph) (x : PName) (f : NodeRec → NodeRec → Attrs),
      (contractEdge x f g).1 ≠ Except.error PyErr.ambiguousContractionError) ∧
    contractEdge (PName.s "e1") (fun _ _ => []) gPar =
      (Except.ok (PName.auto 0),
       { nodes := [(PName.auto 0, ⟨[], [PName.s "e2"], [PName.s "e2"], []⟩)],
         edges := [(PName.s "e2", ⟨PName.auto 0, PName.auto 0, true, []⟩)],
         counter := 1 }) := by
  constructor
  · intro g x f h
    have heq : contractEdge x f g =
        (Except.error PyErr.ambiguousContractionError, (contractEdge x f g).2) := by
      rw [← h]
    have hmem := errsIn_contractEdge g _ _ heq
    simp [coreErrs] at hmem
  · decide

/-- Claim C2, counterexample: the one-node graphs with the common name `x`
but different attribute dicts (`v=1` vs `v=2`) have no data-equivalent
elements, yet their intersection holds one node — membership is decided by
name, not by data equivalence. -/
theorem claim_C2_counterexample :
    noEquivalentElements gIntA gIntB ∧
    intersection gIntA gIntB =
      Except.ok { nodes := [(PName.s "x", ⟨[("v", 2)], [], [], []⟩)], edges := [], counter := 0 } ∧
    ({ nodes := [(PName.s "x", ⟨[("v", 2)], [], [], []⟩)], edges := [], counter := 0 } : Graph).nodes.length = 1 := by
  decide

/-- Claim C3, counterexample: `move_edge` does not validate its endpoint
arguments — re-pointing `e1` of the parallel-edge graph at a node named `ZZ`
that the graph does not own succeeds instead of failing with
`UnknownElementError`. -/
theorem claim_C3_counterexample :
    PName.s "ZZ" ∉ nodeKeys gPar ∧ PName.s "ZZ" ∉ edgeKeys gPar ∧
    (moveEdge (PName.s "e1") (some (PName.s "ZZ")) none gPar).1 = Except.ok (PName.s "e1") := by
  decide

/-- Claim C3, amended: the operations that resolve an element argument through
`get_element` (`contract_edge`, `move_edge`, `induce_subgraph`,
`edge_induce_subgraph`) fail with `KeyError` — not `UnknownElementError` —
when the argument is absent, and since resolution precedes any mutation the
graph state is exactly the original (`move_edge`'s optional endpoints are not
validated at all, per the counterexample). -/
theorem claim_C3_amended :
    ∀ (g : Graph) (x : PName), getElement g x = Except.error PyErr.keyError →
      (∀ f, contractEdge x f g = (Except.error PyErr.keyError, g)) ∧
      (∀ ns ne, moveEdge x ns ne g = (Except.error PyErr.keyError, g)) ∧
      induceSubgraph g [x] = Except.error PyErr.keyError ∧
      edgeInduceSubgraph g [x] = Except.error PyErr.keyError := by
  intro g x h
  refine ⟨fun f => ?_, fun ns ne => ?_, ?_, ?_⟩
  · show (getElementM x >>= _) g = _
    rw [GM_run_bind]
    simp [getElementM, GM.getG, GM.ofExcept, GM_run_bind, h]
  · show (getElementM x >>= _) g = _
    rw [GM_run_bind]
    simp [getElementM, GM.getG, GM.ofExcept, GM_run_bind, h]
  · have h1 : induceNodesLoop g [x] newGraph = (Except.error PyErr.keyError, newGraph) := by
      simp [induceNodesLoop, h, GM.throw]
    unfold induceSubgraph
    rw [GM_run_bind, h1]
  · have h1 : edgeInduceNodesLoop g [x] newGraph = (Except.error PyErr.keyError, newGraph) := by
      simp [edgeInduceNodesLoop, h, GM.throw]
    unfold edgeInduceSubgraph
    rw [GM_run_bind, h1]

/-- Witness for the amended claim C3 at the parallel-edge graph and the
absent name `nope`. -/
theorem claim_C3_amended_witness :
    (∀ f, contractEdge (PName.s "nope") f gPar = (Except.error PyErr.keyError, gPar)) ∧
    (∀ ns ne, moveEdge (PName.s "nope") ns ne gPar = (Except.error PyErr.keyError, gPar)) ∧
    induceSubgraph gPar [PName.s "nope"] = Except.error PyErr.keyError ∧
    edgeInduceSubgraph gPar [PName.s "nope"] = Except.error PyErr.keyError :=
  claim_C3_amended gPar (PName.s "nope") (by decide)

/-- Claim C4: in the graph with nodes `A`, `B`, `C` and weighted directed
edges `A→B(5)`, `B→C(1)`, `A→C(7)`, `get_shortest_paths(A)` with the
edge-weight function maps `C` to `(6, [A→B, B→C])` — the two-hop path, not
the direct weight-7 edge — and the source `A` to `(0, [])`. -/
theorem claim_C4 :
    (getShortestPaths gABC (PName.s "A") weightAttr).toOption.bind
        (fun p => dictGet p (PName.s "C")) = some (some 6, [PName.s "AB", PName.s "BC"]) ∧
    (getShortestPaths gABC (PName.s "A") weightAttr).toOption.bind
        (fun p => dictGet p (PName.s "A")) = some (some 0, []) := by
  decide

/-- Claim C8, counterexample: `add_node(start=5)` succeeds and stores `start`
as an ordinary data attribute — no `DuplicateAttributeError` (which no code
path raises) and no rejection of the reserved structural name. -/
theorem claim_C8_counterexample :
    addNode none [("start", 5)] newGraph =
      (Except.ok (PName.auto 0),
       { nodes := [(PName.auto 0, ⟨[("start", 5)], [], [], []⟩)], edges := [], counter := 1 }) := by
  decide

/-- Claim C8, amended: no reserved-name validation exists.  A keyword like
`start` on a node is silently stored in `data`; a keyword that collides with
a read-only property (`incoming`, `outgoing`, …) makes the constructor raise
`AttributeError` before the node is stored (the graph is unchanged); and
neither constructor can raise `DuplicateAttributeError`. -/
theorem claim_C8_amended :
    (∀ (g : Graph) (v : Value),
      addNode none [("start", v)] g =
        (Except.ok (PName.auto g.counter),
         { g with nodes := dictSet g.nodes (PName.auto g.counter) ⟨[("start", v)], [], [], []⟩,
                  counter := g.counter + 1 }) ∧
      dictGet (dictSet g.nodes (PName.auto g.counter) ⟨[("start", v)], [], [], []⟩)
        (PName.auto g.counter) = some ⟨[("start", v)], [], [], []⟩) ∧
    (∀ (g : Graph) (v : Value),
      addNode none [("incoming", v)] g = (Except.error PyErr.attributeError, g)) ∧
    (∀ (g : Graph) (v : Value),
      addNode none [("outgoing", v)] g = (Except.error PyErr.attributeError, g)) ∧
    (∀ (g : Graph) (nm : Option PName) (attrs : Attrs),
      (addNode nm attrs g).1 ≠ Except.error PyErr.duplicateAttributeError) ∧
    (∀ (g : Graph) (s t : PName) (nm : Option PName) (dir : Bool) (attrs : Attrs),
      (addEdge s t nm dir attrs g).1 ≠ Except.error PyErr.duplicateAttributeError) := by
  have hstart : ∀ v : Value,
      buildData nodeReservedKeys [] [("start", v)] = Except.ok [("start", v)] := by
    intro v
    unfold buildData
    rw [if_neg (by decide : ¬ ("start" : String) ∈ nodeReservedKeys)]
    rfl
  have hinc : ∀ v : Value,
      buildData nodeReservedKeys [] [("incoming", v)] = Except.error PyErr.attributeError := by
    intro v
    unfold buildData
    rw [if_pos (by decide : ("incoming" : String) ∈ nodeReservedKeys)]
  have hout : ∀ v : Value,
      buildData nodeReservedKeys [] [("outgoing", v)] = Except.error PyErr.attributeError := by
    intro v
    unfold buildData
    rw [if_pos (by decide : ("outgoing" : String) ∈ nodeReservedKeys)]
  refine ⟨fun g v => ⟨?_, ?_⟩, fun g v => ?_, fun g v => ?_,
    fun g nm attrs h => ?_, fun g s t nm dir attrs h => ?_⟩
  · show addNode none [("start", v)] g = _
    unfold addNode
    rw [hstart v]
    simp [GM.getG, GM_run_bind, GM.setG, GM_run_pure]
  · exact dictGet_dictSet_self _ _ _
  · show addNode none [("incoming", v)] g = _
    unfold addNode
    rw [hinc v]
    rfl
  · show addNode none [("outgoing", v)] g = _
    unfold addNode
    rw [hout v]
    rfl
  · have heq : addNode nm attrs g =
        (Except.error PyErr.duplicateAttributeError, (addNode nm attrs g).2) := by
      rw [← h]
    have hmem := errsIn_addNode g _ _ heq
    simp [coreErrs] at hmem
  · have heq : addEdge s t nm dir attrs g =
        (Except.error PyErr.duplicateAttributeError, (addEdge s t nm dir attrs g).2) := by
      rw [← h]
    have hmem := errsIn_addEdge g _ _ heq
    simp [coreErrs] at hmem


/-!  State lemmas for the construction operations, used by the general claim
proofs below. -/


theorem getElementM_run (x : PName) (g : Graph) : getElementM x g = (getElement g x, g) := rfl

theorem GM_bind_inv {α β : Type} {x : GM α} {f : α → GM β} {g : Graph}
    {r : Except PyErr β} {g' : Graph} (h : (x >>= f) g = (r, g')) :
    (∃ a g1, x g = (Except.ok a, g1) ∧ f a g1 = (r, g')) ∨
    (∃ e, x g = (Except.error e, g') ∧ r = Except.error e) := by
  rw [GM_run_bind] at h
  cases hx : x g with
  | mk rx g1 =>
    rw [hx] at h
    cases rx with
    | ok a => exact Or.inl ⟨a, g1, rfl, h⟩
    | error e =>
      have h2 : ((Except.error e : Except PyErr β), g1) = (r, g') := h
      injection h2 with h3 h4
      refine Or.inr ⟨e, ?_, h3.symm⟩
      rw [← h4]

theorem GM_pure_inv {α : Type} {a : α} {g : Graph} {r : Except PyErr α} {g' : Graph}
    (h : (pure a : GM α) g = (r, g')) : r = Except.ok a ∧ g' = g := by
  have h2 : ((Except.ok a : Except PyErr α), g) = (r, g') := h
  injection h2 with h3 h4
  exact ⟨h3.symm, h4.symm⟩

theorem GM_getG_inv {g : Graph} {r : Except PyErr Graph} {g' : Graph}
    (h : GM.getG g = (r, g')) : r = Except.ok g ∧ g' = g := by
  have h2 : ((Except.ok g : Except PyErr Graph), g) = (r, g') := h
  injection h2 with h3 h4
  exact ⟨h3.symm, h4.symm⟩

theorem GM_setG_inv {g0 g : Graph} {r : Except PyErr Unit} {g' : Graph}
    (h : GM.setG g0 g = (r, g')) : r = Except.ok () ∧ g' = g0 := by
  have h2 : ((Except.ok () : Except PyErr Unit), g0) = (r, g') := h
  injection h2 with h3 h4
  exact ⟨h3.symm, h4.symm⟩

theorem GM_modifyG_inv {f : Graph → Graph} {g : Graph} {r : Except PyErr Unit} {g' : Graph}
    (h : GM.modifyG f g = (r, g')) : r = Except.ok () ∧ g' = f g := by
  have h2 : ((Except.ok () : Except PyErr Unit), f g) = (r, g') := h
  injection h2 with h3 h4
  exact ⟨h3.symm, h4.symm⟩

theorem GM_throw_inv {α : Type} {e : PyErr} {g : Graph} {r : Except PyErr α} {g' : Graph}
    (h : (GM.throw e : GM α) g = (r, g')) : r = Except.error e ∧ g' = g := by
  have h2 : ((Except.error e : Except PyErr α), g) = (r, g') := h
  injection h2 with h3 h4
  exact ⟨h3.symm, h4.symm⟩

theorem addNode_state {nm : Option PName} {attrs : Attrs} {g g' : Graph} {r : Except PyErr PName}
    (h : addNode nm attrs g = (r, g')) :
    g'.edges = g.edges ∧
    ∀ n, n ∈ nodeKeys g' → n ∈ nodeKeys g ∨ n = nm.getD (PName.auto g.counter) := by
  unfold addNode at h
  cases hb : buildData nodeReservedKeys [] attrs with
  | error e =>
    rw [hb] at h
    obtain ⟨_, hg⟩ := GM_throw_inv h
    subst hg
    exact ⟨rfl, fun n hn => Or.inl hn⟩
  | ok d =>
    rw [hb] at h
    rcases GM_bind_inv h with ⟨gv, g1, hx1, hA⟩ | ⟨e, hx1, hr⟩
    swap
    · exact absurd (GM_getG_inv hx1).1 (by simp)
    · clear h
      obtain ⟨hre, hg1⟩ := GM_getG_inv hx1
      injection hre with hre
      rw [hre, hg1] at hA
      clear hre hg1 hx1
      rcases GM_bind_inv hA with ⟨u, g2, hx2, hB⟩ | ⟨e, hx2, hr⟩
      swap
      · obtain ⟨hre, _⟩ := GM_setG_inv hx2
        cases hre
      · clear hA
        obtain ⟨_, hg2⟩ := GM_setG_inv hx2
        rw [hg2] at hB
        clear hg2 hx2
        obtain ⟨hre, hg⟩ := GM_pure_inv hB
        subst hg
        refine ⟨rfl, fun n hn => ?_⟩
        unfold nodeKeys at hn ⊢
        by_cases hmem : nm.getD (PName.auto g.counter) ∈ dictKeys g.nodes
        · rw [dictKeys_dictSet_mem _ hmem] at hn
          exact Or.inl hn
        · rw [dictKeys_dictSet_not_mem _ hmem] at hn
          rcases List.mem_append.mp hn with h1 | h1
          · exact Or.inl h1
          · exact Or.inr (List.mem_singleton.mp h1)

theorem appendAdj_state {el : Elem} {f : NodeRec → NodeRec} {g g' : Graph} {r : Except PyErr Unit}
    (h : appendAdj el f g = (r, g')) :
    g'.edges = g.edges ∧ nodeKeys g' = nodeKeys g ∧ g'.counter = g.counter := by
  cases el with
  | node n =>
    unfold appendAdj at h
    obtain ⟨_, hg⟩ := GM_modifyG_inv h
    subst hg
    exact ⟨rfl, by unfold nodeKeys; exact dictKeys_dictAdjust _ _ _, rfl⟩
  | edge n =>
    unfold appendAdj at h
    obtain ⟨_, hg⟩ := GM_throw_inv h
    subst hg
    exact ⟨rfl, rfl, rfl⟩

theorem addEdge_state {s t : PName} {nm : Option PName} {dir : Bool} {attrs : Attrs}
    {g g' : Graph} {r : Except PyErr PName} (h : addEdge s t nm dir attrs g = (r, g')) :
    nodeKeys g' = nodeKeys g ∧
    ∀ en, en ∈ edgeKeys g' → en ∈ edgeKeys g ∨ en = nm.getD (PName.auto g.counter) := by
  unfold addEdge at h
  rcases GM_bind_inv h with ⟨sEl, g1, hx1, hA⟩ | ⟨e, hx1, hr⟩
  swap
  · rw [getElementM_run] at hx1
    injection hx1 with h3 h4
    rw [← h4]
    exact ⟨rfl, fun en hen => Or.inl hen⟩
  · clear h
    rw [getElementM_run] at hx1
    injection hx1 with h3 h4
    rw [← h4] at hA
    clear h3 h4
    rcases GM_bind_inv hA with ⟨tEl, g2, hx2, hB⟩ | ⟨e, hx2, hr⟩
    swap
    · rw [getElementM_run] at hx2
      injection hx2 with h3 h4
      rw [← h4]
      exact ⟨rfl, fun en hen => Or.inl hen⟩
    · clear hA
      rw [getElementM_run] at hx2
      injection hx2 with h3 h4
      rw [← h4] at hB
      clear h3 h4
      cases hb : buildData edgeReservedKeys [] attrs with
      | error e =>
        rw [hb] at hB
        obtain ⟨_, hg⟩ := GM_throw_inv hB
        subst hg
        exact ⟨rfl, fun en hen => Or.inl hen⟩
      | ok d =>
        rw [hb] at hB
        rcases GM_bind_inv hB with ⟨gv, g3, hx3, hC⟩ | ⟨e, hx3, hr⟩
        swap
        · exact absurd (GM_getG_inv hx3).1 (by simp)
        · clear hB
          obtain ⟨hre, hg3⟩ := GM_getG_inv hx3
          injection hre with hre
          rw [hre, hg3] at hC
          clear hre hg3 hx3
          rcases GM_bind_inv hC with ⟨u0, g4, hx4, hD⟩ | ⟨e, hx4, hr⟩
          swap
          · exact absurd (GM_setG_inv hx4).1 (by simp)
          · clear hC
            obtain ⟨_, hg4⟩ := GM_setG_inv hx4
            rw [hg4] at hD
            clear hg4 hx4
            have hkeysS : ∀ en,
                en ∈ dictKeys (dictSet g.edges (nm.getD (PName.auto g.counter)) ⟨s, t, dir, d⟩) →
                en ∈ edgeKeys g ∨ en = nm.getD (PName.auto g.counter) := by
              intro en hen
              by_cases hmem : nm.getD (PName.auto g.counter) ∈ dictKeys g.edges
              · rw [dictKeys_dictSet_mem _ hmem] at hen
                exact Or.inl hen
              · rw [dictKeys_dictSet_not_mem _ hmem] at hen
                rcases List.mem_append.mp hen with h1 | h1
                · exact Or.inl h1
                · exact Or.inr (List.mem_singleton.mp h1)
            by_cases hdir : dir = true
            · rw [if_pos hdir] at hD
              rcases GM_bind_inv hD with ⟨u1, g5, hx5, hE⟩ | ⟨e, hx5, hr⟩
              · clear hD
                obtain ⟨he1, hn1, _⟩ := appendAdj_state hx5
                rcases GM_bind_inv hE with ⟨u2, g6, hx6, hF⟩ | ⟨e, hx6, hr⟩
                · clear hE
                  obtain ⟨he2, hn2, _⟩ := appendAdj_state hx6
                  obtain ⟨_, hge⟩ := GM_pure_inv hF
                  subst hge
                  refine ⟨hn2.trans hn1, fun en hen => hkeysS en ?_⟩
                  have hh : en ∈ edgeKeys g' := hen
                  rw [edgeKeys, he2, he1] at hh
                  exact hh
                · obtain ⟨he2, hn2, _⟩ := appendAdj_state hx6
                  refine ⟨hn2.trans hn1, fun en hen => hkeysS en ?_⟩
                  have hh : en ∈ edgeKeys g' := hen
                  rw [edgeKeys, he2, he1] at hh
                  exact hh
              · obtain ⟨he1, hn1, _⟩ := appendAdj_state hx5
                refine ⟨hn1, fun en hen => hkeysS en ?_⟩
                have hh : en ∈ edgeKeys g' := hen
                rw [edgeKeys, he1] at hh
                exact hh
            · rw [if_neg hdir] at hD
              rcases GM_bind_inv hD with ⟨u1, g5, hx5, hE⟩ | ⟨e, hx5, hr⟩
              · clear hD
                obtain ⟨he1, hn1, _⟩ := appendAdj_state hx5
                by_cases hstq : s ≠ t
                · rw [if_pos hstq] at hE
                  rcases GM_bind_inv hE with ⟨u2, g6, hx6, hF⟩ | ⟨e, hx6, hr⟩
                  · clear hE
                    obtain ⟨he2, hn2, _⟩ := appendAdj_state hx6
                    obtain ⟨_, hge⟩ := GM_pure_inv hF
                    subst hge
                    refine ⟨hn2.trans hn1, fun en hen => hkeysS en ?_⟩
                    have hh : en ∈ edgeKeys g' := hen
                    rw [edgeKeys, he2, he1] at hh
                    exact hh
                  · obtain ⟨he2, hn2, _⟩ := appendAdj_state hx6
                    refine ⟨hn2.trans hn1, fun en hen => hkeysS en ?_⟩
                    have hh : en ∈ edgeKeys g' := hen
                    rw [edgeKeys, he2, he1] at hh
                    exact hh
                · rw [if_neg hstq] at hE
                  rcases GM_bind_inv hE with ⟨u2, g6, hx6, hF⟩ | ⟨e, hx6, hr⟩
                  · clear hE
                    obtain ⟨_, hg6⟩ := GM_pure_inv hx6
                    rw [hg6] at hF
                    obtain ⟨_, hge⟩ := GM_pure_inv hF
                    subst hge
                    refine ⟨hn1, fun en hen => hkeysS en ?_⟩
                    have hh : en ∈ edgeKeys g' := hen
                    rw [edgeKeys, he1] at hh
                    exact hh
                  · exact absurd (GM_pure_inv hx6).1 (by simp)
              · obtain ⟨he1, hn1, _⟩ := appendAdj_state hx5
                refine ⟨hn1, fun en hen => hkeysS en ?_⟩
                have hh : en ∈ edgeKeys g' := hen
                rw [edgeKeys, he1] at hh
                exact hh


theorem GM_run_bind_ok {α β : Type} {x : GM α} {f : α → GM β} {g g1 : Graph} {a : α}
    (h : x g = (Except.ok a, g1)) : (x >>= f) g = f a g1 := by
  rw [GM_run_bind, h]

theorem intersectionNodesLoop_skip {o : Graph} {l : List (PName × NodeRec)}
    (hl : ∀ p ∈ l, containsNode o p.1 = false) (g0 : Graph) :
    intersectionNodesLoop o l g0 = (Except.ok (), g0) := by
  induction l with
  | nil => rfl
  | cons p t ih =>
    show (if containsNode o p.1 = true then _ else intersectionNodesLoop o t) g0 = _
    rw [hl p (List.mem_cons_self _ _)]
    simp only [Bool.false_eq_true, if_false]
    exact ih (fun q hq => hl q (List.mem_cons_of_mem _ hq))

theorem intersectionEdgesLoop_skip {o : Graph} {l : List (PName × EdgeRec)}
    (hl : ∀ p ∈ l, containsEdge o p.1 = false) (g0 : Graph) :
    intersectionEdgesLoop o l g0 = (Except.ok (), g0) := by
  induction l with
  | nil => rfl
  | cons p t ih =>
    show (if containsEdge o p.1 = true then _ else intersectionEdgesLoop o t) g0 = _
    rw [hl p (List.mem_cons_self _ _)]
    simp only [Bool.false_eq_true, if_false]
    exact ih (fun q hq => hl q (List.mem_cons_of_mem _ hq))

theorem intersectionNodesLoop_state {o : Graph} {l : List (PName × NodeRec)}
    {g0 g1 : Graph} {r : Except PyErr Unit}
    (h : intersectionNodesLoop o l g0 = (r, g1)) :
    g1.edges = g0.edges ∧
    ∀ n, n ∈ nodeKeys g1 → n ∈ nodeKeys g0 ∨ (n ∈ dictKeys l ∧ containsNode o n = true) := by
  induction l generalizing g0 with
  | nil =>
    obtain ⟨_, hg⟩ := GM_pure_inv h
    subst hg
    exact ⟨rfl, fun n hn => Or.inl hn⟩
  | cons p t ih =>
    have hshape : intersectionNodesLoop o (p :: t) g0 =
        (if containsNode o p.1 = true then
          (addNode (some p.1) p.2.data >>= fun _ => intersectionNodesLoop o t)
         else intersectionNodesLoop o t) g0 := rfl
    rw [hshape] at h
    by_cases hc : containsNode o p.1 = true
    · rw [if_pos hc] at h
      rcases GM_bind_inv h with ⟨u, gm, hx, hrest⟩ | ⟨e, hx, hr⟩
      · obtain ⟨he1, hn1⟩ := addNode_state hx
        obtain ⟨he2, hn2⟩ := ih hrest
        refine ⟨he2.trans he1, fun n hn => ?_⟩
        rcases hn2 n hn with h1 | ⟨h1, h2⟩
        · rcases hn1 n h1 with h3 | h3
          · exact Or.inl h3
          · refine Or.inr ⟨?_, ?_⟩
            · rw [dictKeys_cons, h3]
              exact List.mem_cons_self _ _
            · rw [h3]
              exact hc
        · exact Or.inr ⟨by rw [dictKeys_cons]; exact List.mem_cons_of_mem _ h1, h2⟩
      · obtain ⟨he1, hn1⟩ := addNode_state hx
        subst hr
        refine ⟨he1, fun n hn => ?_⟩
        rcases hn1 n hn with h3 | h3
        · exact Or.inl h3
        · refine Or.inr ⟨?_, ?_⟩
          · rw [dictKeys_cons, h3]
            exact List.mem_cons_self _ _
          · rw [h3]
            exact hc
    · rw [if_neg hc] at h
      obtain ⟨he2, hn2⟩ := ih h
      refine ⟨he2, fun n hn => ?_⟩
      rcases hn2 n hn with h1 | ⟨h1, h2⟩
      · exact Or.inl h1
      · exact Or.inr ⟨by rw [dictKeys_cons]; exact List.mem_cons_of_mem _ h1, h2⟩

theorem intersectionEdgesLoop_state {o : Graph} {l : List (PName × EdgeRec)}
    {g0 g1 : Graph} {r : Except PyErr Unit}
    (h : intersectionEdgesLoop o l g0 = (r, g1)) :
    nodeKeys g1 = nodeKeys g0 ∧
    ∀ en, en ∈ edgeKeys g1 → en ∈ edgeKeys g0 ∨ (en ∈ dictKeys l ∧ containsEdge o en = true) := by
  induction l generalizing g0 with
  | nil =>
    obtain ⟨_, hg⟩ := GM_pure_inv h
    subst hg
    exact ⟨rfl, fun n hn => Or.inl hn⟩
  | cons p t ih =>
    have hshape : intersectionEdgesLoop o (p :: t) g0 =
        (if containsEdge o p.1 = true then
          (GM.getG >>= fun cur =>
            if containsNode cur p.2.start = true ∧ containsNode cur p.2.endp = true then
              (addEdge p.2.start p.2.endp (some p.1) p.2.directed p.2.data >>= fun _ =>
                intersectionEdgesLoop o t)
            else intersectionEdgesLoop o t)
         else intersectionEdgesLoop o t) g0 := rfl
    rw [hshape] at h
    by_cases hc : containsEdge o p.1 = true
    · rw [if_pos hc] at h
      rcases GM_bind_inv h with ⟨gv, gm, hx, hrest⟩ | ⟨e, hx, hr⟩
      swap
      · exact absurd (GM_getG_inv hx).1 (by simp)
      · obtain ⟨hgv, hgm⟩ := GM_getG_inv hx
        injection hgv with hgv
        rw [hgv, hgm] at hrest
        clear hgv hgm hx
        by_cases hcond : containsNode g0 p.2.start = true ∧ containsNode g0 p.2.endp = true
        · rw [if_pos hcond] at hrest
          rcases GM_bind_inv hrest with ⟨u, gm2, hx2, hrest2⟩ | ⟨e, hx2, hr2⟩
          · obtain ⟨hn1, he1⟩ := addEdge_state hx2
            obtain ⟨hn2, he2⟩ := ih hrest2
            refine ⟨hn2.trans hn1, fun en hen => ?_⟩
            rcases he2 en hen with h1 | ⟨h1, h2⟩
            · rcases he1 en h1 with h3 | h3
              · exact Or.inl h3
              · refine Or.inr ⟨?_, ?_⟩
                · rw [dictKeys_cons, h3]
                  exact List.mem_cons_self _ _
                · rw [h3]
                  exact hc
            · exact Or.inr ⟨by rw [dictKeys_cons]; exact List.mem_cons_of_mem _ h1, h2⟩
          · obtain ⟨hn1, he1⟩ := addEdge_state hx2
            subst hr2
            refine ⟨hn1, fun en hen => ?_⟩
            rcases he1 en hen with h3 | h3
            · exact Or.inl h3
            · refine Or.inr ⟨?_, ?_⟩
              · rw [dictKeys_cons, h3]
                exact List.mem_cons_self _ _
              · rw [h3]
                exact hc
        · rw [if_neg hcond] at hrest
          obtain ⟨hn2, he2⟩ := ih hrest
          refine ⟨hn2, fun en hen => ?_⟩
          rcases he2 en hen with h1 | ⟨h1, h2⟩
          · exact Or.inl h1
          · exact Or.inr ⟨by rw [dictKeys_cons]; exact List.mem_cons_of_mem _ h1, h2⟩
    · rw [if_neg hc] at h
      obtain ⟨hn2, he2⟩ := ih h
      refine ⟨hn2, fun en hen => ?_⟩
      rcases he2 en hen with h1 | ⟨h1, h2⟩
      · exact Or.inl h1
      · exact Or.inr ⟨by rw [dictKeys_cons]; exact List.mem_cons_of_mem _ h1, h2⟩

theorem containsNode_false_of_not_mem {g : Graph} {n : PName} (h : n ∉ nodeKeys g) :
    containsNode g n = false := by
  cases hc : containsNode g n
  · rfl
  · exact absurd ((dictGet_isSome_iff _ _).mp hc) h

theorem containsEdge_false_of_not_mem {g : Graph} {n : PName} (h : n ∉ edgeKeys g) :
    containsEdge g n = false := by
  cases hc : containsEdge g n
  · rfl
  · exact absurd ((dictGet_isSome_iff _ _).mp hc) h

theorem mem_dictKeys_dictSet_self {K V : Type} [DecidableEq K] (l : List (K × V)) (k : K)
    (v : V) : k ∈ dictKeys (dictSet l k v) := by
  by_cases h : k ∈ dictKeys l
  · rw [dictKeys_dictSet_mem v h]
    exact h
  · rw [dictKeys_dictSet_not_mem v h]
    exact List.mem_append_right _ (List.mem_singleton.mpr rfl)

theorem mem_dictKeys_dictSet_of_mem {K V : Type} [DecidableEq K] (l : List (K × V)) (k : K)
    (v : V) {m : K} (h : m ∈ dictKeys l) : m ∈ dictKeys (dictSet l k v) := by
  by_cases hm : k ∈ dictKeys l
  · rw [dictKeys_dictSet_mem v hm]
    exact h
  · rw [dictKeys_dictSet_not_mem v hm]
    exact List.mem_append_left _ h

theorem addNode_some_keys {n : PName} {attrs : Attrs} {g g' : Graph} {res : PName}
    (h : addNode (some n) attrs g = (Except.ok res, g')) :
    n ∈ nodeKeys g' ∧ ∀ m, m ∈ nodeKeys g → m ∈ nodeKeys g' := by
  unfold addNode at h
  cases hb : buildData nodeReservedKeys [] attrs with
  | error e =>
    rw [hb] at h
    exact Except.noConfusion (GM_throw_inv h).1
  | ok d =>
    rw [hb] at h
    rcases GM_bind_inv h with ⟨a, g1, hA, hB⟩ | ⟨e0, hA, hB⟩
    · obtain ⟨ha1, ha2⟩ := GM_getG_inv hA
      injection ha1 with ha1
      have ha1s : g = a := ha1.symm
      cases ha1s
      have ha2s : g = g1 := ha2.symm
      cases ha2s
      rcases GM_bind_inv hB with ⟨u, g2, hC, hD⟩ | ⟨e0, hC, hD⟩
      · obtain ⟨_, hg2⟩ := GM_setG_inv hC
        subst hg2
        obtain ⟨_, hg'⟩ := GM_pure_inv hD
        subst hg'
        constructor
        · exact mem_dictKeys_dictSet_self _ _ _
        · intro m hm
          exact mem_dictKeys_dictSet_of_mem _ _ _ hm
      · exact Except.noConfusion hD
    · exact Except.noConfusion hB

theorem intersectionNodesLoop_monoOk {o : Graph} {l : List (PName × NodeRec)} :
    ∀ {g0 g1 : Graph} {u : Unit},
    intersectionNodesLoop o l g0 = (Except.ok u, g1) →
    ∀ n, n ∈ nodeKeys g0 → n ∈ nodeKeys g1 := by
  induction l with
  | nil =>
    intro g0 g1 u h
    obtain ⟨_, hg⟩ := GM_pure_inv h
    subst hg
    exact fun n hn => hn
  | cons p t ih =>
    intro g0 g1 u h
    have hshape : intersectionNodesLoop o (p :: t) g0 =
        (if containsNode o p.1 = true then
          (addNode (some p.1) p.2.data >>= fun _ => intersectionNodesLoop o t)
         else intersectionNodesLoop o t) g0 := rfl
    rw [hshape] at h
    by_cases hc : containsNode o p.1 = true
    · rw [if_pos hc] at h
      rcases GM_bind_inv h with ⟨u2, gm, hx, hrest⟩ | ⟨e, hx, hr⟩
      · intro n hn
        exact ih hrest n ((addNode_some_keys hx).2 n hn)
      · exact Except.noConfusion hr
    · rw [if_neg hc] at h
      exact ih h

theorem intersectionNodesLoop_hits {o : Graph} {l : List (PName × NodeRec)} :
    ∀ {g0 g1 : Graph} {u : Unit},
    intersectionNodesLoop o l g0 = (Except.ok u, g1) →
    ∀ n r, (n, r) ∈ l → containsNode o n = true → n ∈ nodeKeys g1 := by
  induction l with
  | nil =>
    intro g0 g1 u _ n r hm
    cases hm
  | cons p t ih =>
    intro g0 g1 u h n r hm hc
    have hshape : intersectionNodesLoop o (p :: t) g0 =
        (if containsNode o p.1 = true then
          (addNode (some p.1) p.2.data >>= fun _ => intersectionNodesLoop o t)
         else intersectionNodesLoop o t) g0 := rfl
    rw [hshape] at h
    rcases List.mem_cons.mp hm with h1 | h1
    · rw [← h1] at h
      rw [if_pos hc] at h
      rcases GM_bind_inv h with ⟨u2, gm, hx, hrest⟩ | ⟨e, hx, hr⟩
      · exact intersectionNodesLoop_monoOk hrest n (addNode_some_keys hx).1
      · exact Except.noConfusion hr
    · by_cases hcp : containsNode o p.1 = true
      · rw [if_pos hcp] at h
        rcases GM_bind_inv h with ⟨u2, gm, hx, hrest⟩ | ⟨e, hx, hr⟩
        · exact ih hrest n r h1 hc
        · exact Except.noConfusion hr
      · rw [if_neg hcp] at h
        exact ih h n r h1 hc


/-!  Claims C9 and C10. -/


theorem dictGet_mem {K V : Type} [DecidableEq K] {l : List (K × V)} {k : K} {v : V}
    (h : dictGet l k = some v) : (k, v) ∈ l := by
  induction l with
  | nil => cases h
  | cons hd tl ih =>
    by_cases hk : hd.1 = k
    · rw [dictGet_cons, if_pos hk] at h
      cases h
      subst hk
      exact List.mem_cons_self _ _
    · rw [dictGet_cons, if_neg hk] at h
      exact List.mem_cons_of_mem _ (ih h)

theorem mem_nodeKeys_getRec {g : Graph} {n : PName} (h : n ∈ nodeKeys g) :
    ∃ rec0, dictGet g.nodes n = some rec0 := by
  have := (dictGet_isSome_iff g.nodes n).mpr h
  cases hg : dictGet g.nodes n with
  | some r => exact ⟨r, rfl⟩
  | none => rw [hg] at this; cases this

/-- Claim C9: on a well-formed graph, every undirected edge incident to a
node appears in both that node's `incoming` and `outgoing` views, which are
computed as the directed in-edges (out-edges) plus all bidirectional
edges. -/
theorem claim_C9 (g : Graph) (en n : PName) (e : EdgeRec)
    (hwf : WF g) (he : dictGet g.edges en = some e) (hund : e.directed = false)
    (hinc : e.start = n ∨ e.endp = n) :
    en ∈ incomingView g n ∧ en ∈ outgoingView g n ∧
    incomingView g n = (nodeRec g n).incoming ++ (nodeRec g n).bidirectional ∧
    outgoingView g n = (nodeRec g n).outgoing ++ (nodeRec g n).bidirectional := by
  obtain ⟨hnn, hne, hdisj, hends, hadj, hauto1, hauto2⟩ := hwf
  have heMem : (en, e) ∈ g.edges := dictGet_mem he
  have hnMem : n ∈ nodeKeys g := by
    rcases hinc with h1 | h1
    · rw [← h1]
      exact (hends _ heMem).1
    · rw [← h1]
      exact (hends _ heMem).2
  obtain ⟨rec0, hrec⟩ := mem_nodeKeys_getRec hnMem
  have hpMem : (n, rec0) ∈ g.nodes := dictGet_mem hrec
  have hbid : en ∈ rec0.bidirectional := by
    have hexp : expectBid g n en = true := by
      unfold expectBid
      rw [he]
      rcases hinc with h1 | h1 <;> simp [hund, h1]
    exact ((hadj _ hpMem).2.2.2.2.2.2 _ heMem).2.2 hexp
  have hrecEq : nodeRec g n = rec0 := by
    unfold nodeRec
    rw [hrec]
    rfl
  refine ⟨?_, ?_, rfl, rfl⟩
  · unfold incomingView
    rw [hrecEq]
    exact List.mem_append_right _ hbid
  · unfold outgoingView
    rw [hrecEq]
    exact List.mem_append_right _ hbid

/-- Witness for claim C9 at the undirected edge `u` of `gUndir` and its
endpoint `A`. -/
theorem claim_C9_witness :
    PName.s "u" ∈ incomingView gUndir (PName.s "A") ∧
    PName.s "u" ∈ outgoingView gUndir (PName.s "A") ∧
    incomingView gUndir (PName.s "A") =
      (nodeRec gUndir (PName.s "A")).incoming ++ (nodeRec gUndir (PName.s "A")).bidirectional ∧
    outgoingView gUndir (PName.s "A") =
      (nodeRec gUndir (PName.s "A")).outgoing ++ (nodeRec gUndir (PName.s "A")).bidirectional :=
  claim_C9 gUndir (PName.s "u") (PName.s "A") ⟨PName.s "A", PName.s "B", false, []⟩
    (by decide) (by decide) (by decide) (Or.inl (by decide))

theorem popFront_sel : selRemovesOne popFront := by
  intro l hl
  cases l with
  | nil => exact absurd rfl hl
  | cons a t => exact ⟨[], t, rfl, rfl⟩

theorem popBack_sel : selRemovesOne popBack := by
  intro l hl
  refine ⟨l.dropLast, [], ?_, by simp [popBack]⟩
  have hlast : (popBack l).1 = l.getLast hl := by
    show l.getLastD default = _
    rw [List.getLastD_eq_getLast?, List.getLast?_eq_getLast_of_ne_nil hl]
    rfl
  rw [hlast]
  exact (List.dropLast_append_getLast hl).symm

theorem heuristicAux_head (g : Graph) (sel : List PName → PName × List PName)
    (hsel : selRemovesOne sel) (fuel : Nat) (root : PName) (visited : Finset PName) :
    ∃ rest, heuristicAux g sel (fuel + 1) [root] visited = root :: rest := by
  obtain ⟨l1, l2, hl, hrest⟩ := hsel [root] (by simp)
  have hx : (sel [root]).1 = root := by
    cases l1 with
    | nil =>
      rw [List.nil_append] at hl
      injection hl with h1 h2
      exact h1.symm
    | cons a t =>
      rw [List.cons_append] at hl
      injection hl with h1 h2
      exact absurd h2.symm (by simp)
  have hstep : heuristicAux g sel (fuel + 1) [root] visited =
      (sel [root]).1 :: heuristicAux g sel fuel
        (((getAdjacent g (sel [root]).1).filter
            (fun w => w ∉ insert (sel [root]).1 visited)).foldl pyAppendNew (sel [root]).2)
        (insert (sel [root]).1 visited) := by
    show (if ([root] : List PName) = [] then [] else _) = _
    rw [if_neg (by simp)]
  rw [hstep, hx]
  exact ⟨_, rfl⟩

/-- Claim C10: for every graph, every node root, and every selector that
removes and returns exactly one element of the list it is given, the first
element yielded by `heuristic_traversal` is the root itself; in particular
`depth_first_traversal` and `breadth_first_traversal` yield the root
first. -/
theorem claim_C10 (g : Graph) (root : PName)
    (h1 : root ∈ nodeKeys g) (h2 : root ∉ edgeKeys g) :
    (∀ sel, selRemovesOne sel →
      ∃ rest, heuristicTraversal g root sel = Except.ok (root :: rest)) ∧
    (∃ r1, depthFirstTraversal g root = Except.ok (root :: r1)) ∧
    (∃ r2, breadthFirstTraversal g root = Except.ok (root :: r2)) := by
  have hge : getElement g root = Except.ok (Elem.node root) := by
    unfold getElement
    rw [if_neg, if_pos]
    · exact (dictGet_isSome_iff _ _).mpr h1
    · intro hc
      exact h2 ((dictGet_isSome_iff _ _).mp hc)
  have hmain : ∀ sel, selRemovesOne sel →
      ∃ rest, heuristicTraversal g root sel = Except.ok (root :: rest) := by
    intro sel hsel
    have hrun : heuristicTraversal g root sel =
        Except.ok (heuristicAux g sel (traversalFuel g) [root] ∅) := by
      unfold heuristicTraversal
      rw [hge]
    obtain ⟨rest, hr⟩ :=
      heuristicAux_head g sel hsel (g.nodes.length + 2 * g.edges.length) root ∅
    exact ⟨rest, hrun.trans (congrArg Except.ok hr)⟩
  exact ⟨hmain, hmain popBack popBack_sel, hmain popFront popFront_sel⟩

/-- Witness for claim C10 on the diamond graph rooted at `A`. -/
theorem claim_C10_witness :
    (∃ r1, depthFirstTraversal gDiamond (PName.s "A") = Except.ok (PName.s "A" :: r1)) ∧
    (∃ r2, breadthFirstTraversal gDiamond (PName.s "A") = Except.ok (PName.s "A" :: r2)) :=
  ⟨(claim_C10 gDiamond (PName.s "A") (by decide) (by decide)).2.1,
   (claim_C10 gDiamond (PName.s "A") (by decide) (by decide)).2.2⟩

theorem dictGet_of_mem_nodup {K V : Type} [DecidableEq K] {l : List (K × V)}
    (hn : (dictKeys l).Nodup) {k : K} {v : V} (h : (k, v) ∈ l) : dictGet l k = some v := by
  induction l with
  | nil => cases h
  | cons p t ih =>
    rw [dictKeys_cons, List.nodup_cons] at hn
    rcases List.mem_cons.mp h with h1 | h1
    · rw [← h1, dictGet_cons, if_pos rfl]
    · have hk : p.1 ≠ k := by
        intro hh
        apply hn.1
        rw [hh]
        exact List.mem_map_of_mem Prod.fst h1
      rw [dictGet_cons, if_neg hk]
      exact ih hn.2 h1

theorem expectOut_edge {g : Graph} {n en : PName} (h : expectOut g n en = true) :
    ∃ e, dictGet g.edges en = some e ∧ e.directed = true ∧ e.start = n := by
  unfold expectOut at h
  cases hge : dictGet g.edges en with
  | none => rw [hge] at h; cases h
  | some e =>
    rw [hge] at h
    simp at h
    exact ⟨e, rfl, h.1, h.2⟩

theorem expectIn_edge {g : Graph} {n en : PName} (h : expectIn g n en = true) :
    ∃ e, dictGet g.edges en = some e ∧ e.directed = true ∧ e.endp = n := by
  unfold expectIn at h
  cases hge : dictGet g.edges en with
  | none => rw [hge] at h; cases h
  | some e =>
    rw [hge] at h
    simp at h
    exact ⟨e, rfl, h.1, h.2⟩

theorem expectBid_edge {g : Graph} {n en : PName} (h : expectBid g n en = true) :
    ∃ e, dictGet g.edges en = some e ∧ e.directed = false ∧ (e.start = n ∨ e.endp = n) := by
  unfold expectBid at h
  cases hge : dictGet g.edges en with
  | none => rw [hge] at h; cases h
  | some e =>
    rw [hge] at h
    simp at h
    refine ⟨e, rfl, h.1, ?_⟩
    rcases h.2 with h2 | h2
    · exact Or.inl h2
    · exact Or.inr h2

theorem WF_iff_WFc (g : Graph) : WF g ↔ WFc g := by
  constructor
  · rintro ⟨hnn, hne, hdisj, hends, hadj, ha1, ha2⟩
    refine ⟨hnn, hne, hdisj, hends, ?_, ha1, ha2⟩
    intro n rec0 hget en
    have hp : (n, rec0) ∈ g.nodes := dictGet_mem hget
    obtain ⟨hond, hind, hbnd, hoa, hia, hba, hq⟩ := hadj _ hp
    refine ⟨?_, ?_, ?_⟩
    · unfold outCount
      by_cases hex : expectOut g n en = true
      · rw [if_pos hex]
        obtain ⟨e, hge, _, _⟩ := expectOut_edge hex
        exact List.count_eq_one_of_mem hond ((hq _ (dictGet_mem hge)).1 hex)
      · rw [if_neg hex]
        rw [List.count_eq_zero]
        intro hmem
        exact hex (hoa _ hmem)
    · unfold inCount
      by_cases hex : expectIn g n en = true
      · rw [if_pos hex]
        obtain ⟨e, hge, _, _⟩ := expectIn_edge hex
        exact List.count_eq_one_of_mem hind ((hq _ (dictGet_mem hge)).2.1 hex)
      · rw [if_neg hex]
        rw [List.count_eq_zero]
        intro hmem
        exact hex (hia _ hmem)
    · unfold bidCount
      by_cases hex : expectBid g n en = true
      · rw [if_pos hex]
        obtain ⟨e, hge, _, _⟩ := expectBid_edge hex
        exact List.count_eq_one_of_mem hbnd ((hq _ (dictGet_mem hge)).2.2 hex)
      · rw [if_neg hex]
        rw [List.count_eq_zero]
        intro hmem
        exact hex (hba _ hmem)
  · rintro ⟨hnn, hne, hdisj, hends, hcnt, ha1, ha2⟩
    refine ⟨hnn, hne, hdisj, hends, ?_, ha1, ha2⟩
    intro p hp
    have hget : dictGet g.nodes p.1 = some p.2 := dictGet_of_mem_nodup hnn hp
    have hcp := hcnt p.1 p.2 hget
    have hond : p.2.outgoing.Nodup := by
      rw [List.nodup_iff_count_le_one]
      intro en
      rw [(hcp en).1]
      unfold outCount
      split
      · exact Nat.le_refl 1
      · exact Nat.zero_le 1
    have hind : p.2.incoming.Nodup := by
      rw [List.nodup_iff_count_le_one]
      intro en
      rw [(hcp en).2.1]
      unfold inCount
      split
      · exact Nat.le_refl 1
      · exact Nat.zero_le 1
    have hbnd : p.2.bidirectional.Nodup := by
      rw [List.nodup_iff_count_le_one]
      intro en
      rw [(hcp en).2.2]
      unfold bidCount
      split
      · exact Nat.le_refl 1
      · exact Nat.zero_le 1
    refine ⟨hond, hind, hbnd, ?_, ?_, ?_, ?_⟩
    · intro en hmem
      have hpos : 0 < p.2.outgoing.count en := List.count_pos_iff.mpr hmem
      rw [(hcp en).1] at hpos
      unfold outCount at hpos
      by_contra hex
      rw [if_neg hex] at hpos
      exact Nat.lt_irrefl 0 hpos
    · intro en hmem
      have hpos : 0 < p.2.incoming.count en := List.count_pos_iff.mpr hmem
      rw [(hcp en).2.1] at hpos
      unfold inCount at hpos
      by_contra hex
      rw [if_neg hex] at hpos
      exact Nat.lt_irrefl 0 hpos
    · intro en hmem
      have hpos : 0 < p.2.bidirectional.count en := List.count_pos_iff.mpr hmem
      rw [(hcp en).2.2] at hpos
      unfold bidCount at hpos
      by_contra hex
      rw [if_neg hex] at hpos
      exact Nat.lt_irrefl 0 hpos
    · intro q hq
      refine ⟨fun hex => ?_, fun hex => ?_, fun hex => ?_⟩
      · rw [← List.count_pos_iff, (hcp q.1).1]
        unfold outCount
        rw [if_pos hex]
        exact Nat.zero_lt_one
      · rw [← List.count_pos_iff, (hcp q.1).2.1]
        unfold inCount
        rw [if_pos hex]
        exact Nat.zero_lt_one
      · rw [← List.count_pos_iff, (hcp q.1).2.2]
        unfold bidCount
        rw [if_pos hex]
        exact Nat.zero_lt_one


theorem getElement_node_inv {g : Graph} {x n : PName}
    (h : getElement g x = Except.ok (Elem.node n)) :
    x = n ∧ (dictGet g.nodes x).isSome = true ∧ (dictGet g.edges x).isSome = false := by
  unfold getElement at h
  by_cases h1 : (dictGet g.edges x).isSome = true
  · rw [if_pos h1] at h
    injection h with h
    cases h
  · rw [if_neg h1] at h
    by_cases h2 : (dictGet g.nodes x).isSome = true
    · rw [if_pos h2] at h
      injection h with h
      injection h with h
      exact ⟨h, h2, by simpa using h1⟩
    · rw [if_neg h2] at h
      cases h

theorem getElement_edge_inv {g : Graph} {x n : PName}
    (h : getElement g x = Except.ok (Elem.edge n)) :
    x = n ∧ (dictGet g.edges x).isSome = true := by
  unfold getElement at h
  by_cases h1 : (dictGet g.edges x).isSome = true
  · rw [if_pos h1] at h
    injection h with h
    injection h with h
    exact ⟨h, h1⟩
  · rw [if_neg h1] at h
    by_cases h2 : (dictGet g.nodes x).isSome = true
    · rw [if_pos h2] at h
      injection h with h
      cases h
    · rw [if_neg h2] at h
      cases h

theorem appendAdj_node_inv {n : PName} {f : NodeRec → NodeRec} {g g' : Graph}
    {r : Except PyErr Unit} (h : appendAdj (Elem.node n) f g = (r, g')) :
    r = Except.ok () ∧ g' = { g with nodes := dictAdjust g.nodes n f } := by
  unfold appendAdj at h
  exact GM_modifyG_inv h

theorem appendAdj_edge_inv {n : PName} {f : NodeRec → NodeRec} {g g' : Graph}
    {r : Except PyErr Unit} (h : appendAdj (Elem.edge n) f g = (r, g')) :
    r = Except.error PyErr.attributeError ∧ g' = g := by
  unfold appendAdj at h
  exact GM_throw_inv h

theorem addEdge_ok {s t : PName} {nm : Option PName} {dir : Bool} {attrs : Attrs}
    {g g' : Graph} {res : PName}
    (h : addEdge s t nm dir attrs g = (Except.ok res, g')) :
    ∃ d, buildData edgeReservedKeys [] attrs = Except.ok d ∧
      getElement g s = Except.ok (Elem.node s) ∧
      getElement g t = Except.ok (Elem.node t) ∧
      res = nm.getD (PName.auto g.counter) ∧
      g'.counter = (if nm.isSome then g.counter else g.counter + 1) ∧
      g'.edges = dictSet g.edges res ⟨s, t, dir, d⟩ ∧
      g'.nodes = (if dir = true then
          dictAdjust (dictAdjust g.nodes s (pushOutgoing res)) t (pushIncoming res)
        else if s ≠ t then
          dictAdjust (dictAdjust g.nodes s (pushBidirectional res)) t (pushBidirectional res)
        else dictAdjust g.nodes s (pushBidirectional res)) := by
  unfold addEdge at h
  rcases GM_bind_inv h with ⟨sEl, g1, hx1, hA⟩ | ⟨e, hx1, hr⟩
  swap
  · cases hr
  · clear h
    rw [getElementM_run] at hx1
    injection hx1 with h3 h4
    rw [← h4] at hA
    clear h4
    rcases GM_bind_inv hA with ⟨tEl, g2, hx2, hB⟩ | ⟨e, hx2, hr⟩
    swap
    · cases hr
    · clear hA
      rw [getElementM_run] at hx2
      injection hx2 with h5 h6
      rw [← h6] at hB
      clear h6
      cases hb : buildData edgeReservedKeys [] attrs with
      | error e =>
        rw [hb] at hB
        cases (GM_throw_inv hB).1
      | ok d =>
        rw [hb] at hB
        rcases GM_bind_inv hB with ⟨gv, g3, hx3, hC⟩ | ⟨e, hx3, hr⟩
        swap
        · exact absurd (GM_getG_inv hx3).1 (by simp)
        · clear hB
          obtain ⟨hre, hg3⟩ := GM_getG_inv hx3
          injection hre with hre
          rw [hre, hg3] at hC
          clear hre hg3 hx3
          rcases GM_bind_inv hC with ⟨u0, g4, hx4, hD⟩ | ⟨e, hx4, hr⟩
          swap
          · exact absurd (GM_setG_inv hx4).1 (by simp)
          · clear hC
            obtain ⟨_, hg4⟩ := GM_setG_inv hx4
            rw [hg4] at hD
            clear hg4 hx4
            -- success of the adjacency phase forces both elements to be nodes
            cases sEl with
            | edge m =>
              exfalso
              by_cases hdir : dir = true
              · rw [if_pos hdir] at hD
                rcases GM_bind_inv hD with ⟨u1, g5, hx5, hE⟩ | ⟨e, hx5, hr⟩
                · exact absurd (appendAdj_edge_inv hx5).1 (by simp)
                · cases hr
              · rw [if_neg hdir] at hD
                rcases GM_bind_inv hD with ⟨u1, g5, hx5, hE⟩ | ⟨e, hx5, hr⟩
                · exact absurd (appendAdj_edge_inv hx5).1 (by simp)
                · cases hr
            | node ns =>
              have hns : s = ns := (getElement_node_inv h3).1
              cases hns
              cases tEl with
              | edge m =>
                exfalso
                by_cases hdir : dir = true
                · rw [if_pos hdir] at hD
                  rcases GM_bind_inv hD with ⟨u1, g5, hx5, hE⟩ | ⟨e, hx5, hr⟩
                  · rcases GM_bind_inv hE with ⟨u2, g6, hx6, hF⟩ | ⟨e, hx6, hr⟩
                    · exact absurd (appendAdj_edge_inv hx6).1 (by simp)
                    · cases hr
                  · cases hr
                · rw [if_neg hdir] at hD
                  rcases GM_bind_inv hD with ⟨u1, g5, hx5, hE⟩ | ⟨e, hx5, hr⟩
                  · by_cases hst : s ≠ t
                    · rw [if_pos hst] at hE
                      rcases GM_bind_inv hE with ⟨u2, g6, hx6, hF⟩ | ⟨e, hx6, hr⟩
                      · exact absurd (appendAdj_edge_inv hx6).1 (by simp)
                      · cases hr
                    · -- s = t: the second append is skipped, but then t names an
                      -- edge while s (= t) named a node: getElement is a function
                      push_neg at hst
                      rw [hst] at h3
                      rw [h3] at h5
                      injection h5 with h5
                      cases h5
                  · cases hr
              | node nt =>
                have hnt : t = nt := (getElement_node_inv h5).1
                cases hnt
                refine ⟨d, rfl, h3, h5, ?_⟩
                by_cases hdir : dir = true
                · rw [if_pos hdir] at hD ⊢
                  rcases GM_bind_inv hD with ⟨u1, g5, hx5, hE⟩ | ⟨e, hx5, hr⟩
                  swap
                  · cases hr
                  · obtain ⟨_, hg5⟩ := appendAdj_node_inv hx5
                    rw [hg5] at hE
                    rcases GM_bind_inv hE with ⟨u2, g6, hx6, hF⟩ | ⟨e, hx6, hr⟩
                    swap
                    · cases hr
                    · obtain ⟨_, hg6⟩ := appendAdj_node_inv hx6
                      rw [hg6] at hF
                      obtain ⟨hres, hgf⟩ := GM_pure_inv hF
                      injection hres with hres
                      subst hgf
                      subst hres
                      exact ⟨rfl, rfl, rfl, rfl⟩
                · rw [if_neg hdir] at hD ⊢
                  rcases GM_bind_inv hD with ⟨u1, g5, hx5, hE⟩ | ⟨e, hx5, hr⟩
                  swap
                  · cases hr
                  · obtain ⟨_, hg5⟩ := appendAdj_node_inv hx5
                    rw [hg5] at hE
                    by_cases hst : s ≠ t
                    · rw [if_pos hst] at hE ⊢
                      rcases GM_bind_inv hE with ⟨u2, g6, hx6, hF⟩ | ⟨e, hx6, hr⟩
                      swap
                      · cases hr
                      · obtain ⟨_, hg6⟩ := appendAdj_node_inv hx6
                        rw [hg6] at hF
                        obtain ⟨hres, hgf⟩ := GM_pure_inv hF
                        injection hres with hres
                        subst hgf
                        subst hres
                        exact ⟨rfl, rfl, rfl, rfl⟩
                    · rw [if_neg hst] at hE ⊢
                      rcases GM_bind_inv hE with ⟨u2, g6, hx6, hF⟩ | ⟨e, hx6, hr⟩
                      swap
                      · cases hr
                      · obtain ⟨_, hg6⟩ := GM_pure_inv hx6
                        rw [hg6] at hF
                        obtain ⟨hres, hgf⟩ := GM_pure_inv hF
                        injection hres with hres
                        subst hgf
                        subst hres
                        exact ⟨rfl, rfl, rfl, rfl⟩


theorem dictSet_not_mem_append {K V : Type} [DecidableEq K] {l : List (K × V)} {k : K} (v : V)
    (h : k ∉ dictKeys l) : dictSet l k v = l ++ [(k, v)] := by
  induction l with
  | nil => rfl
  | cons p t ih =>
    have hk : p.1 ≠ k := by
      intro hh
      exact h (by rw [dictKeys_cons, hh]; exact List.mem_cons_self _ _)
    have ht : k ∉ dictKeys t := by
      intro hh
      exact h (by rw [dictKeys_cons]; exact List.mem_cons_of_mem _ hh)
    rw [dictSet_cons, if_neg hk, ih ht, List.cons_append]

theorem mem_dictAdjust_keys {K V : Type} [DecidableEq K] {l : List (K × V)} {k : K} {f : V → V}
    {p : K × V} (h : p ∈ dictAdjust l k f) : p.1 ∈ dictKeys l := by
  have : p.1 ∈ dictKeys (dictAdjust l k f) := List.mem_map_of_mem Prod.fst h
  rw [dictKeys_dictAdjust] at this
  exact this

theorem autoBound_mono {c c' : Nat} {x : PName} (h : autoBound c x = true) (hle : c ≤ c') :
    autoBound c' x = true := by
  unfold autoBound at h ⊢
  cases x with
  | s v => rfl
  | i v => rfl
  | auto k =>
    simp only [decide_eq_true_eq] at h ⊢
    exact Nat.lt_of_lt_of_le h hle

theorem WFc_fresh_auto {g : Graph} (hwf : WFc g) :
    PName.auto g.counter ∉ nodeKeys g ∧ PName.auto g.counter ∉ edgeKeys g := by
  obtain ⟨_, _, _, _, _, ha1, ha2⟩ := hwf
  constructor
  · intro hmem
    obtain ⟨p, hp, hpk⟩ := List.mem_map.mp hmem
    have := ha1 p hp
    rw [hpk] at this
    unfold autoBound at this
    simp only [decide_eq_true_eq] at this
    exact Nat.lt_irrefl _ this
  · intro hmem
    obtain ⟨p, hp, hpk⟩ := List.mem_map.mp hmem
    have := ha2 p hp
    rw [hpk] at this
    unfold autoBound at this
    simp only [decide_eq_true_eq] at this
    exact Nat.lt_irrefl _ this

theorem count_append_single {x en : PName} (l : List PName) :
    (l ++ [x]).count en = l.count en + (if x = en then 1 else 0) := by
  rw [List.count_append]
  congr 1
  rw [List.count_singleton']


theorem addEdge_node_delta {s t res : PName} {dir : Bool} (nodes : List (PName × NodeRec))
    (n : PName) (rec0 : NodeRec)
    (h : dictGet (if dir = true then
          dictAdjust (dictAdjust nodes s (pushOutgoing res)) t (pushIncoming res)
        else if s ≠ t then
          dictAdjust (dictAdjust nodes s (pushBidirectional res)) t (pushBidirectional res)
        else dictAdjust nodes s (pushBidirectional res)) n = some rec0) :
    ∃ old, dictGet nodes n = some old ∧
      (∀ en, rec0.outgoing.count en =
        old.outgoing.count en + (if res = en then (if dir = true ∧ n = s then 1 else 0) else 0)) ∧
      (∀ en, rec0.incoming.count en =
        old.incoming.count en + (if res = en then (if dir = true ∧ n = t then 1 else 0) else 0)) ∧
      (∀ en, rec0.bidirectional.count en =
        old.bidirectional.count en +
          (if res = en then (if dir = false ∧ (n = s ∨ n = t) then 1 else 0) else 0)) := by
  by_cases hdir : dir = true
  · subst hdir
    rw [if_pos rfl] at h
    by_cases hnt : t = n
    · subst hnt
      rw [dictGet_dictAdjust_self] at h
      by_cases hns : s = t
      · subst hns
        rw [dictGet_dictAdjust_self] at h
        cases hold : dictGet nodes s with
        | none => rw [hold] at h; cases h
        | some old =>
          rw [hold] at h
          injection h with h
          refine ⟨old, rfl, ?_, ?_, ?_⟩ <;> intro en <;> rw [← h] <;>
            simp [pushIncoming, pushOutgoing, count_append_single, List.count_singleton']
      · have hns2 : ¬ t = s := fun hh => hns hh.symm
        rw [dictGet_dictAdjust_ne _ _ hns2] at h
        cases hold : dictGet nodes t with
        | none => rw [hold] at h; cases h
        | some old =>
          rw [hold] at h
          injection h with h
          refine ⟨old, rfl, ?_, ?_, ?_⟩ <;> intro en <;> rw [← h] <;>
            simp [pushIncoming, count_append_single, List.count_singleton', hns2]
    · have hnt2 : ¬ n = t := fun hh => hnt hh.symm
      rw [dictGet_dictAdjust_ne _ _ hnt2] at h
      by_cases hns : s = n
      · subst hns
        rw [dictGet_dictAdjust_self] at h
        cases hold : dictGet nodes s with
        | none => rw [hold] at h; cases h
        | some old =>
          rw [hold] at h
          injection h with h
          refine ⟨old, rfl, ?_, ?_, ?_⟩ <;> intro en <;> rw [← h] <;>
            simp [pushOutgoing, count_append_single, List.count_singleton', hnt2]
      · have hns2 : ¬ n = s := fun hh => hns hh.symm
        rw [dictGet_dictAdjust_ne _ _ hns2] at h
        refine ⟨rec0, h, ?_, ?_, ?_⟩ <;> intro en <;>
          simp [hns2, hnt2]
  · rw [if_neg hdir] at h
    have hdirF : dir = false := by
      cases dir
      · rfl
      · exact absurd rfl hdir
    subst hdirF
    by_cases hst : s ≠ t
    · rw [if_pos hst] at h
      by_cases hnt : t = n
      · subst hnt
        rw [dictGet_dictAdjust_self] at h
        have hts : ¬ t = s := fun hh => hst hh.symm
        rw [dictGet_dictAdjust_ne _ _ hts] at h
        cases hold : dictGet nodes t with
        | none => rw [hold] at h; cases h
        | some old =>
          rw [hold] at h
          injection h with h
          refine ⟨old, rfl, ?_, ?_, ?_⟩ <;> intro en <;> rw [← h] <;>
            simp [pushBidirectional, count_append_single, List.count_singleton']
      · have hnt2 : ¬ n = t := fun hh => hnt hh.symm
        rw [dictGet_dictAdjust_ne _ _ hnt2] at h
        by_cases hns : s = n
        · subst hns
          rw [dictGet_dictAdjust_self] at h
          cases hold : dictGet nodes s with
          | none => rw [hold] at h; cases h
          | some old =>
            rw [hold] at h
            injection h with h
            refine ⟨old, rfl, ?_, ?_, ?_⟩ <;> intro en <;> rw [← h] <;>
              simp [pushBidirectional, count_append_single, List.count_singleton']
        · have hns2 : ¬ n = s := fun hh => hns hh.symm
          rw [dictGet_dictAdjust_ne _ _ hns2] at h
          refine ⟨rec0, h, ?_, ?_, ?_⟩ <;> intro en <;>
            simp [hns2, hnt2]
    · rw [if_neg hst] at h
      push_neg at hst
      subst hst
      by_cases hns : s = n
      · subst hns
        rw [dictGet_dictAdjust_self] at h
        cases hold : dictGet nodes s with
        | none => rw [hold] at h; cases h
        | some old =>
          rw [hold] at h
          injection h with h
          refine ⟨old, rfl, ?_, ?_, ?_⟩ <;> intro en <;> rw [← h] <;>
            simp [pushBidirectional, count_append_single, List.count_singleton']
      · have hns2 : ¬ n = s := fun hh => hns hh.symm
        rw [dictGet_dictAdjust_ne _ _ hns2] at h
        refine ⟨rec0, h, ?_, ?_, ?_⟩ <;> intro en <;>
          simp [hns2]


theorem WFc_addEdge {s t : PName} {nm : Option PName} {dir : Bool} {attrs : Attrs}
    {g g' : Graph} {res : PName} (hwf : WFc g)
    (hfresh : ∀ n, nm = some n → n ∉ nodeKeys g ∧ n ∉ edgeKeys g ∧ autoBound g.counter n = true)
    (h : addEdge s t nm dir attrs g = (Except.ok res, g')) : WFc g' := by
  obtain ⟨d, hd, hgs, hgt, hres, hcnt, hedges, hnodes⟩ := addEdge_ok h
  obtain ⟨w1, w2, w3, w4, w5, w6, w7⟩ := hwf
  have hsmem : s ∈ nodeKeys g := (dictGet_isSome_iff _ _).mp (getElement_node_inv hgs).2.1
  have htmem : t ∈ nodeKeys g := (dictGet_isSome_iff _ _).mp (getElement_node_inv hgt).2.1
  have hfr : res ∉ nodeKeys g ∧ res ∉ edgeKeys g ∧ autoBound g'.counter res = true := by
    rw [hcnt]
    cases nm with
    | none =>
      simp only [Option.getD] at hres
      rw [hres]
      refine ⟨(WFc_fresh_auto ⟨w1, w2, w3, w4, w5, w6, w7⟩).1,
        (WFc_fresh_auto ⟨w1, w2, w3, w4, w5, w6, w7⟩).2, ?_⟩
      simp [autoBound]
    | some x =>
      simp only [Option.getD] at hres
      rw [hres]
      obtain ⟨h1, h2, h3⟩ := hfresh x rfl
      exact ⟨h1, h2, by simpa using h3⟩
  have hcle : g.counter ≤ g'.counter := by
    rw [hcnt]
    cases nm with
    | none => simp
    | some x => simp
  have hnk : nodeKeys g' = nodeKeys g := by
    unfold nodeKeys
    rw [hnodes]
    split_ifs <;> simp [dictKeys_dictAdjust]
  have hek : edgeKeys g' = edgeKeys g ++ [res] := by
    unfold edgeKeys
    rw [hedges]
    exact dictKeys_dictSet_not_mem _ hfr.2.1
  have hedgesL : g'.edges = g.edges ++ [(res, ⟨s, t, dir, d⟩)] := by
    rw [hedges]
    exact dictSet_not_mem_append _ hfr.2.1
  have hnoneRes : dictGet g.edges res = none := (dictGet_none_iff _ _).mpr hfr.2.1
  have w3k : ∀ x ∈ nodeKeys g, x ∉ edgeKeys g := by
    intro x hx
    obtain ⟨q, hq, hqk⟩ := List.mem_map.mp hx
    rw [← hqk]
    exact w3 q hq
  have hpkeys : ∀ p : PName × NodeRec, p ∈ g'.nodes → p.1 ∈ nodeKeys g := by
    intro p hp
    rw [hnodes] at hp
    split_ifs at hp with h1 h2
    · have h3 := mem_dictAdjust_keys hp
      rw [dictKeys_dictAdjust] at h3
      exact h3
    · have h3 := mem_dictAdjust_keys hp
      rw [dictKeys_dictAdjust] at h3
      exact h3
    · exact mem_dictAdjust_keys hp
  refine ⟨?_, ?_, ?_, ?_, ?_, ?_, ?_⟩
  · rw [hnk]
    exact w1
  · rw [hek]
    simp [List.nodup_append, w2, hfr.2.1]
  · intro p hp
    rw [hek]
    intro hmem
    rcases List.mem_append.mp hmem with hm | hm
    · exact w3k p.1 (hpkeys p hp) hm
    · rw [List.mem_singleton] at hm
      have hres2 := hpkeys p hp
      rw [hm] at hres2
      exact hfr.1 hres2
  · intro p hp
    rw [hedgesL] at hp
    rw [hnk]
    rcases List.mem_append.mp hp with hm | hm
    · exact w4 p hm
    · rw [List.mem_singleton] at hm
      rw [hm]
      exact ⟨hsmem, htmem⟩
  · intro n rec0 hget en
    rw [hnodes] at hget
    obtain ⟨old, hold, hO, hI, hB⟩ := addEdge_node_delta g.nodes n rec0 hget
    obtain ⟨o1, o2, o3⟩ := w5 n old hold en
    have houtC : outCount g' n en = outCount g n en +
        (if res = en then (if dir = true ∧ n = s then 1 else 0) else 0) := by
      by_cases hre : res = en
      · subst hre
        unfold outCount expectOut
        rw [hedges, dictGet_dictSet_self, hnoneRes, if_pos rfl]
        by_cases hns : n = s
        · subst hns
          cases dir <;> simp
        · have hns2 : ¬ s = n := fun hh => hns hh.symm
          simp [hns, hns2]
      · have hre2 : en ≠ res := fun hh => hre hh.symm
        unfold outCount expectOut
        rw [hedges, dictGet_dictSet_ne _ _ hre2, if_neg hre]
        omega
    have hinC : inCount g' n en = inCount g n en +
        (if res = en then (if dir = true ∧ n = t then 1 else 0) else 0) := by
      by_cases hre : res = en
      · subst hre
        unfold inCount expectIn
        rw [hedges, dictGet_dictSet_self, hnoneRes, if_pos rfl]
        by_cases hnt : n = t
        · subst hnt
          cases dir <;> simp
        · have hnt2 : ¬ t = n := fun hh => hnt hh.symm
          simp [hnt, hnt2]
      · have hre2 : en ≠ res := fun hh => hre hh.symm
        unfold inCount expectIn
        rw [hedges, dictGet_dictSet_ne _ _ hre2, if_neg hre]
        omega
    have hbidC : bidCount g' n en = bidCount g n en +
        (if res = en then (if dir = false ∧ (n = s ∨ n = t) then 1 else 0) else 0) := by
      by_cases hre : res = en
      · subst hre
        unfold bidCount expectBid
        rw [hedges, dictGet_dictSet_self, hnoneRes, if_pos rfl]
        by_cases hns : n = s
        · subst hns
          cases dir <;> simp
        · have hns2 : ¬ s = n := fun hh => hns hh.symm
          by_cases hnt : n = t
          · subst hnt
            cases dir <;> simp [hns, hns2]
          · have hnt2 : ¬ t = n := fun hh => hnt hh.symm
            simp [hns, hns2, hnt, hnt2]
      · have hre2 : en ≠ res := fun hh => hre hh.symm
        unfold bidCount expectBid
        rw [hedges, dictGet_dictSet_ne _ _ hre2, if_neg hre]
        omega
    refine ⟨?_, ?_, ?_⟩
    · rw [hO en, o1, houtC]
    · rw [hI en, o2, hinC]
    · rw [hB en, o3, hbidC]
  · intro p hp
    have hpk := hpkeys p hp
    obtain ⟨q, hq, hqk⟩ := List.mem_map.mp hpk
    rw [← hqk]
    exact autoBound_mono (w6 q hq) hcle
  · intro p hp
    rw [hedgesL] at hp
    rcases List.mem_append.mp hp with hm | hm
    · exact autoBound_mono (w7 p hm) hcle
    · rw [List.mem_singleton] at hm
      rw [hm]
      exact hfr.2.2


theorem mem_dictPop {K V : Type} [DecidableEq K] {l : List (K × V)} {k : K} {p : K × V}
    (h : p ∈ dictPop l k) : p ∈ l := by
  induction l with
  | nil => cases h
  | cons q t ih =>
    rw [dictPop_cons] at h
    by_cases hk : q.1 = k
    · rw [if_pos hk] at h
      exact List.mem_cons_of_mem _ h
    · rw [if_neg hk] at h
      rcases List.mem_cons.mp h with h1 | h1
      · rw [h1]
        exact List.mem_cons_self _ _
      · exact List.mem_cons_of_mem _ (ih h1)

theorem count_erase_single (x en : PName) (l : List PName) :
    (l.erase x).count en = l.count en - (if x = en then 1 else 0) := by
  rw [List.count_erase]
  congr 1
  simp

theorem removeAdj_ok {n : PName} {sel : NodeRec → List PName}
    {upd : NodeRec → List PName → NodeRec} {en : PName} {g g' : Graph} {u : Unit}
    (h : removeAdj n sel upd en g = (Except.ok u, g')) :
    ∃ r, dictGet g.nodes n = some r ∧ en ∈ sel r ∧
      g' = { g with nodes := dictAdjust g.nodes n (fun r0 => upd r0 ((sel r0).erase en)) } := by
  unfold removeAdj at h
  rcases GM_bind_inv h with ⟨a, g1, hA, hB⟩ | ⟨e0, hA, hB⟩
  · obtain ⟨ha1, ha2⟩ := GM_getG_inv hA
    injection ha1 with ha1
    have ha1s : g = a := ha1.symm
    cases ha1s
    have ha2s : g = g1 := ha2.symm
    cases ha2s
    cases hdg : dictGet g.nodes n with
    | none =>
      rw [hdg] at hB
      exact Except.noConfusion (GM_throw_inv hB).1
    | some r =>
      rw [hdg] at hB
      have hB2 : (if en ∈ sel r then
          GM.setG { g with nodes := dictAdjust g.nodes n (fun r0 => upd r0 ((sel r0).erase en)) }
        else GM.throw PyErr.valueError) g = (Except.ok u, g') := hB
      by_cases hmem : en ∈ sel r
      · rw [if_pos hmem] at hB2
        exact ⟨r, rfl, hmem, (GM_setG_inv hB2).2⟩
      · rw [if_neg hmem] at hB2
        exact Except.noConfusion (GM_throw_inv hB2).1
  · exact Except.noConfusion hB

theorem removeEdge_ok {x : PName} {g g' : Graph} {res : PName}
    (h : removeEdge x g = (Except.ok res, g')) :
    ∃ e, dictGet g.edges x = some e ∧ res = x ∧
      g'.counter = g.counter ∧ g'.edges = dictPop g.edges x ∧
      g'.nodes = (if e.directed = true then
          dictAdjust (dictAdjust g.nodes e.start
              (fun r0 => setOutgoing r0 (r0.outgoing.erase x)))
            e.endp (fun r0 => setIncoming r0 (r0.incoming.erase x))
        else if e.start ≠ e.endp then
          dictAdjust (dictAdjust g.nodes e.start
              (fun r0 => setBidirectional r0 (r0.bidirectional.erase x)))
            e.endp (fun r0 => setBidirectional r0 (r0.bidirectional.erase x))
        else dictAdjust g.nodes e.start
            (fun r0 => setBidirectional r0 (r0.bidirectional.erase x))) := by
  unfold removeEdge at h
  rcases GM_bind_inv h with ⟨el, g1, hA, hB⟩ | ⟨e0, hA, hB⟩
  · rw [getElementM_run] at hA
    injection hA with hA1 hA2
    subst hA2
    cases el with
    | node m => exact Except.noConfusion (GM_throw_inv hB).1
    | edge en =>
      obtain ⟨hxen, _⟩ := getElement_edge_inv hA1
      subst hxen
      rcases GM_bind_inv hB with ⟨a2, g2, hC, hD⟩ | ⟨e0, hC, hD⟩
      · obtain ⟨hc1, hc2⟩ := GM_getG_inv hC
        injection hc1 with hc1
        have hc1s : g = a2 := hc1.symm
        cases hc1s
        have hc2s : g = g2 := hc2.symm
        cases hc2s
        cases hde : dictGet g.edges x with
        | none =>
          rw [hde] at hD
          exact Except.noConfusion (GM_throw_inv hD).1
        | some e =>
          obtain ⟨s0, t0, dir0, d0⟩ := e
          rw [hde] at hD
          cases dir0 with
          | true =>
            have hD2 : (removeAdj s0 NodeRec.outgoing setOutgoing x >>= fun _ =>
                removeAdj t0 NodeRec.incoming setIncoming x >>= fun _ =>
                GM.modifyG (fun g0 => { g0 with edges := dictPop g0.edges x }) >>= fun _ =>
                (pure x : GM PName)) g = (Except.ok res, g') := hD
            rcases GM_bind_inv hD2 with ⟨u1, gm1, hE, hF⟩ | ⟨e0, hE, hF⟩
            · obtain ⟨r1, hr1g, hr1m, hgm1⟩ := removeAdj_ok hE
              subst hgm1
              rcases GM_bind_inv hF with ⟨u2, gm2, hG, hH⟩ | ⟨e0, hG, hH⟩
              · obtain ⟨r2, hr2g, hr2m, hgm2⟩ := removeAdj_ok hG
                subst hgm2
                rcases GM_bind_inv hH with ⟨u3, gm3, hI, hJ⟩ | ⟨e0, hI, hJ⟩
                · obtain ⟨_, hgm3⟩ := GM_modifyG_inv hI
                  subst hgm3
                  obtain ⟨hres, hg'⟩ := GM_pure_inv hJ
                  injection hres with hres
                  subst hg'
                  exact ⟨⟨s0, t0, true, d0⟩, rfl, hres, rfl, rfl, rfl⟩
                · exact Except.noConfusion hJ
              · exact Except.noConfusion hH
            · exact Except.noConfusion hF
          | false =>
            have hD2 : (removeAdj s0 NodeRec.bidirectional setBidirectional x >>= fun _ =>
                (if s0 ≠ t0 then
                  (removeAdj t0 NodeRec.bidirectional setBidirectional x >>= fun _ =>
                    GM.modifyG (fun g0 => { g0 with edges := dictPop g0.edges x }) >>= fun _ =>
                    (pure x : GM PName))
                else
                  (GM.modifyG (fun g0 => { g0 with edges := dictPop g0.edges x }) >>= fun _ =>
                    (pure x : GM PName)))) g = (Except.ok res, g') := hD
            rcases GM_bind_inv hD2 with ⟨u1, gm1, hE, hF⟩ | ⟨e0, hE, hF⟩
            · obtain ⟨r1, hr1g, hr1m, hgm1⟩ := removeAdj_ok hE
              subst hgm1
              by_cases hst : s0 ≠ t0
              · rw [if_pos hst] at hF
                rcases GM_bind_inv hF with ⟨u2, gm2, hG, hH⟩ | ⟨e0, hG, hH⟩
                · obtain ⟨r2, hr2g, hr2m, hgm2⟩ := removeAdj_ok hG
                  subst hgm2
                  rcases GM_bind_inv hH with ⟨u3, gm3, hI, hJ⟩ | ⟨e0, hI, hJ⟩
                  · obtain ⟨_, hgm3⟩ := GM_modifyG_inv hI
                    subst hgm3
                    obtain ⟨hres, hg'⟩ := GM_pure_inv hJ
                    injection hres with hres
                    subst hg'
                    refine ⟨⟨s0, t0, false, d0⟩, rfl, hres, rfl, rfl, ?_⟩
                    rw [if_neg (by simp : ¬ (false = true))]
                    rw [if_pos hst]
                  · exact Except.noConfusion hJ
                · exact Except.noConfusion hH
              · rw [if_neg hst] at hF
                rcases GM_bind_inv hF with ⟨u2, gm2, hG, hH⟩ | ⟨e0, hG, hH⟩
                · obtain ⟨_, hgm3⟩ := GM_modifyG_inv hG
                  subst hgm3
                  obtain ⟨hres, hg'⟩ := GM_pure_inv hH
                  injection hres with hres
                  subst hg'
                  refine ⟨⟨s0, t0, false, d0⟩, rfl, hres, rfl, rfl, ?_⟩
                  rw [if_neg (by simp : ¬ (false = true))]
                  rw [if_neg hst]
                · exact Except.noConfusion hH
            · exact Except.noConfusion hF
      · exact Except.noConfusion hD
  · exact Except.noConfusion hB


theorem removeEdge_node_delta {x : PName} {e : EdgeRec} (nodes : List (PName × NodeRec))
    (n : PName) (rec0 : NodeRec)
    (h : dictGet (if e.directed = true then
          dictAdjust (dictAdjust nodes e.start
              (fun r0 => setOutgoing r0 (r0.outgoing.erase x)))
            e.endp (fun r0 => setIncoming r0 (r0.incoming.erase x))
        else if e.start ≠ e.endp then
          dictAdjust (dictAdjust nodes e.start
              (fun r0 => setBidirectional r0 (r0.bidirectional.erase x)))
            e.endp (fun r0 => setBidirectional r0 (r0.bidirectional.erase x))
        else dictAdjust nodes e.start
            (fun r0 => setBidirectional r0 (r0.bidirectional.erase x))) n = some rec0) :
    ∃ old, dictGet nodes n = some old ∧
      (∀ en, rec0.outgoing.count en = old.outgoing.count en -
        (if x = en then (if e.directed = true ∧ n = e.start then 1 else 0) else 0)) ∧
      (∀ en, rec0.incoming.count en = old.incoming.count en -
        (if x = en then (if e.directed = true ∧ n = e.endp then 1 else 0) else 0)) ∧
      (∀ en, rec0.bidirectional.count en = old.bidirectional.count en -
        (if x = en then
          (if e.directed = false ∧ (n = e.start ∨ n = e.endp) then 1 else 0) else 0)) := by
  obtain ⟨s, t, dir, d⟩ := e
  by_cases hdir : dir = true
  · subst hdir
    rw [if_pos rfl] at h
    by_cases hnt : t = n
    · subst hnt
      rw [dictGet_dictAdjust_self] at h
      by_cases hns : s = t
      · subst hns
        rw [dictGet_dictAdjust_self] at h
        cases hold : dictGet nodes s with
        | none => rw [hold] at h; cases h
        | some old =>
          rw [hold] at h
          injection h with h
          refine ⟨old, rfl, ?_, ?_, ?_⟩ <;> intro en <;> rw [← h] <;>
            simp [setIncoming, setOutgoing, count_erase_single]
      · have hns2 : ¬ t = s := fun hh => hns hh.symm
        rw [dictGet_dictAdjust_ne _ _ hns2] at h
        cases hold : dictGet nodes t with
        | none => rw [hold] at h; cases h
        | some old =>
          rw [hold] at h
          injection h with h
          refine ⟨old, rfl, ?_, ?_, ?_⟩ <;> intro en <;> rw [← h] <;>
            simp [setIncoming, count_erase_single, hns2]
    · have hnt2 : ¬ n = t := fun hh => hnt hh.symm
      rw [dictGet_dictAdjust_ne _ _ hnt2] at h
      by_cases hns : s = n
      · subst hns
        rw [dictGet_dictAdjust_self] at h
        cases hold : dictGet nodes s with
        | none => rw [hold] at h; cases h
        | some old =>
          rw [hold] at h
          injection h with h
          refine ⟨old, rfl, ?_, ?_, ?_⟩ <;> intro en <;> rw [← h] <;>
            simp [setOutgoing, count_erase_single, hnt2]
      · have hns2 : ¬ n = s := fun hh => hns hh.symm
        rw [dictGet_dictAdjust_ne _ _ hns2] at h
        refine ⟨rec0, h, ?_, ?_, ?_⟩ <;> intro en <;>
          simp [hns2, hnt2]
  · rw [if_neg hdir] at h
    have hdirF : dir = false := by
      cases dir
      · rfl
      · exact absurd rfl hdir
    subst hdirF
    by_cases hst : s ≠ t
    · rw [if_pos hst] at h
      by_cases hnt : t = n
      · subst hnt
        rw [dictGet_dictAdjust_self] at h
        have hts : ¬ t = s := fun hh => hst hh.symm
        rw [dictGet_dictAdjust_ne _ _ hts] at h
        cases hold : dictGet nodes t with
        | none => rw [hold] at h; cases h
        | some old =>
          rw [hold] at h
          injection h with h
          refine ⟨old, rfl, ?_, ?_, ?_⟩ <;> intro en <;> rw [← h] <;>
            simp [setBidirectional, count_erase_single]
      · have hnt2 : ¬ n = t := fun hh => hnt hh.symm
        rw [dictGet_dictAdjust_ne _ _ hnt2] at h
        by_cases hns : s = n
        · subst hns
          rw [dictGet_dictAdjust_self] at h
          cases hold : dictGet nodes s with
          | none => rw [hold] at h; cases h
          | some old =>
            rw [hold] at h
            injection h with h
            refine ⟨old, rfl, ?_, ?_, ?_⟩ <;> intro en <;> rw [← h] <;>
              simp [setBidirectional, count_erase_single]
        · have hns2 : ¬ n = s := fun hh => hns hh.symm
          rw [dictGet_dictAdjust_ne _ _ hns2] at h
          refine ⟨rec0, h, ?_, ?_, ?_⟩ <;> intro en <;>
            simp [hns2, hnt2]
    · rw [if_neg hst] at h
      push_neg at hst
      subst hst
      by_cases hns : s = n
      · subst hns
        rw [dictGet_dictAdjust_self] at h
        cases hold : dictGet nodes s with
        | none => rw [hold] at h; cases h
        | some old =>
          rw [hold] at h
          injection h with h
          refine ⟨old, rfl, ?_, ?_, ?_⟩ <;> intro en <;> rw [← h] <;>
            simp [setBidirectional, count_erase_single]
      · have hns2 : ¬ n = s := fun hh => hns hh.symm
        rw [dictGet_dictAdjust_ne _ _ hns2] at h
        refine ⟨rec0, h, ?_, ?_, ?_⟩ <;> intro en <;>
          simp [hns2]

theorem WFc_removeEdge {x : PName} {g g' : Graph} {res : PName} (hwf : WFc g)
    (h : removeEdge x g = (Except.ok res, g')) : WFc g' := by
  obtain ⟨e, hde, hres, hcnt, hedges, hnodes⟩ := removeEdge_ok h
  obtain ⟨w1, w2, w3, w4, w5, w6, w7⟩ := hwf
  have hnk : nodeKeys g' = nodeKeys g := by
    unfold nodeKeys
    rw [hnodes]
    split_ifs <;> simp [dictKeys_dictAdjust]
  have hsubE : ∀ en, en ∈ edgeKeys g' → en ∈ edgeKeys g := by
    intro en hin
    unfold edgeKeys at hin ⊢
    rw [hedges] at hin
    exact dictKeys_dictPop_sub _ _ _ hin
  have w3k : ∀ y ∈ nodeKeys g, y ∉ edgeKeys g := by
    intro y hy
    obtain ⟨q, hq, hqk⟩ := List.mem_map.mp hy
    rw [← hqk]
    exact w3 q hq
  have hpkeys : ∀ p : PName × NodeRec, p ∈ g'.nodes → p.1 ∈ nodeKeys g := by
    intro p hp
    rw [hnodes] at hp
    split_ifs at hp with h1 h2
    · have h3 := mem_dictAdjust_keys hp
      rw [dictKeys_dictAdjust] at h3
      exact h3
    · have h3 := mem_dictAdjust_keys hp
      rw [dictKeys_dictAdjust] at h3
      exact h3
    · exact mem_dictAdjust_keys hp
  refine ⟨?_, ?_, ?_, ?_, ?_, ?_, ?_⟩
  · rw [hnk]
    exact w1
  · unfold edgeKeys
    rw [hedges]
    exact nodup_dictPop _ w2
  · intro p hp hmem
    exact w3k p.1 (hpkeys p hp) (hsubE _ hmem)
  · intro p hp
    rw [hedges] at hp
    rw [hnk]
    exact w4 p (mem_dictPop hp)
  · intro n rec0 hget en
    rw [hnodes] at hget
    obtain ⟨old, hold, hO, hI, hB⟩ := removeEdge_node_delta g.nodes n rec0 hget
    obtain ⟨o1, o2, o3⟩ := w5 n old hold en
    have houtC : outCount g' n en = outCount g n en -
        (if x = en then (if e.directed = true ∧ n = e.start then 1 else 0) else 0) := by
      by_cases hxe : x = en
      · subst hxe
        unfold outCount expectOut
        rw [hedges, dictGet_dictPop_self w2, hde, if_pos rfl]
        by_cases hns : n = e.start
        · by_cases hdir : e.directed = true
          · simp [hns, hdir]
          · simp [hns, hdir]
        · have hns2 : ¬ e.start = n := fun hh => hns hh.symm
          simp [hns, hns2]
      · have hxe2 : en ≠ x := fun hh => hxe hh.symm
        unfold outCount expectOut
        rw [hedges, dictGet_dictPop_ne _ hxe2, if_neg hxe]
        omega
    have hinC : inCount g' n en = inCount g n en -
        (if x = en then (if e.directed = true ∧ n = e.endp then 1 else 0) else 0) := by
      by_cases hxe : x = en
      · subst hxe
        unfold inCount expectIn
        rw [hedges, dictGet_dictPop_self w2, hde, if_pos rfl]
        by_cases hnt : n = e.endp
        · by_cases hdir : e.directed = true
          · simp [hnt, hdir]
          · simp [hnt, hdir]
        · have hnt2 : ¬ e.endp = n := fun hh => hnt hh.symm
          simp [hnt, hnt2]
      · have hxe2 : en ≠ x := fun hh => hxe hh.symm
        unfold inCount expectIn
        rw [hedges, dictGet_dictPop_ne _ hxe2, if_neg hxe]
        omega
    have hbidC : bidCount g' n en = bidCount g n en -
        (if x = en then
          (if e.directed = false ∧ (n = e.start ∨ n = e.endp) then 1 else 0) else 0) := by
      by_cases hxe : x = en
      · subst hxe
        unfold bidCount expectBid
        rw [hedges, dictGet_dictPop_self w2, hde, if_pos rfl]
        by_cases hns : n = e.start
        · by_cases hdir : e.directed = true
          · simp [hns, hdir]
          · simp [hns, hdir]
        · have hns2 : ¬ e.start = n := fun hh => hns hh.symm
          by_cases hnt : n = e.endp
          · by_cases hdir : e.directed = true
            · simp [hns, hns2, hnt, hdir]
            · simp [hns, hns2, hnt, hdir]
          · have hnt2 : ¬ e.endp = n := fun hh => hnt hh.symm
            simp [hns, hns2, hnt, hnt2]
      · have hxe2 : en ≠ x := fun hh => hxe hh.symm
        unfold bidCount expectBid
        rw [hedges, dictGet_dictPop_ne _ hxe2, if_neg hxe]
        omega
    refine ⟨?_, ?_, ?_⟩
    · rw [hO en, o1, houtC]
    · rw [hI en, o2, hinC]
    · rw [hB en, o3, hbidC]
  · intro p hp
    have hpk := hpkeys p hp
    obtain ⟨q, hq, hqk⟩ := List.mem_map.mp hpk
    rw [← hqk, hcnt]
    exact w6 q hq
  · intro p hp
    rw [hedges] at hp
    rw [hcnt]
    exact w7 p (mem_dictPop hp)


theorem WFc_EdgeOps {g g' : Graph} (hwf : WFc g) (hops : EdgeOps g g') : WFc g' := by
  induction hops with
  | refl => exact hwf
  | addE hprev hfr hadd ih => exact WFc_addEdge ih hfr hadd
  | remE hprev hrem ih => exact WFc_removeEdge ih hrem

/-- Claim C7 counterexample: two successful `add_edge` calls for an undirected
self-loop under the same explicit name `x` leave the stored edge — undirected,
with equal endpoints — listed TWICE in `A`'s bidirectional view: the store
resolves the name collision by replacement while each call appends to the
adjacency list, so "exactly once (never twice)" fails for this add_edge
sequence. -/
theorem claim_C7_counterexample :
    dictGet gLoop2.edges (PName.s "x") =
      some ⟨PName.s "A", PName.s "A", false, []⟩ ∧
    (bidirectionalView gLoop2 (PName.s "A")).count (PName.s "x") = 2 := by
  exact ⟨rfl, rfl⟩

/-- Claim C7 (amended): starting from a well-formed graph, after any sequence
of successful `add_edge`/`remove_edge` calls whose explicitly chosen names are
fresh (automatic names always are), every stored undirected edge appears
exactly once in its node's bidirectional view when it is a self-loop, and
appears in both endpoints' bidirectional views when it is not. -/
theorem claim_C7_amended {g0 g1 : Graph} (hwf : WF g0) (hops : EdgeOps g0 g1) :
    ∀ en e, dictGet g1.edges en = some e → e.directed = false →
      ((e.start = e.endp → (bidirectionalView g1 e.start).count en = 1) ∧
       (e.start ≠ e.endp → en ∈ bidirectionalView g1 e.start ∧
          en ∈ bidirectionalView g1 e.endp)) := by
  have hwfc : WFc g1 := WFc_EdgeOps ((WF_iff_WFc g0).mp hwf) hops
  intro en e hget hdir
  obtain ⟨w1, w2, w3, w4, w5, w6, w7⟩ := hwfc
  have hends := w4 (en, e) (dictGet_mem hget)
  obtain ⟨rs, hrs⟩ := mem_nodeKeys_getRec hends.1
  obtain ⟨rt, hrt⟩ := mem_nodeKeys_getRec hends.2
  have hviews : bidirectionalView g1 e.start = rs.bidirectional := by
    unfold bidirectionalView nodeRec
    rw [hrs]
    rfl
  have hviewt : bidirectionalView g1 e.endp = rt.bidirectional := by
    unfold bidirectionalView nodeRec
    rw [hrt]
    rfl
  have hexps : expectBid g1 e.start en = true := by
    unfold expectBid
    rw [hget]
    simp [hdir]
  have hexpt : expectBid g1 e.endp en = true := by
    unfold expectBid
    rw [hget]
    simp [hdir]
  have hcnts : rs.bidirectional.count en = 1 := by
    rw [(w5 e.start rs hrs en).2.2]
    unfold bidCount
    rw [hexps]
    rfl
  have hcntt : rt.bidirectional.count en = 1 := by
    rw [(w5 e.endp rt hrt en).2.2]
    unfold bidCount
    rw [hexpt]
    rfl
  constructor
  · intro _
    rw [hviews]
    exact hcnts
  · intro _
    constructor
    · rw [hviews]
      by_contra hnm
      rw [List.count_eq_zero_of_not_mem hnm] at hcnts
      cases hcnts
    · rw [hviewt]
      by_contra hnm
      rw [List.count_eq_zero_of_not_mem hnm] at hcntt
      cases hcntt

/-- Witness for `claim_C7_amended` at the concrete graph `gUndir`, built from
the well-formed two-node graph `gUndirN` by two `add_edge` calls. -/
theorem claim_C7_amended_witness :
    (bidirectionalView gUndir (PName.s "A")).count (PName.s "l") = 1 ∧
    (PName.s "u") ∈ bidirectionalView gUndir (PName.s "A") ∧
    (PName.s "u") ∈ bidirectionalView gUndir (PName.s "B") := by
  have h1 : EdgeOps gUndirN gUndir1 := by
    refine @EdgeOps.addE gUndirN gUndirN gUndir1 (PName.s "A") (PName.s "B")
      (some (PName.s "u")) false [] (PName.s "u") (EdgeOps.refl gUndirN) ?_ ?_
    · intro n hn
      injection hn with hn
      subst hn
      refine ⟨by decide, by decide, by decide⟩
    · rfl
  have h2 : EdgeOps gUndirN gUndir := by
    refine @EdgeOps.addE gUndirN gUndir1 gUndir (PName.s "A") (PName.s "A")
      (some (PName.s "l")) false [] (PName.s "l") h1 ?_ ?_
    · intro n hn
      injection hn with hn
      subst hn
      refine ⟨by decide, by decide, by decide⟩
    · rfl
  have h := claim_C7_amended (show WF gUndirN by decide) h2
  have hl := h (PName.s "l") ⟨PName.s "A", PName.s "A", false, []⟩ rfl rfl
  have hu := h (PName.s "u") ⟨PName.s "A", PName.s "B", false, []⟩ rfl rfl
  exact ⟨hl.1 rfl, (hu.2 (by decide)).1, (hu.2 (by decide)).2⟩


theorem tryAll_run (m : GM Unit) (g : Graph) : tryAll m g = (Except.ok (), (m g).2) := by
  unfold tryAll
  cases hm : m g with
  | mk r g2 =>
    cases r with
    | ok a => rfl
    | error e => rfl

theorem removeAdj_err {n : PName} {sel : NodeRec → List PName}
    {upd : NodeRec → List PName → NodeRec} {en : PName} {g g' : Graph} {err : PyErr}
    (h : removeAdj n sel upd en g = (Except.error err, g')) :
    g' = g ∧ ∀ r, dictGet g.nodes n = some r → en ∉ sel r := by
  unfold removeAdj at h
  rcases GM_bind_inv h with ⟨a, g1, hA, hB⟩ | ⟨e0, hA, hB⟩
  · obtain ⟨ha1, ha2⟩ := GM_getG_inv hA
    injection ha1 with ha1
    have ha1s : g = a := ha1.symm
    cases ha1s
    have ha2s : g = g1 := ha2.symm
    cases ha2s
    cases hdg : dictGet g.nodes n with
    | none =>
      rw [hdg] at hB
      refine ⟨(GM_throw_inv hB).2, ?_⟩
      intro r hr
      cases hr
    | some r =>
      rw [hdg] at hB
      have hB2 : (if en ∈ sel r then
          GM.setG { g with nodes := dictAdjust g.nodes n (fun r0 => upd r0 ((sel r0).erase en)) }
        else GM.throw PyErr.valueError) g = (Except.error err, g') := hB
      by_cases hmem : en ∈ sel r
      · rw [if_pos hmem] at hB2
        exact Except.noConfusion (GM_setG_inv hB2).1
      · rw [if_neg hmem] at hB2
        refine ⟨(GM_throw_inv hB2).2, ?_⟩
        intro r' hr'
        injection hr' with hr'
        rw [← hr']
        exact hmem
  · obtain ⟨ha1, ha2⟩ := GM_getG_inv hA
    exact Except.noConfusion ha1

theorem mem_dictSet {K V : Type} [DecidableEq K] {l : List (K × V)} {k : K} {v : V}
    {p : K × V} (h : p ∈ dictSet l k v) : p = (k, v) ∨ p ∈ l := by
  induction l with
  | nil =>
    rw [dictSet_nil] at h
    rcases List.mem_cons.mp h with h1 | h1
    · exact Or.inl h1
    · cases h1
  | cons q t ih =>
    rw [dictSet_cons] at h
    by_cases hk : q.1 = k
    · rw [if_pos hk] at h
      rcases List.mem_cons.mp h with h1 | h1
      · exact Or.inl (by rw [h1, hk])
      · exact Or.inr (List.mem_cons_of_mem _ h1)
    · rw [if_neg hk] at h
      rcases List.mem_cons.mp h with h1 | h1
      · exact Or.inr (by rw [h1]; exact List.mem_cons_self _ _)
      · rcases ih h1 with h2 | h2
        · exact Or.inl h2
        · exact Or.inr (List.mem_cons_of_mem _ h2)

theorem dict_ext {K V : Type} [DecidableEq K] :
    ∀ (l1 l2 : List (K × V)), (dictKeys l1).Nodup → dictKeys l1 = dictKeys l2 →
    (∀ k, dictGet l1 k = dictGet l2 k) → l1 = l2 := by
  intro l1
  induction l1 with
  | nil =>
    intro l2 _ hk _
    cases l2 with
    | nil => rfl
    | cons q t => cases hk
  | cons p t ih =>
    intro l2 hnd hk hg
    cases l2 with
    | nil => cases hk
    | cons q t2 =>
      rw [dictKeys_cons, dictKeys_cons] at hk
      injection hk with hk1 hk2
      rw [dictKeys_cons, List.nodup_cons] at hnd
      have hpq : p = q := by
        have h1 := hg p.1
        rw [dictGet_cons, if_pos rfl, dictGet_cons, if_pos hk1.symm] at h1
        injection h1 with h1
        calc p = (p.1, p.2) := rfl
          _ = (q.1, q.2) := by rw [hk1, h1]
          _ = q := rfl
      have ht : t = t2 := by
        apply ih t2 hnd.2 hk2
        intro k
        by_cases hkp : k = p.1
        · rw [hkp, (dictGet_none_iff t p.1).mpr hnd.1,
            (dictGet_none_iff t2 p.1).mpr (by rw [← hk2]; exact hnd.1)]
        · have h1 := hg k
          rw [dictGet_cons, if_neg (fun hh => hkp hh.symm), dictGet_cons,
            if_neg (fun hh : q.1 = k => hkp (hh.symm.trans hk1.symm))] at h1
          exact h1
      rw [hpq, ht]

theorem dictAdjust_data_map {l : List (PName × NodeRec)} {k : PName} {f : NodeRec → NodeRec}
    (hf : ∀ v, (f v).data = v.data) (n : PName) :
    (dictGet (dictAdjust l k f) n).map NodeRec.data = (dictGet l n).map NodeRec.data := by
  by_cases hk : n = k
  · subst hk
    rw [dictGet_dictAdjust_self]
    cases dictGet l n with
    | none => rfl
    | some v => simp [hf v]
  · rw [dictGet_dictAdjust_ne _ _ hk]


theorem moveEdge_swap {x : PName} {e : EdgeRec} {g g' : Graph} {res : PName}
    (hwf : WFc g) (he : dictGet g.edges x = some e)
    (h : moveEdge x (some e.endp) (some e.start) g = (Except.ok res, g')) :
    res = x ∧ g'.counter = g.counter ∧
    g'.edges = dictSet g.edges x (swapRec e) ∧
    g'.nodes = (if e.directed = true then
        dictAdjust (dictAdjust (if e.directed = true then
          dictAdjust (dictAdjust g.nodes e.start
              (fun r0 => setOutgoing r0 (r0.outgoing.erase x)))
            e.endp (fun r0 => setIncoming r0 (r0.incoming.erase x))
        else if e.start ≠ e.endp then
          dictAdjust (dictAdjust g.nodes e.start
              (fun r0 => setBidirectional r0 (r0.bidirectional.erase x)))
            e.endp (fun r0 => setBidirectional r0 (r0.bidirectional.erase x))
        else dictAdjust g.nodes e.start
            (fun r0 => setBidirectional r0 (r0.bidirectional.erase x))) e.endp (pushOutgoing x)) e.start (pushIncoming x)
      else if e.endp ≠ e.start then
        dictAdjust (dictAdjust (if e.directed = true then
          dictAdjust (dictAdjust g.nodes e.start
              (fun r0 => setOutgoing r0 (r0.outgoing.erase x)))
            e.endp (fun r0 => setIncoming r0 (r0.incoming.erase x))
        else if e.start ≠ e.endp then
          dictAdjust (dictAdjust g.nodes e.start
              (fun r0 => setBidirectional r0 (r0.bidirectional.erase x)))
            e.endp (fun r0 => setBidirectional r0 (r0.bidirectional.erase x))
        else dictAdjust g.nodes e.start
            (fun r0 => setBidirectional r0 (r0.bidirectional.erase x))) e.endp (pushBidirectional x)) e.start (pushBidirectional x)
      else dictAdjust (if e.directed = true then
          dictAdjust (dictAdjust g.nodes e.start
              (fun r0 => setOutgoing r0 (r0.outgoing.erase x)))
            e.endp (fun r0 => setIncoming r0 (r0.incoming.erase x))
        else if e.start ≠ e.endp then
          dictAdjust (dictAdjust g.nodes e.start
              (fun r0 => setBidirectional r0 (r0.bidirectional.erase x)))
            e.endp (fun r0 => setBidirectional r0 (r0.bidirectional.erase x))
        else dictAdjust g.nodes e.start
            (fun r0 => setBidirectional r0 (r0.bidirectional.erase x))) e.endp (pushBidirectional x)) := by
  obtain ⟨w1, w2, w3, w4, w5, w6, w7⟩ := hwf
  have hends := w4 (x, e) (dictGet_mem he)
  obtain ⟨rs, hrs⟩ := mem_nodeKeys_getRec hends.1
  obtain ⟨rt, hrt⟩ := mem_nodeKeys_getRec hends.2
  have hcs := (w5 e.start rs hrs x).2.2
  have hct := (w5 e.endp rt hrt x).2.2
  have hge : getElement g x = Except.ok (Elem.edge x) := by
    unfold getElement
    rw [if_pos (show (dictGet g.edges x).isSome = true by rw [he]; rfl)]
  obtain ⟨s0, t0, dir0, d0⟩ := e
  unfold moveEdge at h
  rcases GM_bind_inv h with ⟨el, g1, hA, hB⟩ | ⟨e0, hA, hB⟩
  · rw [getElementM_run] at hA
    injection hA with hA1 hA2
    subst hA2
    have hel : el = Elem.edge x := by
      have h2 := hA1.symm.trans hge
      injection h2 with h2
    subst hel
    rcases GM_bind_inv hB with ⟨a2, g2, hC, hD⟩ | ⟨e0, hC, hD⟩
    · obtain ⟨hc1, hc2⟩ := GM_getG_inv hC
      injection hc1 with hc1
      have hc1s : g = a2 := hc1.symm
      cases hc1s
      have hc2s : g = g2 := hc2.symm
      cases hc2s
      rw [he] at hD
      cases dir0 with
      | true =>
        have hD2 : (removeAdj s0 NodeRec.outgoing setOutgoing x >>= fun _ =>
            removeAdj t0 NodeRec.incoming setIncoming x >>= fun _ =>
            GM.modifyG (fun g0 =>
              { g0 with edges := dictSet g0.edges x ⟨t0, s0, true, d0⟩ }) >>= fun _ =>
            GM.modifyG (fun g0 =>
              { g0 with nodes := dictAdjust g0.nodes t0 (pushOutgoing x) }) >>= fun _ =>
            GM.modifyG (fun g0 =>
              { g0 with nodes := dictAdjust g0.nodes s0 (pushIncoming x) }) >>= fun _ =>
            (pure x : GM PName)) g = (Except.ok res, g') := hD
        rcases GM_bind_inv hD2 with ⟨u1, gm1, hE, hF⟩ | ⟨e0, hE, hF⟩
        · obtain ⟨r1, hr1g, hr1m, hgm1⟩ := removeAdj_ok hE
          subst hgm1
          rcases GM_bind_inv hF with ⟨u2, gm2, hG, hH⟩ | ⟨e0, hG, hH⟩
          · obtain ⟨r2, hr2g, hr2m, hgm2⟩ := removeAdj_ok hG
            subst hgm2
            rcases GM_bind_inv hH with ⟨u3, gm3, hI, hJ⟩ | ⟨e0, hI, hJ⟩
            · obtain ⟨_, hgm3⟩ := GM_modifyG_inv hI
              subst hgm3
              rcases GM_bind_inv hJ with ⟨u4, gm4, hK, hL⟩ | ⟨e0, hK, hL⟩
              · obtain ⟨_, hgm4⟩ := GM_modifyG_inv hK
                subst hgm4
                rcases GM_bind_inv hL with ⟨u5, gm5, hM2, hN⟩ | ⟨e0, hM2, hN⟩
                · obtain ⟨_, hgm5⟩ := GM_modifyG_inv hM2
                  subst hgm5
                  obtain ⟨hres, hg'⟩ := GM_pure_inv hN
                  injection hres with hres
                  subst hg'
                  exact ⟨hres, rfl, rfl, rfl⟩
                · exact Except.noConfusion hN
              · exact Except.noConfusion hL
            · exact Except.noConfusion hJ
          · exact Except.noConfusion hH
        · exact Except.noConfusion hF
      | false =>
        have hbcs : rs.bidirectional.count x = 1 := by
          rw [hcs]
          unfold bidCount expectBid
          rw [he]
          simp
        have hbct : rt.bidirectional.count x = 1 := by
          rw [hct]
          unfold bidCount expectBid
          rw [he]
          simp
        have hmems : x ∈ rs.bidirectional := by
          by_contra hnm
          rw [List.count_eq_zero_of_not_mem hnm] at hbcs
          cases hbcs
        have hmemt : x ∈ rt.bidirectional := by
          by_contra hnm
          rw [List.count_eq_zero_of_not_mem hnm] at hbct
          cases hbct
        have hD2 : (tryAll (removeAdj s0 NodeRec.bidirectional setBidirectional x >>= fun _ =>
              removeAdj t0 NodeRec.bidirectional setBidirectional x) >>= fun _ =>
            GM.modifyG (fun g0 =>
              { g0 with edges := dictSet g0.edges x ⟨t0, s0, false, d0⟩ }) >>= fun _ =>
            GM.modifyG (fun g0 =>
              { g0 with nodes := dictAdjust g0.nodes t0 (pushBidirectional x) }) >>= fun _ =>
            (if (some t0 : Option PName) ≠ (some s0 : Option PName) then
              GM.modifyG (fun g0 =>
                { g0 with nodes := dictAdjust g0.nodes s0 (pushBidirectional x) }) >>= fun _ =>
              (pure x : GM PName)
            else (pure x : GM PName))) g = (Except.ok res, g') := hD
        rcases GM_bind_inv hD2 with ⟨u1, gm1, hE, hF⟩ | ⟨e0, hE, hF⟩
        · have htry := (tryAll_run (removeAdj s0 NodeRec.bidirectional setBidirectional x >>=
            fun _ => removeAdj t0 NodeRec.bidirectional setBidirectional x) g).symm.trans hE
          injection htry with htry1 htry2
          clear htry1
          cases hmm : (removeAdj s0 NodeRec.bidirectional setBidirectional x >>= fun _ =>
              removeAdj t0 NodeRec.bidirectional setBidirectional x) g with
          | mk rr gmm =>
            rw [hmm] at htry2
            have hgm1 : gm1 = gmm := htry2.symm
            subst hgm1
            rcases GM_bind_inv hmm with ⟨u2, ga, hG, hH⟩ | ⟨err, hG, hH⟩
            · obtain ⟨ra, hrag, hram, hga⟩ := removeAdj_ok hG
              subst hga
              cases rr with
              | ok u3 =>
                obtain ⟨rb, hrbg, hrbm, hgmm⟩ := removeAdj_ok hH
                subst hgmm
                by_cases hlp : s0 = t0
                · exfalso
                  cases hlp
                  rw [dictGet_dictAdjust_self, hrs] at hrbg
                  injection hrbg with hrbg
                  have hxb : x ∈ rs.bidirectional.erase x := by
                    rw [← hrbg] at hrbm
                    exact hrbm
                  have hc0 : (rs.bidirectional.erase x).count x = 0 := by
                    rw [count_erase_single, hbcs]
                    simp
                  rw [List.count_eq_zero] at hc0
                  exact hc0 hxb
                · rcases GM_bind_inv hF with ⟨u3, gb1, hI, hJ⟩ | ⟨e0, hI, hJ⟩
                  · obtain ⟨_, hgb1⟩ := GM_modifyG_inv hI
                    subst hgb1
                    rcases GM_bind_inv hJ with ⟨u4, gb2, hK, hL⟩ | ⟨e0, hK, hL⟩
                    · obtain ⟨_, hgb2⟩ := GM_modifyG_inv hK
                      subst hgb2
                      rw [if_pos (show (some t0 : Option PName) ≠ (some s0 : Option PName) from
                        fun hh => hlp (by injection hh with hh; exact hh.symm))] at hL
                      rcases GM_bind_inv hL with ⟨u5, gb3, hM2, hN⟩ | ⟨e0, hM2, hN⟩
                      · obtain ⟨_, hgb3⟩ := GM_modifyG_inv hM2
                        subst hgb3
                        obtain ⟨hres, hg'⟩ := GM_pure_inv hN
                        injection hres with hres
                        subst hg'
                        refine ⟨hres, rfl, rfl, ?_⟩
                        rw [if_neg (show ¬ ((false : Bool) = true) by simp),
                          if_pos (show t0 ≠ s0 from fun hh => hlp hh.symm)]
                        rw [if_neg (show ¬ ((false : Bool) = true) by simp), if_pos hlp]
                      · exact Except.noConfusion hN
                    · exact Except.noConfusion hL
                  · exact Except.noConfusion hJ
              | error err =>
                obtain ⟨hgmm, hfact⟩ := removeAdj_err hH
                subst hgmm
                by_cases hlp : s0 = t0
                · cases hlp
                  rcases GM_bind_inv hF with ⟨u3, gb1, hI, hJ⟩ | ⟨e0, hI, hJ⟩
                  · obtain ⟨_, hgb1⟩ := GM_modifyG_inv hI
                    subst hgb1
                    rcases GM_bind_inv hJ with ⟨u4, gb2, hK, hL⟩ | ⟨e0, hK, hL⟩
                    · obtain ⟨_, hgb2⟩ := GM_modifyG_inv hK
                      subst hgb2
                      rw [if_neg (show ¬ ((some s0 : Option PName) ≠ some s0) by simp)] at hL
                      obtain ⟨hres, hg'⟩ := GM_pure_inv hL
                      injection hres with hres
                      subst hg'
                      refine ⟨hres, rfl, rfl, ?_⟩
                      rw [if_neg (show ¬ ((false : Bool) = true) by simp),
                        if_neg (show ¬ (s0 ≠ s0) by simp)]
                      rw [if_neg (show ¬ ((false : Bool) = true) by simp),
                        if_neg (show ¬ (s0 ≠ s0) by simp)]
                    · exact Except.noConfusion hL
                  · exact Except.noConfusion hJ
                · exfalso
                  have hgt : dictGet (dictAdjust g.nodes s0
                      (fun r0 => setBidirectional r0 ((NodeRec.bidirectional r0).erase x))) t0
                      = some rt := by
                    rw [dictGet_dictAdjust_ne _ _ (fun hh => hlp hh.symm)]
                    exact hrt
                  exact hfact rt hgt hmemt
            · exfalso
              obtain ⟨hgmm, hfact⟩ := removeAdj_err hG
              exact hfact rs hrs hmems
        · exact Except.noConfusion hF
    · exact Except.noConfusion hD
  · exact Except.noConfusion hB


theorem data_adjust_eraseOut (l : List (PName × NodeRec)) (k : PName) (x n : PName) :
    (dictGet (dictAdjust l k (fun r0 => setOutgoing r0 (r0.outgoing.erase x))) n).map
      NodeRec.data = (dictGet l n).map NodeRec.data := by
  apply dictAdjust_data_map
  intro v
  rfl

theorem data_adjust_eraseIn (l : List (PName × NodeRec)) (k : PName) (x n : PName) :
    (dictGet (dictAdjust l k (fun r0 => setIncoming r0 (r0.incoming.erase x))) n).map
      NodeRec.data = (dictGet l n).map NodeRec.data := by
  apply dictAdjust_data_map
  intro v
  rfl

theorem data_adjust_eraseBid (l : List (PName × NodeRec)) (k : PName) (x n : PName) :
    (dictGet (dictAdjust l k (fun r0 => setBidirectional r0 (r0.bidirectional.erase x))) n).map
      NodeRec.data = (dictGet l n).map NodeRec.data := by
  apply dictAdjust_data_map
  intro v
  rfl

theorem data_adjust_pushOut (l : List (PName × NodeRec)) (k : PName) (x n : PName) :
    (dictGet (dictAdjust l k (pushOutgoing x)) n).map NodeRec.data =
      (dictGet l n).map NodeRec.data := by
  apply dictAdjust_data_map
  intro v
  rfl

theorem data_adjust_pushIn (l : List (PName × NodeRec)) (k : PName) (x n : PName) :
    (dictGet (dictAdjust l k (pushIncoming x)) n).map NodeRec.data =
      (dictGet l n).map NodeRec.data := by
  apply dictAdjust_data_map
  intro v
  rfl

theorem data_adjust_pushBid (l : List (PName × NodeRec)) (k : PName) (x n : PName) :
    (dictGet (dictAdjust l k (pushBidirectional x)) n).map NodeRec.data =
      (dictGet l n).map NodeRec.data := by
  apply dictAdjust_data_map
  intro v
  rfl

theorem WFc_moveEdge_swap {x : PName} {e : EdgeRec} {g g' : Graph} {res : PName}
    (hwf : WFc g) (he : dictGet g.edges x = some e)
    (h : moveEdge x (some e.endp) (some e.start) g = (Except.ok res, g')) :
    WFc g' ∧ g'.counter = g.counter ∧ nodeKeys g' = nodeKeys g ∧
    g'.edges = dictSet g.edges x (swapRec e) ∧
    (∀ n, (dictGet g'.nodes n).map NodeRec.data = (dictGet g.nodes n).map NodeRec.data) := by
  obtain ⟨hres, hcnt, hedges, hnodes⟩ := moveEdge_swap hwf he h
  obtain ⟨w1, w2, w3, w4, w5, w6, w7⟩ := hwf
  have hxk : x ∈ edgeKeys g := (dictGet_isSome_iff _ _).mp (by rw [he]; rfl)
  have hends := w4 (x, e) (dictGet_mem he)
  have hnk : nodeKeys g' = nodeKeys g := by
    unfold nodeKeys
    rw [hnodes]
    split_ifs <;> simp [dictKeys_dictAdjust]
  have hek : edgeKeys g' = edgeKeys g := by
    unfold edgeKeys
    rw [hedges]
    exact dictKeys_dictSet_mem _ hxk
  have hdata : ∀ n, (dictGet g'.nodes n).map NodeRec.data =
      (dictGet g.nodes n).map NodeRec.data := by
    intro n
    rw [hnodes]
    split_ifs <;>
      simp only [data_adjust_eraseOut, data_adjust_eraseIn, data_adjust_eraseBid,
        data_adjust_pushOut, data_adjust_pushIn, data_adjust_pushBid]
  have w3k : ∀ y ∈ nodeKeys g, y ∉ edgeKeys g := by
    intro y hy
    obtain ⟨q, hq, hqk⟩ := List.mem_map.mp hy
    rw [← hqk]
    exact w3 q hq
  have hpkeys : ∀ p : PName × NodeRec, p ∈ g'.nodes → p.1 ∈ nodeKeys g := by
    intro p hp
    rw [hnodes] at hp
    split_ifs at hp <;>
      {
        have h3 := mem_dictAdjust_keys hp
        simp only [dictKeys_dictAdjust] at h3
        exact h3
      }
  refine ⟨⟨?_, ?_, ?_, ?_, ?_, ?_, ?_⟩, hcnt, hnk, hedges, hdata⟩
  · rw [hnk]
    exact w1
  · rw [hek]
    exact w2
  · intro p hp hmem
    rw [hek] at hmem
    exact w3k p.1 (hpkeys p hp) hmem
  · intro p hp
    rw [hedges] at hp
    rw [hnk]
    rcases mem_dictSet hp with h1 | h1
    · rw [h1]
      exact ⟨hends.2, hends.1⟩
    · exact w4 p h1
  · intro n rec0 hget en2
    rw [hnodes] at hget
    obtain ⟨s0, t0, dir0, d0⟩ := e
    obtain ⟨mid, hmid, aO, aI, aB⟩ := @addEdge_node_delta t0 s0 x dir0 _ n rec0 hget
    obtain ⟨old, hold, rO, rI, rB⟩ := @removeEdge_node_delta x ⟨s0, t0, dir0, d0⟩ _ n mid hmid
    obtain ⟨o1, o2, o3⟩ := w5 n old hold en2
    refine ⟨?_, ?_, ?_⟩
    · rw [aO en2, rO en2, o1]
      by_cases hxe : x = en2
      · subst hxe
        unfold outCount expectOut
        rw [hedges, dictGet_dictSet_self, he]
        by_cases hns : n = s0
        · subst hns
          by_cases hnt : n = t0
          · subst hnt
            cases dir0 <;> simp [swapRec]
          · have hnt2 : ¬ t0 = n := fun hh => hnt hh.symm
            cases dir0 <;> simp [swapRec, hnt, hnt2]
        · have hns2 : ¬ s0 = n := fun hh => hns hh.symm
          by_cases hnt : n = t0
          · subst hnt
            cases dir0 <;> simp [swapRec, hns, hns2]
          · have hnt2 : ¬ t0 = n := fun hh => hnt hh.symm
            cases dir0 <;> simp [swapRec, hns, hns2, hnt, hnt2]
      · rw [if_neg hxe, if_neg hxe]
        unfold outCount expectOut
        rw [hedges, dictGet_dictSet_ne _ _ (fun hh => hxe hh.symm)]
        omega
    · rw [aI en2, rI en2, o2]
      by_cases hxe : x = en2
      · subst hxe
        unfold inCount expectIn
        rw [hedges, dictGet_dictSet_self, he]
        by_cases hns : n = s0
        · subst hns
          by_cases hnt : n = t0
          · subst hnt
            cases dir0 <;> simp [swapRec]
          · have hnt2 : ¬ t0 = n := fun hh => hnt hh.symm
            cases dir0 <;> simp [swapRec, hnt, hnt2]
        · have hns2 : ¬ s0 = n := fun hh => hns hh.symm
          by_cases hnt : n = t0
          · subst hnt
            cases dir0 <;> simp [swapRec, hns, hns2]
          · have hnt2 : ¬ t0 = n := fun hh => hnt hh.symm
            cases dir0 <;> simp [swapRec, hns, hns2, hnt, hnt2]
      · rw [if_neg hxe, if_neg hxe]
        unfold inCount expectIn
        rw [hedges, dictGet_dictSet_ne _ _ (fun hh => hxe hh.symm)]
        omega
    · rw [aB en2, rB en2, o3]
      by_cases hxe : x = en2
      · subst hxe
        unfold bidCount expectBid
        rw [hedges, dictGet_dictSet_self, he]
        by_cases hns : n = s0
        · subst hns
          by_cases hnt : n = t0
          · subst hnt
            cases dir0 <;> simp [swapRec]
          · have hnt2 : ¬ t0 = n := fun hh => hnt hh.symm
            cases dir0 <;> simp [swapRec, hnt, hnt2]
        · have hns2 : ¬ s0 = n := fun hh => hns hh.symm
          by_cases hnt : n = t0
          · subst hnt
            cases dir0 <;> simp [swapRec, hns, hns2]
          · have hnt2 : ¬ t0 = n := fun hh => hnt hh.symm
            cases dir0 <;> simp [swapRec, hns, hns2, hnt, hnt2]
      · rw [if_neg hxe, if_neg hxe]
        unfold bidCount expectBid
        rw [hedges, dictGet_dictSet_ne _ _ (fun hh => hxe hh.symm)]
        omega
  · intro p hp
    have hpk := hpkeys p hp
    obtain ⟨q, hq, hqk⟩ := List.mem_map.mp hpk
    rw [← hqk, hcnt]
    exact w6 q hq
  · intro p hp
    rw [hedges] at hp
    rw [hcnt]
    rcases mem_dictSet hp with h1 | h1
    · rw [h1]
      exact w7 (x, e) (dictGet_mem he)
    · exact w7 p h1


theorem transposeList_swap :
    ∀ (l : List PName) {g g' : Graph}, WFc g → l.Nodup → (∀ y ∈ l, y ∈ edgeKeys g) →
    transposeList l g = (Except.ok (), g') →
    WFc g' ∧ g'.counter = g.counter ∧ nodeKeys g' = nodeKeys g ∧
    dictKeys g'.edges = dictKeys g.edges ∧
    (∀ n, (dictGet g'.nodes n).map NodeRec.data = (dictGet g.nodes n).map NodeRec.data) ∧
    (∀ y ∈ l, dictGet g'.edges y = (dictGet g.edges y).map swapRec) ∧
    (∀ y, y ∉ l → dictGet g'.edges y = dictGet g.edges y) := by
  intro l
  induction l with
  | nil =>
    intro g g' hwf _ _ h
    obtain ⟨_, h2⟩ := GM_pure_inv h
    subst h2
    exact ⟨hwf, rfl, rfl, rfl, fun n => rfl,
      fun y hy => absurd hy (List.not_mem_nil y), fun y _ => rfl⟩
  | cons en t ih =>
    intro g g' hwf hnd hsub h
    obtain ⟨hent, hndt⟩ := List.nodup_cons.mp hnd
    have hmem : en ∈ edgeKeys g := hsub en (List.mem_cons_self _ _)
    unfold transposeList at h
    rcases GM_bind_inv h with ⟨a, g1, hA, hB⟩ | ⟨e0, hA, hB⟩
    · obtain ⟨ha1, ha2⟩ := GM_getG_inv hA
      injection ha1 with ha1
      have ha1s : g = a := ha1.symm
      cases ha1s
      have ha2s : g = g1 := ha2.symm
      cases ha2s
      cases hge : dictGet g.edges en with
      | none => exact absurd hmem ((dictGet_none_iff _ _).mp hge)
      | some e =>
        rw [hge] at hB
        rcases GM_bind_inv hB with ⟨r1, gmid, hMove, hRest⟩ | ⟨e0, hMove, hRest⟩
        · obtain ⟨hwfm, hcntm, hnkm, hedm, hdatam⟩ := WFc_moveEdge_swap hwf hge hMove
          have hekm : dictKeys gmid.edges = dictKeys g.edges := by
            rw [hedm]
            exact dictKeys_dictSet_mem _ hmem
          obtain ⟨hwf2, hcnt2, hnk2, hkeys2, hdata2, hin2, hout2⟩ :=
            ih hwfm hndt (fun y hy => by
              show y ∈ dictKeys gmid.edges
              rw [hekm]
              exact hsub y (List.mem_cons_of_mem _ hy)) hRest
          refine ⟨hwf2, hcnt2.trans hcntm, hnk2.trans hnkm, hkeys2.trans hekm,
            fun n => (hdata2 n).trans (hdatam n), ?_, ?_⟩
          · intro y hy
            rcases List.mem_cons.mp hy with h1 | h1
            · subst h1
              rw [hout2 y hent, hedm, dictGet_dictSet_self, hge]
              rfl
            · have hyne : y ≠ en := fun hh => hent (hh ▸ h1)
              rw [hin2 y h1, hedm, dictGet_dictSet_ne _ _ hyne]
          · intro y hy
            have hyne : y ≠ en := fun hh => hy (by rw [hh]; exact List.mem_cons_self _ _)
            have hyt : y ∉ t := fun hh => hy (List.mem_cons_of_mem _ hh)
            rw [hout2 y hyt, hedm, dictGet_dictSet_ne _ _ hyne]
        · exact Except.noConfusion hRest
    · exact Except.noConfusion hB

theorem transpose_ok_inv {g g' : Graph} (hwf : WFc g)
    (h : transpose g = (Except.ok (), g')) :
    WFc g' ∧ g'.counter = g.counter ∧ nodeKeys g' = nodeKeys g ∧
    dictKeys g'.edges = dictKeys g.edges ∧
    (∀ n, (dictGet g'.nodes n).map NodeRec.data = (dictGet g.nodes n).map NodeRec.data) ∧
    (∀ y, dictGet g'.edges y = (dictGet g.edges y).map swapRec) := by
  unfold transpose at h
  rcases GM_bind_inv h with ⟨a, g1, hA, hB⟩ | ⟨e0, hA, hB⟩
  · obtain ⟨ha1, ha2⟩ := GM_getG_inv hA
    injection ha1 with ha1
    have ha1s : g = a := ha1.symm
    cases ha1s
    have ha2s : g = g1 := ha2.symm
    cases ha2s
    obtain ⟨hwf2, hcnt2, hnk2, hkeys2, hdata2, hin2, hout2⟩ :=
      transposeList_swap (edgeKeys g) hwf hwf.2.1 (fun y hy => hy) hB
    refine ⟨hwf2, hcnt2, hnk2, hkeys2, hdata2, ?_⟩
    intro y
    by_cases hy : y ∈ edgeKeys g
    · exact hin2 y hy
    · rw [hout2 y hy, (dictGet_none_iff _ _).mpr hy]
      rfl
  · exact Except.noConfusion hB


/-- Claim C6 counterexample: on the parallel-edge graph whose `A.outgoing`
list is `[e2, e1]`, two successful `transpose()` calls return `A.outgoing` as
`[e1, e2]` — the adjacency lists are NOT restored to exactly their original
state, because each `move_edge` removes the edge from the middle of the list
and re-appends it at the end. -/
theorem claim_C6_counterexample :
    (transpose gMoved).1 = Except.ok () ∧
    (transpose ((transpose gMoved).2)).1 = Except.ok () ∧
    (nodeRec gMoved (PName.s "A")).outgoing = [PName.s "e2", PName.s "e1"] ∧
    (nodeRec ((transpose ((transpose gMoved).2)).2) (PName.s "A")).outgoing
      = [PName.s "e1", PName.s "e2"] :=
  ⟨rfl, rfl, rfl, rfl⟩

/-- One balanced pair of successful `transpose()` calls on a well-formed
state restores the edge store exactly and the adjacency lists up to
permutation, and preserves well-formedness. -/
theorem transpose_pair_restore {g gmid g2 : Graph} (hwfc : WFc g)
    (h1 : transpose g = (Except.ok (), gmid))
    (h2 : transpose gmid = (Except.ok (), g2)) :
    WFc g2 ∧ g2.edges = g.edges ∧ g2.counter = g.counter ∧ nodeKeys g2 = nodeKeys g ∧
    (∀ n, (dictGet g2.nodes n).map NodeRec.data = (dictGet g.nodes n).map NodeRec.data) ∧
    (∀ n, ((nodeRec g2 n).outgoing).Perm ((nodeRec g n).outgoing) ∧
          ((nodeRec g2 n).incoming).Perm ((nodeRec g n).incoming) ∧
          ((nodeRec g2 n).bidirectional).Perm ((nodeRec g n).bidirectional)) := by
  obtain ⟨hwf1, hc1, hk1, he1, hd1, hg1⟩ := transpose_ok_inv hwfc h1
  obtain ⟨hwf2, hc2, hk2, he2, hd2, hg2⟩ := transpose_ok_inv hwf1 h2
  have hedges : g2.edges = g.edges := by
    apply dict_ext
    · exact hwf2.2.1
    · exact he2.trans he1
    · intro k
      rw [hg2 k, hg1 k, Option.map_map]
      cases dictGet g.edges k with
      | none => rfl
      | some e =>
        show some (swapRec (swapRec e)) = some e
        rfl
  refine ⟨hwf2, hedges, hc2.trans hc1, hk2.trans hk1,
    fun n => (hd2 n).trans (hd1 n), ?_⟩
  intro n
  by_cases hn : n ∈ nodeKeys g
  · obtain ⟨r, hr⟩ := mem_nodeKeys_getRec hn
    have hn2 : n ∈ nodeKeys g2 := by rw [hk2, hk1]; exact hn
    obtain ⟨r2, hr2⟩ := mem_nodeKeys_getRec hn2
    have hview2 : nodeRec g2 n = r2 := by unfold nodeRec; rw [hr2]; rfl
    have hview : nodeRec g n = r := by unfold nodeRec; rw [hr]; rfl
    have hcnt : ∀ en, (r2.outgoing.count en = r.outgoing.count en ∧
        r2.incoming.count en = r.incoming.count en ∧
        r2.bidirectional.count en = r.bidirectional.count en) := by
      intro en
      obtain ⟨q1, q2, q3⟩ := hwf2.2.2.2.2.1 n r2 hr2 en
      obtain ⟨p1, p2, p3⟩ := hwfc.2.2.2.2.1 n r hr en
      have houtg : outCount g2 n en = outCount g n en := by
        unfold outCount expectOut
        rw [hedges]
      have hing : inCount g2 n en = inCount g n en := by
        unfold inCount expectIn
        rw [hedges]
      have hbidg : bidCount g2 n en = bidCount g n en := by
        unfold bidCount expectBid
        rw [hedges]
      exact ⟨by rw [q1, p1, houtg], by rw [q2, p2, hing], by rw [q3, p3, hbidg]⟩
    rw [hview2, hview]
    exact ⟨List.perm_iff_count.mpr (fun en => (hcnt en).1),
      List.perm_iff_count.mpr (fun en => (hcnt en).2.1),
      List.perm_iff_count.mpr (fun en => (hcnt en).2.2)⟩
  · have hn2 : n ∉ nodeKeys g2 := by rw [hk2, hk1]; exact hn
    have hview2 : nodeRec g2 n = default := by
      unfold nodeRec
      rw [(dictGet_none_iff _ _).mpr hn2]
      rfl
    have hview : nodeRec g n = default := by
      unfold nodeRec
      rw [(dictGet_none_iff _ _).mpr hn]
      rfl
    rw [hview2, hview]
    exact ⟨List.Perm.refl _, List.Perm.refl _, List.Perm.refl _⟩

/-- Claim C6 (amended): on a well-formed graph, every sequence of balanced
pairs of successful `transpose()` calls — in particular a single double
transpose, and the pairs `get_strongly_connected` performs (one per connected
component, with only read-only traversals in between) — restores the edge
store exactly on completion: every edge record, including its `start`, `end`
and direction, and even the store order; consequently `get_strongly_connected`
leaves edge directions unchanged on completion.  The node set, the counter and
every node's attributes are restored exactly as well, but each adjacency list
only up to permutation (the exact list order is not preserved; see the
counterexample). -/
theorem claim_C6_amended {g g2 : Graph} (hwf : WF g) (hpairs : TransposePairs g g2) :
    g2.edges = g.edges ∧ g2.counter = g.counter ∧ nodeKeys g2 = nodeKeys g ∧
    (∀ n, (dictGet g2.nodes n).map NodeRec.data = (dictGet g.nodes n).map NodeRec.data) ∧
    (∀ n, ((nodeRec g2 n).outgoing).Perm ((nodeRec g n).outgoing) ∧
          ((nodeRec g2 n).incoming).Perm ((nodeRec g n).incoming) ∧
          ((nodeRec g2 n).bidirectional).Perm ((nodeRec g n).bidirectional)) := by
  have main : WFc g2 ∧ (g2.edges = g.edges ∧ g2.counter = g.counter ∧
      nodeKeys g2 = nodeKeys g ∧
      (∀ n, (dictGet g2.nodes n).map NodeRec.data =
        (dictGet g.nodes n).map NodeRec.data) ∧
      (∀ n, ((nodeRec g2 n).outgoing).Perm ((nodeRec g n).outgoing) ∧
            ((nodeRec g2 n).incoming).Perm ((nodeRec g n).incoming) ∧
            ((nodeRec g2 n).bidirectional).Perm ((nodeRec g n).bidirectional))) := by
    induction hpairs with
    | refl =>
      exact ⟨(WF_iff_WFc g).mp hwf, rfl, rfl, rfl, fun n => rfl,
        fun n => ⟨List.Perm.refl _, List.Perm.refl _, List.Perm.refl _⟩⟩
    | pair hprev ht1 ht2 ih =>
      obtain ⟨ihw, ihe, ihc, ihk, ihd, ihp⟩ := ih
      obtain ⟨hw2, he2, hc2, hk2, hd2, hp2⟩ := transpose_pair_restore ihw ht1 ht2
      refine ⟨hw2, he2.trans ihe, hc2.trans ihc, hk2.trans ihk,
        fun n => (hd2 n).trans (ihd n), ?_⟩
      intro n
      exact ⟨(hp2 n).1.trans (ihp n).1, (hp2 n).2.1.trans (ihp n).2.1,
        (hp2 n).2.2.trans (ihp n).2.2⟩
  exact main.2

/-- Witness for `claim_C6_amended` at the concrete graph `gMoved`, applied to
the single balanced transpose pair: the double transpose restores the edge
store exactly and `A`'s outgoing list up to permutation. -/
theorem claim_C6_amended_witness :
    ((transpose ((transpose gMoved).2)).2).edges = gMoved.edges ∧
    ((nodeRec ((transpose ((transpose gMoved).2)).2) (PName.s "A")).outgoing).Perm
      ((nodeRec gMoved (PName.s "A")).outgoing) := by
  have hp : TransposePairs gMoved ((transpose ((transpose gMoved).2)).2) :=
    TransposePairs.pair (TransposePairs.refl gMoved)
      (rfl : transpose gMoved = (Except.ok (), (transpose gMoved).2))
      (rfl : transpose ((transpose gMoved).2) =
        (Except.ok (), (transpose ((transpose gMoved).2)).2))
  have h := claim_C6_amended (show WF gMoved by decide) hp
  exact ⟨h.1, (h.2.2.2.2 (PName.s "A")).1⟩


theorem ball_zero_def (g : Graph) (root : PName) : ball g root 0 = [root] := rfl

theorem ball_succ_def (g : Graph) (root : PName) (k : Nat) :
    ball g root (k+1) = ball g root k ++
      (ball g root k).flatMap (fun u => getAdjacent g u) := rfl

theorem mem_ball_succ_of_mem {g : Graph} {root u : PName} {k : Nat}
    (h : u ∈ ball g root k) : u ∈ ball g root (k+1) := by
  rw [ball_succ_def]
  exact List.mem_append_left _ h

theorem mem_ball_mono {g : Graph} {root u : PName} :
    ∀ {k m : Nat}, k ≤ m → u ∈ ball g root k → u ∈ ball g root m := by
  intro k m h
  induction m with
  | zero =>
    intro hu
    rw [Nat.le_zero.mp h] at hu
    exact hu
  | succ m ih =>
    intro hu
    by_cases hk : k = m + 1
    · rw [hk] at hu
      exact hu
    · exact mem_ball_succ_of_mem (ih (Nat.lt_succ_iff.mp (Nat.lt_of_le_of_ne h hk)) hu)

theorem root_mem_ball (g : Graph) (root : PName) : ∀ k, root ∈ ball g root k := by
  intro k
  induction k with
  | zero => exact List.mem_singleton.mpr rfl
  | succ k ih => exact mem_ball_succ_of_mem ih

theorem ball_step {g : Graph} {root u w : PName} {k : Nat} (hu : u ∈ ball g root k)
    (hw : w ∈ getAdjacent g u) : w ∈ ball g root (k+1) := by
  rw [ball_succ_def]
  exact List.mem_append_right _ (List.mem_flatMap.mpr ⟨u, hu, hw⟩)

theorem ball_succ_cases {g : Graph} {root w : PName} {k : Nat}
    (h : w ∈ ball g root (k+1)) :
    w ∈ ball g root k ∨ ∃ u ∈ ball g root k, w ∈ getAdjacent g u := by
  rw [ball_succ_def] at h
  rcases List.mem_append.mp h with h1 | h1
  · exact Or.inl h1
  · exact Or.inr (List.mem_flatMap.mp h1)

theorem mem_ball_zero {g : Graph} {root w : PName} (h : w ∈ ball g root 0) : w = root :=
  List.mem_singleton.mp h

theorem distLeB_refl (g : Graph) (root u : PName) : distLeB g root u u :=
  fun _ h => h

theorem distLeB_trans {g : Graph} {root u v w : PName} (h1 : distLeB g root u v)
    (h2 : distLeB g root v w) : distLeB g root u w :=
  fun k hw => h1 k (h2 k hw)

theorem pyAppendNew_mem_eq {q : List PName} {a : PName} (h : a ∈ q) :
    pyAppendNew q a = q := by
  unfold pyAppendNew
  rw [if_pos h]

theorem pyAppendNew_not_mem_eq {q : List PName} {a : PName} (h : a ∉ q) :
    pyAppendNew q a = q ++ [a] := by
  unfold pyAppendNew
  rw [if_neg h]

theorem foldl_pyAppendNew :
    ∀ (l q : List PName), l.Nodup →
      l.foldl pyAppendNew q = q ++ l.filter (fun w => decide (w ∉ q)) := by
  intro l
  induction l with
  | nil =>
    intro q _
    simp
  | cons a t ih =>
    intro q hl
    obtain ⟨hat, hnd⟩ := List.nodup_cons.mp hl
    rw [List.foldl_cons, List.filter_cons]
    by_cases ha : a ∈ q
    · rw [pyAppendNew_mem_eq ha, ih q hnd]
      simp [ha]
    · rw [pyAppendNew_not_mem_eq ha, ih (q ++ [a]) hnd]
      rw [if_pos (by simp [ha])]
      rw [List.append_assoc, List.singleton_append]
      congr 1
      congr 1
      apply List.filter_congr
      intro x hx
      have hxa : x ≠ a := fun hh => hat (hh ▸ hx)
      simp [hxa]

theorem nodup_foldl_pyAppendNew :
    ∀ (l q : List PName), q.Nodup → (l.foldl pyAppendNew q).Nodup := by
  intro l
  induction l with
  | nil =>
    intro q hq
    exact hq
  | cons a t ih =>
    intro q hq
    rw [List.foldl_cons]
    apply ih
    by_cases ha : a ∈ q
    · rw [pyAppendNew_mem_eq ha]
      exact hq
    · rw [pyAppendNew_not_mem_eq ha]
      simp [List.nodup_append, hq, ha]

theorem getAdjacent_nodup (g : Graph) (n : PName) (outg inc : Bool) :
    (getAdjacent g n outg inc).Nodup := by
  unfold getAdjacent dedupFirst
  exact nodup_foldl_pyAppendNew _ _ List.nodup_nil

theorem mem_foldl_pyAppendNew_sub :
    ∀ (l q : List PName) (x : PName), x ∈ l.foldl pyAppendNew q → x ∈ q ∨ x ∈ l := by
  intro l
  induction l with
  | nil =>
    intro q x h
    exact Or.inl h
  | cons a t ih =>
    intro q x h
    rw [List.foldl_cons] at h
    rcases ih _ x h with h1 | h1
    · by_cases ha : a ∈ q
      · rw [pyAppendNew_mem_eq ha] at h1
        exact Or.inl h1
      · rw [pyAppendNew_not_mem_eq ha] at h1
        rcases List.mem_append.mp h1 with h2 | h2
        · exact Or.inl h2
        · exact Or.inr (by rw [List.mem_singleton.mp h2]; exact List.mem_cons_self _ _)
    · exact Or.inr (List.mem_cons_of_mem _ h1)

theorem ball_cover {g : Graph} {root : PName} {vis : Finset PName} {q : List PName}
    (hroot : root ∈ vis ∨ root ∈ q)
    (hN : ∀ v ∈ vis, ∀ w ∈ getAdjacent g v, w ∈ vis ∨ w ∈ q) :
    ∀ (k : Nat) (w : PName), w ∈ ball g root k →
      w ∈ vis ∨ w ∈ q ∨ ∃ u, u ∈ q ∧ ∃ j, j + 1 ≤ k ∧ u ∈ ball g root j := by
  intro k
  induction k with
  | zero =>
    intro w hw
    rw [mem_ball_zero hw]
    rcases hroot with h | h
    · exact Or.inl h
    · exact Or.inr (Or.inl h)
  | succ k ih =>
    intro w hw
    rcases ball_succ_cases hw with h1 | ⟨p, hp, hadj⟩
    · rcases ih w h1 with h | h | ⟨u, hu, j, hj, hb⟩
      · exact Or.inl h
      · exact Or.inr (Or.inl h)
      · exact Or.inr (Or.inr ⟨u, hu, j, Nat.le_succ_of_le hj, hb⟩)
    · rcases ih p hp with h | h | ⟨u, hu, j, hj, hb⟩
      · rcases hN p h w hadj with h2 | h2
        · exact Or.inl h2
        · exact Or.inr (Or.inl h2)
      · exact Or.inr (Or.inr ⟨p, h, k, Nat.le_refl _, hp⟩)
      · exact Or.inr (Or.inr ⟨u, hu, j, Nat.le_succ_of_le hj, hb⟩)

theorem endpoints_length :
    ∀ (l : List (PName × EdgeRec)),
      (l.flatMap (fun p => [p.2.start, p.2.endp])).length = 2 * l.length := by
  intro l
  induction l with
  | nil => rfl
  | cons p t ih =>
    rw [List.flatMap_cons, List.length_append, ih, List.length_cons]
    simp only [List.length_cons, List.length_nil]
    omega

theorem getAdjacent_subset_endpoints {g : Graph} {v w : PName} {outg inc : Bool}
    (h : w ∈ getAdjacent g v outg inc) :
    w ∈ g.edges.flatMap (fun p => [p.2.start, p.2.endp]) := by
  unfold getAdjacent dedupFirst at h
  rcases mem_foldl_pyAppendNew_sub _ _ _ h with h1 | h1
  · cases h1
  · have hpick : ∀ (e : EdgeRec) (en : PName), (en, e) ∈ g.edges →
        ∀ y, (y = e.start ∨ y = e.endp) →
        y ∈ g.edges.flatMap (fun p => [p.2.start, p.2.endp]) := by
      intro e en hmem y hy
      apply List.mem_flatMap.mpr
      refine ⟨(en, e), hmem, ?_⟩
      rcases hy with hy | hy <;> simp [hy]
    rcases List.mem_append.mp h1 with h2 | h2
    · rcases List.mem_append.mp h2 with h3 | h3
      · by_cases ho : outg = true
        · rw [if_pos ho] at h3
          obtain ⟨en, _, hfm⟩ := List.mem_filterMap.mp h3
          obtain ⟨e, hge, hew⟩ := Option.map_eq_some'.mp hfm
          exact hpick e en (dictGet_mem hge) w (Or.inr hew.symm)
        · rw [if_neg ho] at h3
          cases h3
      · by_cases hi : inc = true
        · rw [if_pos hi] at h3
          obtain ⟨en, _, hfm⟩ := List.mem_filterMap.mp h3
          obtain ⟨e, hge, hew⟩ := Option.map_eq_some'.mp hfm
          exact hpick e en (dictGet_mem hge) w (Or.inl hew.symm)
        · rw [if_neg hi] at h3
          cases h3
    · by_cases hb : (outg || inc) = true
      · rw [if_pos hb] at h2
        obtain ⟨en, _, hfm⟩ := List.mem_filterMap.mp h2
        obtain ⟨e, hge, hew⟩ := Option.map_eq_some'.mp hfm
        apply hpick e en (dictGet_mem hge) w
        rw [← hew]
        unfold otherEndD
        by_cases hse : e.start = v
        · rw [if_pos hse]
          exact Or.inr rfl
        · rw [if_neg hse]
          exact Or.inl rfl
      · rw [if_neg hb] at h2
        cases h2


theorem bfs_aux_main (g : Graph) (root : PName) (S : Finset PName)
    (hSadj : ∀ v w : PName, w ∈ getAdjacent g v → w ∈ S) :
    ∀ (fuel : Nat) (q : List PName) (vis : Finset PName),
    (root ∈ vis ∨ root ∈ q) →
    (∀ v ∈ vis, ∀ w ∈ getAdjacent g v, w ∈ vis ∨ w ∈ q) →
    q.Pairwise (distLeB g root) →
    (∀ u ∈ q, ∀ v ∈ q, ∀ k, u ∈ ball g root k → v ∈ ball g root (k+1)) →
    q.Nodup →
    (∀ u ∈ q, u ∉ vis) →
    (∀ u ∈ q, u ∈ S) →
    vis ⊆ S →
    S.card ≤ fuel + vis.card →
    (heuristicAux g popFront fuel q vis).Pairwise (distLeB g root) ∧
    (∀ w ∈ heuristicAux g popFront fuel q vis, ∃ u, u ∈ q ∧ distLeB g root u w) ∧
    (∀ w k, w ∈ ball g root k → w ∈ vis ∨ w ∈ heuristicAux g popFront fuel q vis) := by
  intro fuel
  induction fuel with
  | zero =>
    intro q vis hroot hN _ _ _ hqv hqS hvS hcard
    refine ⟨List.Pairwise.nil, fun w hw => absurd hw (List.not_mem_nil _), ?_⟩
    intro w k hw
    cases q with
    | nil =>
      rcases ball_cover hroot hN k w hw with h | h | ⟨u, hu, _⟩
      · exact Or.inl h
      · cases h
      · cases hu
    | cons a q1 =>
      exfalso
      have haS : a ∈ S := hqS a (List.mem_cons_self _ _)
      have hav : a ∉ vis := hqv a (List.mem_cons_self _ _)
      have hss : vis ⊂ S := ⟨hvS, fun hSv => hav (hSv haS)⟩
      have := Finset.card_lt_card hss
      omega
  | succ fuel ih =>
    intro q vis hroot hN hP h1 hnd hqv hqS hvS hcard
    cases q with
    | nil =>
      refine ⟨List.Pairwise.nil, fun w hw => absurd hw (List.not_mem_nil _), ?_⟩
      intro w k hw
      rcases ball_cover hroot hN k w hw with h | h | ⟨u, hu, _⟩
      · exact Or.inl h
      · cases h
      · cases hu
    | cons a q1 =>
      have hstep : heuristicAux g popFront (fuel+1) (a :: q1) vis =
          a :: heuristicAux g popFront fuel
            (((getAdjacent g a).filter (fun w => decide (w ∉ insert a vis))).foldl
              pyAppendNew q1)
            (insert a vis) := rfl
      have hnotYet_nodup :
          ((getAdjacent g a).filter (fun w => decide (w ∉ insert a vis))).Nodup :=
        (getAdjacent_nodup g a true false).filter _
      have hfold : ((getAdjacent g a).filter (fun w => decide (w ∉ insert a vis))).foldl
          pyAppendNew q1 = q1 ++ (((getAdjacent g a).filter (fun w => decide (w ∉ insert a vis))).filter (fun w => decide (w ∉ q1))) :=
        foldl_pyAppendNew _ _ hnotYet_nodup
      rw [hfold] at hstep
      have hnewMem : ∀ w ∈ (((getAdjacent g a).filter (fun w => decide (w ∉ insert a vis))).filter (fun w => decide (w ∉ q1))), w ∈ getAdjacent g a ∧ w ≠ a ∧ w ∉ vis ∧ w ∉ q1 := by
        intro w hw
        rw [List.mem_filter] at hw
        obtain ⟨hw1, hw2⟩ := hw
        rw [List.mem_filter] at hw1
        obtain ⟨hw3, hw4⟩ := hw1
        rw [decide_eq_true_eq] at hw2 hw4
        rw [Finset.mem_insert] at hw4
        push_neg at hw4
        exact ⟨hw3, hw4.1, hw4.2, hw2⟩
      have hLrest : ∀ u ∈ q1, distLeB g root a u :=
        fun u hu => (List.pairwise_cons.mp hP).1 u hu
      have hstrict : ∀ w ∈ (((getAdjacent g a).filter (fun w => decide (w ∉ insert a vis))).filter (fun w => decide (w ∉ q1))), ∀ k, w ∈ ball g root (k+1) → a ∈ ball g root k := by
        intro w hw k hwb
        obtain ⟨hadj, hwa, hwv, hwq⟩ := hnewMem w hw
        rcases ball_cover hroot hN (k+1) w hwb with h | h | ⟨u, hu, j, hj, hb⟩
        · exact absurd h hwv
        · rcases List.mem_cons.mp h with h2 | h2
          · exact absurd h2 hwa
          · exact absurd h2 hwq
        · rcases List.mem_cons.mp hu with h2 | h2
          · rw [h2] at hb
            exact mem_ball_mono (Nat.succ_le_succ_iff.mp hj) hb
          · exact mem_ball_mono (Nat.succ_le_succ_iff.mp hj) (hLrest u h2 j hb)
      have hzero : ∀ w ∈ (((getAdjacent g a).filter (fun w => decide (w ∉ insert a vis))).filter (fun w => decide (w ∉ q1))), w ∉ ball g root 0 := by
        intro w hw hwb
        obtain ⟨_, hwa, hwv, hwq⟩ := hnewMem w hw
        have hwr := mem_ball_zero hwb
        rcases hroot with h | h
        · exact hwv (by rw [hwr]; exact h)
        · rcases List.mem_cons.mp h with h2 | h2
          · exact hwa (hwr.trans h2)
          · exact hwq (by rw [hwr]; exact h2)
      have hLnew : ∀ w ∈ (((getAdjacent g a).filter (fun w => decide (w ∉ insert a vis))).filter (fun w => decide (w ∉ q1))), distLeB g root a w := by
        intro w hw k hwb
        cases k with
        | zero => exact absurd hwb (hzero w hw)
        | succ k => exact mem_ball_succ_of_mem (hstrict w hw k hwb)
      have hUp : ∀ w ∈ (((getAdjacent g a).filter (fun w => decide (w ∉ insert a vis))).filter (fun w => decide (w ∉ q1))), ∀ k, a ∈ ball g root k → w ∈ ball g root (k+1) := by
        intro w hw k hb
        exact ball_step hb (hnewMem w hw).1
      have hroot2 : root ∈ insert a vis ∨ root ∈ q1 ++ (((getAdjacent g a).filter (fun w => decide (w ∉ insert a vis))).filter (fun w => decide (w ∉ q1))) := by
        rcases hroot with h | h
        · exact Or.inl (Finset.mem_insert_of_mem h)
        · rcases List.mem_cons.mp h with h2 | h2
          · exact Or.inl (by rw [h2]; exact Finset.mem_insert_self _ _)
          · exact Or.inr (List.mem_append_left _ h2)
      have hN2 : ∀ v ∈ insert a vis, ∀ w ∈ getAdjacent g v,
          w ∈ insert a vis ∨ w ∈ q1 ++ (((getAdjacent g a).filter (fun w => decide (w ∉ insert a vis))).filter (fun w => decide (w ∉ q1))) := by
        intro v hv w hw
        rcases Finset.mem_insert.mp hv with hv1 | hv1
        · subst hv1
          by_cases hwv : w ∈ insert v vis
          · exact Or.inl hwv
          · by_cases hwq : w ∈ q1
            · exact Or.inr (List.mem_append_left _ hwq)
            · refine Or.inr (List.mem_append_right _ ?_)
              rw [List.mem_filter, List.mem_filter]
              refine ⟨⟨hw, ?_⟩, ?_⟩
              · rw [decide_eq_true_eq]
                exact hwv
              · rw [decide_eq_true_eq]
                exact hwq
        · rcases hN v hv1 w hw with h2 | h2
          · exact Or.inl (Finset.mem_insert_of_mem h2)
          · rcases List.mem_cons.mp h2 with h3 | h3
            · exact Or.inl (by rw [h3]; exact Finset.mem_insert_self _ _)
            · exact Or.inr (List.mem_append_left _ h3)
      have hP2 : (q1 ++ (((getAdjacent g a).filter (fun w => decide (w ∉ insert a vis))).filter (fun w => decide (w ∉ q1)))).Pairwise (distLeB g root) := by
        rw [List.pairwise_append]
        refine ⟨(List.pairwise_cons.mp hP).2, ?_, ?_⟩
        · apply List.pairwise_of_forall_mem_list
          intro w1 hmem1 w2 hmem2
          intro k hw2
          cases k with
          | zero => exact absurd hw2 (hzero w2 hmem2)
          | succ k => exact hUp w1 hmem1 k (hstrict w2 hmem2 k hw2)
        · intro u hu w hw
          intro k hwb
          cases k with
          | zero => exact absurd hwb (hzero w hw)
          | succ k =>
            exact h1 a (List.mem_cons_self _ _) u (List.mem_cons_of_mem _ hu) k
              (hstrict w hw k hwb)
      have h12 : ∀ u ∈ q1 ++ (((getAdjacent g a).filter (fun w => decide (w ∉ insert a vis))).filter (fun w => decide (w ∉ q1))), ∀ v ∈ q1 ++ (((getAdjacent g a).filter (fun w => decide (w ∉ insert a vis))).filter (fun w => decide (w ∉ q1))), ∀ k,
          u ∈ ball g root k → v ∈ ball g root (k+1) := by
        intro u hu v hv k hub
        rcases List.mem_append.mp hu with hu1 | hu1 <;>
          rcases List.mem_append.mp hv with hv1 | hv1
        · exact h1 u (List.mem_cons_of_mem _ hu1) v (List.mem_cons_of_mem _ hv1) k hub
        · exact hUp v hv1 k (hLrest u hu1 k hub)
        · cases k with
          | zero => exact absurd hub (hzero u hu1)
          | succ k =>
            exact mem_ball_succ_of_mem
              (h1 a (List.mem_cons_self _ _) v (List.mem_cons_of_mem _ hv1) k
                (hstrict u hu1 k hub))
        · cases k with
          | zero => exact absurd hub (hzero u hu1)
          | succ k =>
            exact mem_ball_succ_of_mem (hUp v hv1 k (hstrict u hu1 k hub))
      have hnd2 : (q1 ++ (((getAdjacent g a).filter (fun w => decide (w ∉ insert a vis))).filter (fun w => decide (w ∉ q1)))).Nodup := by
        rw [List.nodup_append]
        exact ⟨(List.nodup_cons.mp hnd).2, hnotYet_nodup.filter _,
          fun y hy hy2 => (hnewMem y hy2).2.2.2 hy⟩
      have hqv2 : ∀ u ∈ q1 ++ (((getAdjacent g a).filter (fun w => decide (w ∉ insert a vis))).filter (fun w => decide (w ∉ q1))), u ∉ insert a vis := by
        intro u hu
        rcases List.mem_append.mp hu with h2 | h2
        · rw [Finset.mem_insert]
          push_neg
          refine ⟨?_, hqv u (List.mem_cons_of_mem _ h2)⟩
          intro hua
          exact (List.nodup_cons.mp hnd).1 (hua ▸ h2)
        · obtain ⟨_, hwa, hwv, _⟩ := hnewMem u h2
          rw [Finset.mem_insert]
          push_neg
          exact ⟨hwa, hwv⟩
      have hqS2 : ∀ u ∈ q1 ++ (((getAdjacent g a).filter (fun w => decide (w ∉ insert a vis))).filter (fun w => decide (w ∉ q1))), u ∈ S := by
        intro u hu
        rcases List.mem_append.mp hu with h2 | h2
        · exact hqS u (List.mem_cons_of_mem _ h2)
        · exact hSadj a u (hnewMem u h2).1
      have hvS2 : insert a vis ⊆ S := by
        intro y hy
        rcases Finset.mem_insert.mp hy with h2 | h2
        · rw [h2]
          exact hqS a (List.mem_cons_self _ _)
        · exact hvS h2
      have hcard2 : S.card ≤ fuel + (insert a vis).card := by
        rw [Finset.card_insert_of_not_mem (hqv a (List.mem_cons_self _ _))]
        omega
      obtain ⟨ihP, ihO2, ihO3⟩ := ih (q1 ++ (((getAdjacent g a).filter (fun w => decide (w ∉ insert a vis))).filter (fun w => decide (w ∉ q1)))) (insert a vis) hroot2 hN2 hP2 h12
        hnd2 hqv2 hqS2 hvS2 hcard2
      rw [hstep]
      refine ⟨?_, ?_, ?_⟩
      · rw [List.pairwise_cons]
        refine ⟨?_, ihP⟩
        intro w hw
        obtain ⟨u, hu, hleu⟩ := ihO2 w hw
        rcases List.mem_append.mp hu with h2 | h2
        · exact distLeB_trans (hLrest u h2) hleu
        · exact distLeB_trans (hLnew u h2) hleu
      · intro w hw
        rcases List.mem_cons.mp hw with h2 | h2
        · exact ⟨a, List.mem_cons_self _ _, by rw [h2]; exact distLeB_refl g root a⟩
        · obtain ⟨u, hu, hleu⟩ := ihO2 w h2
          rcases List.mem_append.mp hu with h3 | h3
          · exact ⟨a, List.mem_cons_self _ _, distLeB_trans (hLrest u h3) hleu⟩
          · exact ⟨a, List.mem_cons_self _ _, distLeB_trans (hLnew u h3) hleu⟩
      · intro w k hw
        rcases ihO3 w k hw with h2 | h2
        · rcases Finset.mem_insert.mp h2 with h3 | h3
          · exact Or.inr (by rw [h3]; exact List.mem_cons_self _ _)
          · exact Or.inl h3
        · exact Or.inr (List.mem_cons_of_mem _ h2)

/-- Claim C5: on any graph, for a root that resolves to a node,
`breadth_first_traversal` succeeds and yields nodes in layer order — every
yielded node is at hop-distance no greater than every node yielded after it —
and yields every node reachable along traversal (outgoing plus bidirectional)
steps. -/
theorem claim_C5 {g : Graph} {root : PName}
    (hroot : getElement g root = Except.ok (Elem.node root)) :
    ∃ out, breadthFirstTraversal g root = Except.ok out ∧
      out.Pairwise (distLeB g root) ∧
      ∀ w k, w ∈ ball g root k → w ∈ out := by
  unfold breadthFirstTraversal heuristicTraversal
  rw [hroot]
  refine ⟨heuristicAux g popFront (traversalFuel g) [root] ∅, rfl, ?_⟩
  have hS : ∀ (v w : PName), w ∈ getAdjacent g v →
      w ∈ insert root (g.edges.flatMap (fun p => [p.2.start, p.2.endp])).toFinset := by
    intro v w hw
    apply Finset.mem_insert_of_mem
    rw [List.mem_toFinset]
    exact getAdjacent_subset_endpoints hw
  obtain ⟨hPW, _, hO3⟩ := bfs_aux_main g root
    (insert root (g.edges.flatMap (fun p => [p.2.start, p.2.endp])).toFinset) hS
    (traversalFuel g) [root] ∅
    (Or.inr (List.mem_singleton.mpr rfl))
    (fun v hv => absurd hv (Finset.not_mem_empty v))
    (List.pairwise_singleton _ _)
    (by
      intro u hu v hv k hub
      rw [List.mem_singleton.mp hv]
      exact root_mem_ball g root (k+1))
    (List.nodup_singleton _)
    (fun u _ => Finset.not_mem_empty u)
    (fun u hu => by
      rw [List.mem_singleton.mp hu]
      exact Finset.mem_insert_self _ _)
    (Finset.empty_subset _)
    (by
      have h1 : (insert root
          (g.edges.flatMap (fun p => [p.2.start, p.2.endp])).toFinset).card
          ≤ (g.edges.flatMap (fun p => [p.2.start, p.2.endp])).toFinset.card + 1 :=
        Finset.card_insert_le _ _
      have h2 : (g.edges.flatMap (fun p => [p.2.start, p.2.endp])).toFinset.card
          ≤ (g.edges.flatMap (fun p => [p.2.start, p.2.endp])).length :=
        List.toFinset_card_le _
      have h3 := endpoints_length g.edges
      unfold traversalFuel
      omega)
  refine ⟨hPW, ?_⟩
  intro w k hw
  rcases hO3 w k hw with h | h
  · exact absurd h (Finset.not_mem_empty w)
  · exact h

/-- Witness for `claim_C5` on the diamond graph with root `A`. -/
theorem claim_C5_witness :
    ∃ out, breadthFirstTraversal gDiamond (PName.s "A") = Except.ok out ∧
      out.Pairwise (distLeB gDiamond (PName.s "A")) ∧
      ∀ w k, w ∈ ball gDiamond (PName.s "A") k → w ∈ out :=
  claim_C5 rfl
theorem addEdge_some_keys {s t en : PName} {dir : Bool} {attrs : Attrs} {g g' : Graph}
    {res : PName} (h : addEdge s t (some en) dir attrs g = (Except.ok res, g')) :
    en ∈ edgeKeys g' ∧ (∀ m, m ∈ edgeKeys g → m ∈ edgeKeys g') ∧
    nodeKeys g' = nodeKeys g := by
  obtain ⟨d, _, _, _, hres, _, hedges, hnodes⟩ := addEdge_ok h
  simp only [Option.getD] at hres
  have hk : nodeKeys g' = nodeKeys g := by
    unfold nodeKeys
    rw [hnodes]
    split_ifs <;> simp [dictKeys_dictAdjust]
  refine ⟨?_, ?_, hk⟩
  · show en ∈ dictKeys g'.edges
    rw [hedges, ← hres]
    exact mem_dictKeys_dictSet_self _ _ _
  · intro m hm
    show m ∈ dictKeys g'.edges
    rw [hedges]
    exact mem_dictKeys_dictSet_of_mem _ _ _ hm

theorem intersectionEdgesLoop_monoOk {o : Graph} {l : List (PName × EdgeRec)} :
    ∀ {g0 g1 : Graph} {u : Unit},
    intersectionEdgesLoop o l g0 = (Except.ok u, g1) →
    ∀ en, en ∈ edgeKeys g0 → en ∈ edgeKeys g1 := by
  induction l with
  | nil =>
    intro g0 g1 u h
    obtain ⟨_, hg⟩ := GM_pure_inv h
    subst hg
    exact fun en hen => hen
  | cons p t ih =>
    intro g0 g1 u h
    have hshape : intersectionEdgesLoop o (p :: t) g0 =
        (if containsEdge o p.1 = true then
          (GM.getG >>= fun cur =>
            if containsNode cur p.2.start = true ∧ containsNode cur p.2.endp = true then
              (addEdge p.2.start p.2.endp (some p.1) p.2.directed p.2.data >>= fun _ =>
                intersectionEdgesLoop o t)
            else intersectionEdgesLoop o t)
         else intersectionEdgesLoop o t) g0 := rfl
    rw [hshape] at h
    by_cases hc : containsEdge o p.1 = true
    · rw [if_pos hc] at h
      rcases GM_bind_inv h with ⟨cur, gm, hx, hrest⟩ | ⟨e, hx, hr⟩
      · obtain ⟨hgv, hgm⟩ := GM_getG_inv hx
        injection hgv with hgv
        have hgvs : g0 = cur := hgv.symm
        cases hgvs
        have hgms : g0 = gm := hgm.symm
        cases hgms
        by_cases hcond : containsNode g0 p.2.start = true ∧ containsNode g0 p.2.endp = true
        · rw [if_pos hcond] at hrest
          rcases GM_bind_inv hrest with ⟨u2, gm2, hy, hrest2⟩ | ⟨e, hy, hr2⟩
          · intro en hen
            exact ih hrest2 en ((addEdge_some_keys hy).2.1 en hen)
          · exact Except.noConfusion hr2
        · rw [if_neg hcond] at hrest
          exact ih hrest
      · exact Except.noConfusion (GM_getG_inv hx).1
    · rw [if_neg hc] at h
      exact ih h

theorem intersectionEdgesLoop_hits {o : Graph} {l : List (PName × EdgeRec)} :
    ∀ {g0 g1 : Graph} {u : Unit},
    intersectionEdgesLoop o l g0 = (Except.ok u, g1) →
    ∀ en e, (en, e) ∈ l → containsEdge o en = true →
      containsNode g0 e.start = true → containsNode g0 e.endp = true →
      en ∈ edgeKeys g1 := by
  induction l with
  | nil =>
    intro g0 g1 u _ en e hm
    cases hm
  | cons p t ih =>
    intro g0 g1 u h en e hm hc hs ht
    have hshape : intersectionEdgesLoop o (p :: t) g0 =
        (if containsEdge o p.1 = true then
          (GM.getG >>= fun cur =>
            if containsNode cur p.2.start = true ∧ containsNode cur p.2.endp = true then
              (addEdge p.2.start p.2.endp (some p.1) p.2.directed p.2.data >>= fun _ =>
                intersectionEdgesLoop o t)
            else intersectionEdgesLoop o t)
         else intersectionEdgesLoop o t) g0 := rfl
    rw [hshape] at h
    rcases List.mem_cons.mp hm with h1 | h1
    · rw [← h1] at h
      rw [if_pos hc] at h
      rcases GM_bind_inv h with ⟨cur, gm, hx, hrest⟩ | ⟨e0, hx, hr⟩
      · obtain ⟨hgv, hgm⟩ := GM_getG_inv hx
        injection hgv with hgv
        have hgvs : g0 = cur := hgv.symm
        cases hgvs
        have hgms : g0 = gm := hgm.symm
        cases hgms
        rw [if_pos ⟨hs, ht⟩] at hrest
        rcases GM_bind_inv hrest with ⟨u2, gm2, hy, hrest2⟩ | ⟨e0, hy, hr2⟩
        · exact intersectionEdgesLoop_monoOk hrest2 en (addEdge_some_keys hy).1
        · exact Except.noConfusion hr2
      · exact Except.noConfusion (GM_getG_inv hx).1
    · by_cases hcp : containsEdge o p.1 = true
      · rw [if_pos hcp] at h
        rcases GM_bind_inv h with ⟨cur, gm, hx, hrest⟩ | ⟨e0, hx, hr⟩
        · obtain ⟨hgv, hgm⟩ := GM_getG_inv hx
          injection hgv with hgv
          have hgvs : g0 = cur := hgv.symm
          cases hgvs
          have hgms : g0 = gm := hgm.symm
          cases hgms
          by_cases hcond : containsNode g0 p.2.start = true ∧ containsNode g0 p.2.endp = true
          · rw [if_pos hcond] at hrest
            rcases GM_bind_inv hrest with ⟨u2, gm2, hy, hrest2⟩ | ⟨e0, hy, hr2⟩
            · have hk := (addEdge_some_keys hy).2.2
              have hs2 : containsNode gm2 e.start = true := by
                apply (dictGet_isSome_iff _ _).mpr
                show e.start ∈ nodeKeys gm2
                rw [hk]
                exact (dictGet_isSome_iff _ _).mp hs
              have ht2 : containsNode gm2 e.endp = true := by
                apply (dictGet_isSome_iff _ _).mpr
                show e.endp ∈ nodeKeys gm2
                rw [hk]
                exact (dictGet_isSome_iff _ _).mp ht
              exact ih hrest2 en e h1 hc hs2 ht2
            · exact Except.noConfusion hr2
          · rw [if_neg hcond] at hrest
            exact ih hrest en e h1 hc hs ht
        · exact Except.noConfusion (GM_getG_inv hx).1
      · rw [if_neg hcp] at h
        exact ih h en e h1 hc hs ht


/-- Claim C2, amended: intersection is name-based, never data-based.  Graphs
sharing no node or edge names intersect to the empty graph; in any computed
intersection a node is present iff its name is stored in both operands, an
edge name is present only if it is stored in both operands, and conversely an
edge stored in either operand whose name the other operand also holds and
whose endpoint names made it into the result is present.  Data equivalence is
never consulted, as the counterexample shows. -/
theorem claim_C2_amended :
    (∀ a b : Graph,
      (∀ n, n ∈ nodeKeys a → n ∉ nodeKeys b) →
      (∀ n, n ∈ edgeKeys a → n ∉ edgeKeys b) →
      intersection a b = Except.ok newGraph) ∧
    (∀ (a b g' : Graph), intersection a b = Except.ok g' →
      (∀ n, n ∈ nodeKeys g' ↔ n ∈ nodeKeys a ∧ n ∈ nodeKeys b) ∧
      (∀ en, en ∈ edgeKeys g' → en ∈ edgeKeys a ∧ en ∈ edgeKeys b) ∧
      (∀ en e, dictGet a.edges en = some e → en ∈ edgeKeys b →
        e.start ∈ nodeKeys g' → e.endp ∈ nodeKeys g' → en ∈ edgeKeys g') ∧
      (∀ en e, dictGet b.edges en = some e → en ∈ edgeKeys a →
        e.start ∈ nodeKeys g' → e.endp ∈ nodeKeys g' → en ∈ edgeKeys g')) := by
  constructor
  · intro a b hn he
    have h1 : intersectionNodesLoop b a.nodes newGraph = (Except.ok (), newGraph) :=
      intersectionNodesLoop_skip
        (fun p hp => containsNode_false_of_not_mem
          (hn p.1 (List.mem_map_of_mem Prod.fst hp))) newGraph
    have h2 : intersectionNodesLoop a b.nodes newGraph = (Except.ok (), newGraph) :=
      intersectionNodesLoop_skip
        (fun p hp => containsNode_false_of_not_mem
          (fun hmem => hn p.1 hmem (List.mem_map_of_mem Prod.fst hp))) newGraph
    have h3 : intersectionEdgesLoop b a.edges newGraph = (Except.ok (), newGraph) :=
      intersectionEdgesLoop_skip
        (fun p hp => containsEdge_false_of_not_mem
          (he p.1 (List.mem_map_of_mem Prod.fst hp))) newGraph
    have h4 : intersectionEdgesLoop a b.edges newGraph = (Except.ok (), newGraph) :=
      intersectionEdgesLoop_skip
        (fun p hp => containsEdge_false_of_not_mem
          (fun hmem => he p.1 hmem (List.mem_map_of_mem Prod.fst hp))) newGraph
    have hprog : (do
        intersectionNodesLoop b a.nodes
        intersectionNodesLoop a b.nodes
        intersectionEdgesLoop b a.edges
        intersectionEdgesLoop a b.edges : GM Unit) newGraph = (Except.ok (), newGraph) := by
      rw [GM_run_bind_ok h1, GM_run_bind_ok h2, GM_run_bind_ok h3, h4]
    unfold intersection
    rw [hprog]
  · intro a b gOut h
    unfold intersection at h
    cases hprog : (do
        intersectionNodesLoop b a.nodes
        intersectionNodesLoop a b.nodes
        intersectionEdgesLoop b a.edges
        intersectionEdgesLoop a b.edges : GM Unit) newGraph with
    | mk rr gg =>
      rw [hprog] at h
      cases rr with
      | error e =>
        have h2 : (Except.error e : Except PyErr Graph) = Except.ok gOut := h
        cases h2
      | ok u =>
        have h2 : (Except.ok gg : Except PyErr Graph) = Except.ok gOut := h
        injection h2 with h2
        subst h2
        rcases GM_bind_inv hprog with ⟨u1, s1, hs1, hrest⟩ | ⟨e, hs1, hr1⟩
        swap
        · cases hr1
        rcases GM_bind_inv hrest with ⟨u2, s2, hs2, hrest2⟩ | ⟨e, hs2, hr2⟩
        swap
        · cases hr2
        rcases GM_bind_inv hrest2 with ⟨u3, s3, hs3, hrest3⟩ | ⟨e, hs3, hr3⟩
        swap
        · cases hr3
        obtain ⟨heA, hnA⟩ := intersectionNodesLoop_state hs1
        obtain ⟨heB, hnB⟩ := intersectionNodesLoop_state hs2
        obtain ⟨hnC, heC⟩ := intersectionEdgesLoop_state hs3
        obtain ⟨hnD, heD⟩ := intersectionEdgesLoop_state hrest3
        have hkeysCD : nodeKeys gg = nodeKeys s2 := hnD.trans hnC
        refine ⟨?_, ?_, ?_, ?_⟩
        · intro n
          constructor
          · intro hn
            have hn2 : n ∈ nodeKeys s2 := by rw [← hkeysCD]; exact hn
            rcases hnB n hn2 with h1 | ⟨h1, h2⟩
            · rcases hnA n h1 with h3 | ⟨h3, h4⟩
              · cases h3
              · exact ⟨h3, (dictGet_isSome_iff _ _).mp h4⟩
            · exact ⟨(dictGet_isSome_iff _ _).mp h2, h1⟩
          · intro ⟨hna, hnb⟩
            obtain ⟨p, hp, hpk⟩ := List.mem_map.mp hna
            have hpm : (n, p.2) ∈ a.nodes := by
              rw [← hpk]
              exact hp
            have hs1mem : n ∈ nodeKeys s1 :=
              intersectionNodesLoop_hits hs1 n p.2 hpm
                ((dictGet_isSome_iff _ _).mpr hnb)
            have hs2mem : n ∈ nodeKeys s2 :=
              intersectionNodesLoop_monoOk hs2 n hs1mem
            rw [hkeysCD]
            exact hs2mem
        · intro en hen
          rcases heD en hen with h1 | ⟨h1, h2⟩
          · rcases heC en h1 with h3 | ⟨h3, h4⟩
            · have hs2e : s2.edges = [] := heB.trans heA
              rw [edgeKeys, hs2e] at h3
              cases h3
            · exact ⟨h3, (dictGet_isSome_iff _ _).mp h4⟩
          · exact ⟨(dictGet_isSome_iff _ _).mp h2, h1⟩
        · intro en e hge henb hstart hendp
          have hpm : (en, e) ∈ a.edges := dictGet_mem hge
          have hs3mem : en ∈ edgeKeys s3 :=
            intersectionEdgesLoop_hits hs3 en e hpm
              ((dictGet_isSome_iff _ _).mpr henb)
              ((dictGet_isSome_iff _ _).mpr (by
                show e.start ∈ nodeKeys s2
                rw [← hkeysCD]
                exact hstart))
              ((dictGet_isSome_iff _ _).mpr (by
                show e.endp ∈ nodeKeys s2
                rw [← hkeysCD]
                exact hendp))
          exact intersectionEdgesLoop_monoOk hrest3 en hs3mem
        · intro en e hge hena hstart hendp
          have hpm : (en, e) ∈ b.edges := dictGet_mem hge
          exact intersectionEdgesLoop_hits hrest3 en e hpm
            ((dictGet_isSome_iff _ _).mpr hena)
            ((dictGet_isSome_iff _ _).mpr (by
              show e.start ∈ nodeKeys s3
              rw [← hnD]
              exact hstart))
            ((dictGet_isSome_iff _ _).mpr (by
              show e.endp ∈ nodeKeys s3
              rw [← hnD]
              exact hendp))

/-- Witness for the amended claim C2: the name-disjoint pair `gIntA`,
`gDiamond` intersects to the empty graph, and the computed intersection of
`gIntA` and `gIntB` satisfies the name-membership characterisation of its
nodes in both directions. -/
theorem claim_C2_amended_witness :
    intersection gIntA gDiamond = Except.ok newGraph ∧
    (∀ n, n ∈ nodeKeys ({ nodes := [(PName.s "x", ⟨[("v", 2)], [], [], []⟩)],
                          edges := [], counter := 0 } : Graph) ↔
        n ∈ nodeKeys gIntA ∧ n ∈ nodeKeys gIntB) :=
  ⟨claim_C2_amended.1 gIntA gDiamond (by decide) (by decide),
   (claim_C2_amended.2 gIntA gIntB _ (by decide)).1⟩

